import Mathlib

/-! Huffman encoder (`DPLKYL002::HuffmanTree`): embedding and properties.

Shallow embedding of `libs/huffmantreelib/HuffmanTree.h` and `HuffmanTree.cpp`.

Conventions of the embedding.

* A C++ `char` is a `Char`; a `std::string` and the contents of a text file are a `List Char`.
  A file given by name is an `Option (List Char)`: `none` when the stream cannot be opened.
* `unsigned int` is a `Nat` reduced modulo `2 ^ 32` at every arithmetic operation;
  `int` is an `Int` obtained by `toInt32`.
* `std::unordered_map<K, V>` is an association list with pairwise distinct keys, in insertion
  order. The order in which a range `for` visits the elements is left unspecified by C++: a
  function that iterates over a map it did not receive as a list takes a `rank` of the keys and
  visits the elements by increasing rank (`iteration`); every order arises from some rank.
  Statements about a frequency table or a code table given as a list quantify over every such
  list, hence over every iteration order; statements about `compress` quantify over the ranks.
* `std::priority_queue<nodeType, vector<nodeType>, Compare>` is the underlying vector together
  with the binary-heap algorithms `push_heap` and `pop_heap` of the C++ standard library
  (libstdc++, `bits/stl_heap.h`).
* `shared_ptr<HuffmanNode>` is a `Link`: `null` or a pointer to a node.
-/

namespace HuffmanTree

/-! ## Data model (`HuffmanTree.h`) -/

/-- Value of a `shared_ptr<HuffmanNode>`: `nullptr`, or a pointer to a node with its four
fields `letter`, `frequency`, `leftLink`, `rightLink`. -/
inductive Link where
  | null : Link
  | ptr (letter : Char) (frequency : Nat) (leftLink rightLink : Link) : Link
  deriving DecidableEq

/-- Class `HuffmanNode`: a letter, a frequency and the two links. -/
structure HuffmanNode where
  letter : Char
  frequency : Nat
  leftLink : Link
  rightLink : Link
  deriving DecidableEq

/-- Range of `unsigned int`. -/
def UINT_RANGE : Nat := 2 ^ 32

/-- Constructor `HuffmanNode(char c, unsigned int f)`: both links are `nullptr`. -/
def HuffmanNode.new (c : Char) (f : Nat) : HuffmanNode :=
  { letter := c, frequency := f, leftLink := Link.null, rightLink := Link.null }

/-- Expression `shared_ptr<HuffmanNode>(new HuffmanNode(n))`: a pointer to a copy of `n`. -/
def Link.ofNode (n : HuffmanNode) : Link :=
  Link.ptr n.letter n.frequency n.leftLink n.rightLink

/-- Dereference `*link`; `none` for `nullptr`. -/
def Link.deref : Link → Option HuffmanNode
  | Link.null => none
  | Link.ptr c f l r => some { letter := c, frequency := f, leftLink := l, rightLink := r }

/-- Predicate `Compare::operator()`: `nodeA.getFrequency() >= nodeB.getFrequency()`. -/
def Compare (nodeA nodeB : HuffmanNode) : Bool :=
  decide (nodeA.frequency ≥ nodeB.frequency)

/-- Type `unordered_map<char, unsigned int>`. -/
abbrev FreqMap := List (Char × Nat)

/-- Type `unordered_map<char, string>`. -/
abbrev CodeMap := List (Char × List Char)

/-- Type `priority_queue<nodeType, vector<nodeType>, Compare>`: the underlying vector. -/
abbrev Queue := List HuffmanNode

/-- Member `unordered_map::insert`: adds the pair unless the key is present already. -/
def mapInsert {κ β : Type} [DecidableEq κ] (map : List (κ × β)) (k : κ) (v : β) : List (κ × β) :=
  match map.lookup k with
  | some _ => map
  | none => map ++ [(k, v)]

/-- Order in which a range `for` visits the elements of an `unordered_map` with `char` keys:
by increasing `rank` of the key, elements of equal rank in insertion order. C++ leaves the order
unspecified, so `rank` is arbitrary. -/
def iteration {β : Type} (rank : Char → Nat) (map : List (Char × β)) : List (Char × β) :=
  map.insertionSort (fun p q => rank p.1 ≤ rank q.1)

/-! ## The binary heap behind `std::priority_queue` -/

/-- Library routine `__push_heap(first, holeIndex, topIndex, value, comp)`: moves the hole up
while it is below `topIndex` and `comp(parent, value)` holds, then stores `value` in the hole. -/
def pushHeapLoop (value : HuffmanNode) (topIndex : Nat) :
    Nat → List HuffmanNode → Nat → List HuffmanNode
  | 0, first, holeIndex => first.set holeIndex value
  | fuel + 1, first, holeIndex =>
    let parent := (holeIndex - 1) / 2
    match first[parent]? with
    | some p =>
      if topIndex < holeIndex ∧ Compare p value = true then
        pushHeapLoop value topIndex fuel (first.set holeIndex p) parent
      else first.set holeIndex value
    | none => first.set holeIndex value

/-- Library routine `__push_heap`, the hole index bounding the number of iterations. -/
def pushHeap (first : List HuffmanNode) (holeIndex topIndex : Nat) (value : HuffmanNode) :
    List HuffmanNode :=
  pushHeapLoop value topIndex (holeIndex + 1) first holeIndex

/-- First loop of `__adjust_heap(first, holeIndex, len, value, comp)`: while the hole has two
children, the child chosen by `comp` moves into the hole. At the loop test `secondChild` equals
`holeIndex`, so one index is carried. Returns the vector and the hole. -/
def adjustLoop (len : Nat) : Nat → List HuffmanNode → Nat → List HuffmanNode × Nat
  | 0, first, holeIndex => (first, holeIndex)
  | fuel + 1, first, holeIndex =>
    if holeIndex < (len - 1) / 2 then
      let secondChild := 2 * (holeIndex + 1)
      match first[secondChild]?, first[secondChild - 1]? with
      | some r, some l =>
        let child := if Compare r l = true then secondChild - 1 else secondChild
        let moved := if Compare r l = true then l else r
        adjustLoop len fuel (first.set holeIndex moved) child
      | _, _ => (first, holeIndex)
    else (first, holeIndex)

/-- Library routine `__adjust_heap(first, holeIndex, len, value, comp)`. -/
def adjustHeap (first : List HuffmanNode) (holeIndex len : Nat) (value : HuffmanNode) :
    List HuffmanNode :=
  let topIndex := holeIndex
  let (first1, hole1) := adjustLoop len len first holeIndex
  if len % 2 = 0 ∧ hole1 = (len - 2) / 2 then
    let secondChild := 2 * (hole1 + 1)
    match first1[secondChild - 1]? with
    | some l => pushHeap (first1.set hole1 l) (secondChild - 1) topIndex value
    | none => pushHeap first1 hole1 topIndex value
  else pushHeap first1 hole1 topIndex value

/-- Member `priority_queue::push`: `push_back` followed by `push_heap`. -/
def push (priorityQueue : Queue) (x : HuffmanNode) : Queue :=
  let c := priorityQueue ++ [x]
  pushHeap c (c.length - 1) 0 x

/-- Member `priority_queue::top`: the front of the vector; `none` on an empty queue, where the
C++ call has undefined behaviour. -/
def top (priorityQueue : Queue) : Option HuffmanNode :=
  priorityQueue.head?

/-- Member `priority_queue::pop`: `pop_heap` (the top is exchanged with the last element and the
remaining range is re-adjusted) followed by `pop_back`. -/
def pop (priorityQueue : Queue) : Queue :=
  let last := priorityQueue.length - 1
  match priorityQueue[0]?, priorityQueue[last]? with
  | some t, some value =>
    if 1 < priorityQueue.length then
      (adjustHeap (priorityQueue.set last t) 0 last value).dropLast
    else priorityQueue.dropLast
  | _, _ => priorityQueue.dropLast

/-! ## Compression (`HuffmanTree.cpp`) -/

/-- Ways in which the C++ program leaves defined behaviour. -/
inductive Fault where
  /-- Evaluation of `priorityQueue.top()` on an empty queue. -/
  | topOfEmptyQueue : Fault
  /-- Evaluation of `*(node.rightLink)` with a null link. -/
  | nullLink : Fault
  /-- Evaluation of `new bitset<8>[numBytes]` with a negative `numBytes`. -/
  | badArrayLength : Fault
  /-- Evaluation of the `int` sum `i + 8` with a result above `INT_MAX`. -/
  | intOverflow : Fault
  deriving DecidableEq

/-- Body of the reading loop of `createMap`: a new letter is inserted with count 1, the count of
an old letter is incremented (`unsigned int` arithmetic). -/
def createMapStep (map : FreqMap) (letter : Char) : FreqMap :=
  match map.lookup letter with
  | none => mapInsert map letter 1
  | some _ => map.map (fun p => if p.1 = letter then (p.1, (p.2 + 1) % UINT_RANGE) else p)

/-- Function `createMap(map, inputFileName)`: the map after the call. A file that cannot be
opened (`none`) leaves the map unchanged. -/
def createMap (map : FreqMap) (inputFile : Option (List Char)) : FreqMap :=
  match inputFile with
  | none => map
  | some input => input.foldl createMapStep map

/-- Function `createPriorityQueue(priorityQueue, map)`: the queue after the call; one leaf node
is pushed per map element, in iteration order: `map` lists the elements in that order. -/
def createPriorityQueue (priorityQueue : Queue) (map : FreqMap) : Queue :=
  map.foldl (fun q node => push q (HuffmanNode.new node.1 node.2)) priorityQueue

/-- The node `newNode` of `buildHuffmanTree`: `HuffmanNode('\0', frequency)` with
`frequency = left->getFrequency() + right->getFrequency()` in `unsigned int`, whose links are
set to the two extracted nodes. -/
def mergeNode (left right : HuffmanNode) : HuffmanNode :=
  { letter := Char.ofNat 0, frequency := (left.frequency + right.frequency) % UINT_RANGE,
    leftLink := Link.ofNode left, rightLink := Link.ofNode right }

/-- Body of the `while` loop of `buildHuffmanTree`, applied to a queue of size above 1: two
nodes are extracted and their parent is pushed. -/
def buildStep (priorityQueue : Queue) : Queue :=
  match top priorityQueue with
  | none => priorityQueue
  | some left =>
    let q1 := pop priorityQueue
    match top q1 with
    | none => q1
    | some right =>
      let q2 := pop q1
      push q2 (mergeNode left right)

/-- The `while (priorityQueue.size() > 1)` loop of `buildHuffmanTree`. -/
def buildLoop : Nat → Queue → Queue
  | 0, priorityQueue => priorityQueue
  | fuel + 1, priorityQueue =>
    if 1 < priorityQueue.length then buildLoop fuel (buildStep priorityQueue)
    else priorityQueue

/-- Function `buildHuffmanTree(priorityQueue)`: the returned node and the queue after the call,
or the fault of reading the top of an empty queue. Each iteration shrinks the queue by one, so
its size bounds the number of iterations. -/
def buildHuffmanTree (priorityQueue : Queue) : Except Fault (HuffmanNode × Queue) :=
  let q := buildLoop priorityQueue.length priorityQueue
  match top q with
  | some huffmanNode => Except.ok (huffmanNode, q)
  | none => Except.error Fault.topOfEmptyQueue

/-- Function `buildCodeTable` on the node a link points to: a node whose `leftLink` is null is
recorded with the accumulated string; otherwise the left subtree is visited with `"0"` appended
and then the right subtree with `"1"` appended. -/
def buildCodeTableLink : Link → CodeMap → List Char → Except Fault CodeMap
  | Link.null, _, _ => Except.error Fault.nullLink
  | Link.ptr letter _ Link.null _, map, bitStringCode =>
    Except.ok (mapInsert map letter bitStringCode)
  | Link.ptr _ _ (Link.ptr a b c d) rightLink, map, bitStringCode =>
    match buildCodeTableLink (Link.ptr a b c d) map (bitStringCode ++ ['0']) with
    | Except.ok map1 => buildCodeTableLink rightLink map1 (bitStringCode ++ ['1'])
    | Except.error e => Except.error e

/-- Function `buildCodeTable(node, map, bitStringCode)`: the map after the call. -/
def buildCodeTable (node : HuffmanNode) (map : CodeMap) (bitStringCode : List Char) :
    Except Fault CodeMap :=
  buildCodeTableLink (Link.ofNode node) map bitStringCode

/-- Function `createCodeTableFile`: the text of the `.hdr` file; per element the letter, a
newline, the code, a newline, in iteration order: `map` lists the elements in that order. -/
def createCodeTableFile (map : CodeMap) : List Char :=
  map.flatMap (fun node => [node.1, '\n'] ++ node.2 ++ ['\n'])

/-- Body of the reading loop of `getBitStringCode`: `bitStringCode += map[letter]`, where
`operator[]` adds an empty string for a letter without element. -/
def getBitStringCodeStep (st : List Char × CodeMap) (letter : Char) : List Char × CodeMap :=
  match st.2.lookup letter with
  | some code => (st.1 ++ code, st.2)
  | none => (st.1, st.2 ++ [(letter, [])])

/-- Function `getBitStringCode(inputFileName, map)`: the returned string and the map after the
call. A file that cannot be opened gives the empty string. -/
def getBitStringCode (inputFile : Option (List Char)) (map : CodeMap) : List Char × CodeMap :=
  match inputFile with
  | none => ([], map)
  | some input => input.foldl getBitStringCodeStep ([], map)

/-- Function `createCompressedInputFile`: the length in decimal, a newline, the bit string. -/
def createCompressedInputFile (bitStringCode : List Char) : List Char :=
  (Nat.repr bitStringCode.length).toList ++ ['\n'] ++ bitStringCode

/-- Conversion of a size to `int` (32 bits, two-complement). -/
def toInt32 (n : Nat) : Int :=
  if n % 2 ^ 32 < 2 ^ 31 then ((n % 2 ^ 32 : Nat) : Int) else ((n % 2 ^ 32 : Nat) : Int) - 2 ^ 32

/-- The four bytes of an `int` in memory (little-endian), as written by
`write(reinterpret_cast<const char *>(&x), sizeof(int))`. -/
def intBytes (x : Int) : List Nat :=
  let u := (x % 2 ^ 32).toNat
  [u % 256, u / 256 % 256, u / 65536 % 256, u / 16777216 % 256]

/-- The `int` read back from four bytes by `read(reinterpret_cast<char *>(&x), sizeof(int))`. -/
def intOfBytes (b0 b1 b2 b3 : Nat) : Int :=
  toInt32 (b0 + 256 * b1 + 65536 * b2 + 16777216 * b3)

/-- Value of `*(letter + k)` for `letter = bitStringCode.c_str()`: a character of the string,
the terminating NUL at `k = size`, and beyond it whatever the memory after the buffer holds,
given by `past` (offset 0 is the byte right after the terminator). -/
def letterAt (bitStringCode : List Char) (past : Nat → Char) (k : Nat) : Char :=
  match bitStringCode[k]? with
  | some c => c
  | none =>
    if k = bitStringCode.length then Char.ofNat 0 else past (k - bitStringCode.length - 1)

/-- Largest value of an `int`. -/
def INT_MAX : Nat := 2147483647

/-- Inner loop of `createBinaryFile` for the byte starting at bit `i`:
`byteArr |= (test ? 1 : 0) << 7 - (k - i)` for `k = i, ..., i + 7`. The bound `i + 8` of the
loop is an `int`; `packLoop` runs this loop only when `i + 8` is at most `INT_MAX`. -/
def packByte (letter : Nat → Char) (i : Nat) : Nat :=
  (List.range 8).foldl
    (fun byteArr d => byteArr ||| ((if letter (i + d) = '1' then 1 else 0) <<< (7 - d))) 0

/-- Outer loop `for (int i = 0; i < bitStringCodeLength; i += 8)` of `createBinaryFile`, from
position `i` on: the bytes written, and the fault that ends the loop when the `int` sum `i + 8`
(in the test `k < i + 8` of the inner loop, and in `i += 8`) would exceed `INT_MAX`, which is
undefined behaviour in C++. -/
def packLoop (letter : Nat → Char) (bitStringCodeLength : Int) :
    Nat → Nat → List Nat × Option Fault
  | 0, _ => ([], none)
  | fuel + 1, i =>
    if (i : Int) < bitStringCodeLength then
      if INT_MAX < i + 8 then ([], some Fault.intOverflow)
      else
        let r := packLoop letter bitStringCodeLength fuel (i + 8)
        (packByte letter i :: r.1, r.2)
    else ([], none)

/-- The packed bytes written by `createBinaryFile` after the header, up to the fault of the
packing loop, if there is one. -/
def packedBytes (bitStringCode : List Char) (past : Nat → Char) : List Nat :=
  (packLoop (letterAt bitStringCode past) (toInt32 bitStringCode.length)
    bitStringCode.length 0).1

/-- The fault that ends the packing loop of `createBinaryFile`, if there is one. -/
def createBinaryFileFault (bitStringCode : List Char) (past : Nat → Char) : Option Fault :=
  (packLoop (letterAt bitStringCode past) (toInt32 bitStringCode.length)
    bitStringCode.length 0).2

/-- Function `createBinaryFile`: the bytes written to the `.bin` file: the `int` length, the
byte of `endBitStringCode` (a newline), and the packed bytes. When the packing loop leaves
defined behaviour (`createBinaryFileFault`), these are the bytes written before that. -/
def createBinaryFile (bitStringCode : List Char) (past : Nat → Char) : List Nat :=
  intBytes (toInt32 bitStringCode.length) ++ [('\n').toNat] ++ packedBytes bitStringCode past

/-- The three files written by `compress`. -/
structure Artifacts where
  /-- File `outputFileName + ".hdr"`. -/
  hdr : List Char
  /-- File `outputFileName`. -/
  txt : List Char
  /-- File `outputFileName + ".bin"`. -/
  bin : List Nat
  deriving DecidableEq

/-- Function `compress(inputFileName, outputFileName)`: the files written, or the fault met on
the way. `past` is the memory after the buffer of the bit string (see `letterAt`); `mapRank`
and `codeRank` give the orders in which `createPriorityQueue` iterates over the frequency table
and `createCodeTableFile` over the code table (see `iteration`). -/
def compress (inputFile : Option (List Char)) (past : Nat → Char)
    (mapRank codeRank : Char → Nat) : Except Fault Artifacts :=
  let map := createMap [] inputFile
  let priorityQueue := createPriorityQueue [] (iteration mapRank map)
  match buildHuffmanTree priorityQueue with
  | Except.error e => Except.error e
  | Except.ok (node, _) =>
    match buildCodeTable node [] [] with
    | Except.error e => Except.error e
    | Except.ok codeTableMap =>
      let bitStringCode := (getBitStringCode inputFile codeTableMap).1
      match createBinaryFileFault bitStringCode past with
      | some e => Except.error e
      | none =>
        Except.ok
          { hdr := createCodeTableFile (iteration codeRank codeTableMap),
            txt := createCompressedInputFile bitStringCode,
            bin := createBinaryFile bitStringCode past }

/-! ## Decompression (`HuffmanTree.cpp`) -/

/-- Type `unordered_map<string, string>` of `decompress`. -/
abbrev DecodeMap := List (List Char × List Char)

/-- State of an `ifstream` on a text file: the characters not read yet and two state bits. -/
structure IStream where
  rest : List Char
  eofbit : Bool
  failbit : Bool
  deriving DecidableEq

/-- Call `getline(inputFile, str, '\n')` on a string that is empty before the call: the string
read and the stream afterwards. A stream that is not good only gets `failbit`; otherwise the
characters up to the next newline are extracted and the newline is dropped; when the end of the
file comes first, `eofbit` is set, with `failbit` if nothing was extracted. -/
def getline (s : IStream) : List Char × IStream :=
  if s.eofbit = true ∨ s.failbit = true then ([], { s with failbit := true })
  else
    match s.rest.span (fun c => decide (c ≠ '\n')) with
    | (str, _ :: after) => (str, { rest := after, eofbit := false, failbit := false })
    | (str, []) => (str, { rest := [], eofbit := true, failbit := str.isEmpty })

/-- The loop `while (!inputFile.eof())` of `decompress` that reads the `.hdr` file. -/
def readTableLoop : Nat → IStream → DecodeMap → DecodeMap
  | 0, _, map => map
  | fuel + 1, inputFile, map =>
    if inputFile.eofbit = true then map
    else
      let (fieldCount, s1) := getline inputFile
      let (line, s2) := getline s1
      if line = [] then
        let (line3, s3) := getline s2
        readTableLoop fuel s3 (mapInsert map line3 ['\n'])
      else readTableLoop fuel s2 (mapInsert map line fieldCount)

/-- The map that `decompress` builds from the text of the `.hdr` file. Every iteration consumes
a character or reaches the end of the file, which bounds the number of iterations. -/
def readTable (hdr : List Char) : DecodeMap :=
  readTableLoop (hdr.length + 1) { rest := hdr, eofbit := false, failbit := false } []

/-- Expression `(numBits / 8) + (numBits % 8 ? 1 : 0)` in `int` arithmetic. -/
def numBytesOf (numBits : Int) : Int :=
  Int.tdiv numBits 8 + (if Int.tmod numBits 8 ≠ 0 then 1 else 0)

/-- Inner loop of the unpacking in `decompress`: the eight characters of one byte, from bit 7
down to bit 0; a bit is extracted as `(byte & 1 << i) >> i`. -/
def unpackByte (byte : Nat) : List Char :=
  [7, 6, 5, 4, 3, 2, 1, 0].map
    (fun i => if (byte &&& (1 <<< i)) >>> i = 1 then '1' else '0')

/-- The unpacking loops of `decompress`: the characters of `byteArr[0 .. numBytes)`; an element
that the file did not provide keeps the value 0 of its construction. -/
def unpack (payload : List Nat) (numBytes : Nat) : List Char :=
  (List.range numBytes).flatMap (fun j => unpackByte (payload.getD j 0))

/-- The decoding loop `for (int k = 0; k < bitStringCode.size(); k++)` of `decompress`, from
index `k` on: `bits` are the characters at the indices `k, k + 1, ...`; `line` and `decoded` are
the variables `line` and `decodedbitStringCode`. -/
def decodeLoop (map : DecodeMap) (numBits : Int) :
    Nat → List Char → List Char → List Char → List Char
  | _, [], _, decoded => decoded
  | k, letter :: bits, line, decoded =>
    let line1 := line ++ [letter]
    match map.lookup line1 with
    | some symbol =>
      if (k : Int) = numBits then decoded ++ symbol
      else decodeLoop map numBits (k + 1) bits [] (decoded ++ symbol)
    | none =>
      if (k : Int) = numBits then decoded
      else decodeLoop map numBits (k + 1) bits line1 decoded

/-- The part of `decompress` after the two files are open: the string written to the output
file. Bytes that the `.bin` file lacks read as 0. -/
def decodeFiles (hdr : List Char) (bin : List Nat) : Except Fault (List Char) :=
  let map := readTable hdr
  let numBits := intOfBytes (bin.getD 0 0) (bin.getD 1 0) (bin.getD 2 0) (bin.getD 3 0)
  let numBytes := numBytesOf numBits
  if numBytes < 0 then Except.error Fault.badArrayLength
  else
    let bitStringCode := unpack (bin.drop 5) numBytes.toNat
    Except.ok (decodeLoop map numBits 0 bitStringCode [] [])

/-- Function `decompress(inputFileName, outputFileName)`: the contents written to the output
file; `none` when one of the two input files cannot be opened and nothing is written. -/
def decompress (hdrFile : Option (List Char)) (binFile : Option (List Nat)) :
    Except Fault (Option (List Char)) :=
  match hdrFile, binFile with
  | some hdr, some bin =>
    match decodeFiles hdr bin with
    | Except.ok decoded => Except.ok (some decoded)
    | Except.error e => Except.error e
  | _, _ => Except.ok none

/-- Function `compress` followed by `decompress` on the files it wrote, as in `main` and in the
decompression tests. -/
def roundTrip (input : List Char) (past : Nat → Char) (mapRank codeRank : Char → Nat) :
    Except Fault (Option (List Char)) :=
  match compress (some input) past mapRank codeRank with
  | Except.ok files => decompress (some files.hdr) (some files.bin)
  | Except.error e => Except.error e

/-! ## Notions used to state the properties -/

/-- Frequency of the node a link points to (0 for a null link). -/
def Link.frequency : Link → Nat
  | Link.null => 0
  | Link.ptr _ f _ _ => f

/-- Leaves below a link, left to right, each with its letter and frequency. As in
`buildCodeTable`, a node is a leaf when its `leftLink` is null. -/
def Link.leaves : Link → List (Char × Nat)
  | Link.null => []
  | Link.ptr letter f Link.null _ => [(letter, f)]
  | Link.ptr _ _ (Link.ptr a b c d) rightLink =>
    Link.leaves (Link.ptr a b c d) ++ Link.leaves rightLink

/-- Leaves below a link, left to right, each with the path from the link to the leaf appended
to `path`: `'0'` for a step to the left, `'1'` for a step to the right. -/
def Link.paths : Link → List Char → List (Char × List Char)
  | Link.null, _ => []
  | Link.ptr letter _ Link.null _, path => [(letter, path)]
  | Link.ptr _ _ (Link.ptr a b c d) rightLink, path =>
    Link.paths (Link.ptr a b c d) (path ++ ['0']) ++ Link.paths rightLink (path ++ ['1'])

/-- Shape of the trees that `buildHuffmanTree` makes: a node has no child or both children, and
the frequency of a node with children is the `unsigned int` sum of those of its children. -/
def Link.Built : Link → Prop
  | Link.null => False
  | Link.ptr _ _ Link.null rightLink => rightLink = Link.null
  | Link.ptr _ f (Link.ptr a b c d) rightLink =>
    Link.Built (Link.ptr a b c d) ∧ Link.Built rightLink ∧
      f = (b + Link.frequency rightLink) % UINT_RANGE

/-- Leaves of the tree rooted at a node. -/
def HuffmanNode.leaves (n : HuffmanNode) : List (Char × Nat) :=
  Link.leaves (Link.ofNode n)

/-- Sum of the counts of a frequency table. -/
def totalCount (map : FreqMap) : Nat :=
  (map.map Prod.snd).sum

/-- Bit that `createBinaryFile` packs for the character `c`: 1 for `'1'`, else 0. -/
def bitOf (c : Char) : Fin 2 := if c = '1' then 1 else 0

/-- Code of a letter in a code table, as `map[letter]` gives it: the empty string for a letter
without element. -/
def codeOf (map : CodeMap) (letter : Char) : List Char :=
  (map.lookup letter).getD []

/-- Insertion of a list of pairs, one `insert` after the other. -/
def insertAll (map : CodeMap) (entries : List (Char × List Char)) : CodeMap :=
  entries.foldl (fun m p => mapInsert m p.1 p.2) map

/-- Invariant of the queue during `buildHuffmanTree` for a table `L`: every node roots a tree of
the built shape, and the leaves of all the trees together are the entries of `L`. -/
def QueueInv (L : List (Char × Nat)) (q : Queue) : Prop :=
  (∀ x ∈ q, Link.Built (Link.ofNode x)) ∧ (q.flatMap HuffmanNode.leaves).Perm L

/-- Node reached from a link by following a string of branch characters: `'0'` goes to the
`leftLink`, `'1'` to the `rightLink`; a null link or another character leads to `null`. -/
def Link.walk : Link → List Char → Link
  | t, [] => t
  | Link.null, _ :: _ => Link.null
  | Link.ptr _ _ l r, c :: cs =>
    if c = '0' then Link.walk l cs else if c = '1' then Link.walk r cs else Link.null

/-- Leaves below a link, each with its depth, the link itself being at depth `d`. -/
def Link.depths : Link → Nat → List (Char × Nat)
  | Link.null, _ => []
  | Link.ptr letter _ Link.null _, d => [(letter, d)]
  | Link.ptr _ _ (Link.ptr a b c d1) rightLink, d =>
    Link.depths (Link.ptr a b c d1) (d + 1) ++ Link.depths rightLink (d + 1)

/-- Every node with children has a frequency that is exactly the sum of the frequencies of its
two children. -/
def Link.SumExact : Link → Prop
  | Link.null => True
  | Link.ptr _ _ Link.null _ => True
  | Link.ptr _ f (Link.ptr a b c d) rightLink =>
    Link.SumExact (Link.ptr a b c d) ∧ Link.SumExact rightLink ∧
      f = b + Link.frequency rightLink

/-- Character that the unpacking of `decompress` gives for a bit: `'1'` for 1, `'0'` for 0. -/
def bitChar (b : Fin 2) : Char := if b = 1 then '1' else '0'

/-- Number of bytes needed for `n` bits. -/
def byteCount (n : Nat) : Nat := (n + 7) / 8

/-- A stream in the good state on the text `rest`. -/
def goodStream (rest : List Char) : IStream :=
  { rest := rest, eofbit := false, failbit := false }

/-- The element that `decompress` stores for an element of the code table: the code as key,
the one-character string of the letter as value. -/
def decodeEntry (node : Char × List Char) : List Char × List Char :=
  (node.2, [node.1])

/-- Frequency of the node at index `i` of the vector of a queue (0 past the end). -/
def freqAt (q : List HuffmanNode) (i : Nat) : Nat :=
  match q[i]? with
  | some x => x.frequency
  | none => 0

/-- Heap order on the first `len` elements: no element has a frequency below that of its
parent, the element at index `(i - 1) / 2`. -/
def IsHeapUpTo (q : List HuffmanNode) (len : Nat) : Prop :=
  ∀ i, 0 < i → i < len → freqAt q ((i - 1) / 2) ≤ freqAt q i

/-- Heap order of a queue: the state that `push` and `pop` keep. -/
def IsHeap (q : Queue) : Prop := IsHeapUpTo q q.length

/-- Heap order around a hole: the order holds between elements other than the hole, and the
children of the hole are not below the parent of the hole. -/
def HoleOrder (first : List HuffmanNode) (len hole : Nat) : Prop :=
  (∀ i, 0 < i → i < len → i ≠ hole → (i - 1) / 2 ≠ hole →
    freqAt first ((i - 1) / 2) ≤ freqAt first i) ∧
  (∀ i, 0 < i → i < len → (i - 1) / 2 = hole → 0 < hole →
    freqAt first ((hole - 1) / 2) ≤ freqAt first i)

/-- In every node with children, the left child has a frequency not above that of the right
child. -/
def Link.LeftLe : Link → Prop
  | Link.null => True
  | Link.ptr _ _ Link.null _ => True
  | Link.ptr _ _ (Link.ptr a b c d) rightLink =>
    Link.LeftLe (Link.ptr a b c d) ∧ Link.LeftLe rightLink ∧ b ≤ Link.frequency rightLink

/-- The decoding map `D` holds, for a code table, the element `code ↦ letter` of every
entry, and no element for any other non-empty string. -/
def DecodesFor (D : DecodeMap) (table : CodeMap) : Prop :=
  (∀ p ∈ table, D.lookup p.2 = some [p.1]) ∧
  (∀ line : List Char, line ≠ [] → (∀ p ∈ table, p.2 ≠ line) → D.lookup line = none)

/-- No code of the table is an initial segment of the code of another entry, and no code is
empty. -/
def PrefixFree (table : CodeMap) : Prop :=
  (∀ p ∈ table, ∀ q ∈ table, p.2 <+: q.2 → p = q) ∧ (∀ p ∈ table, p.2 ≠ [])

/-- Characters that the unpacking of `decompress` yields after the `n` characters of the bit
string: the padding bits of the last packed byte. -/
def paddingOf (bitStringCode : List Char) (past : Nat → Char) : List Char :=
  (List.range (8 * byteCount bitStringCode.length - bitStringCode.length)).map
    (fun j => bitChar (bitOf (letterAt bitStringCode past (bitStringCode.length + j))))

/-- Kraft sum of a list of code lengths: the sum of `2 ^ (-l)` over the lengths `l`. -/
def kraftSum (lengths : List Nat) : ℚ :=
  (lengths.map (fun l => (1 / 2 : ℚ) ^ l)).sum

/-- Total length of an encoding given as a list of pairs (count, code length). -/
def weightedLength (ps : List (Nat × Nat)) : Nat :=
  (ps.map (fun p => p.1 * p.2)).sum

/-- The rest of a code after its first character when that character is `b`. -/
def stripBit (b : Char) : List Char → Option (List Char)
  | [] => none
  | x :: t => if x = b then some t else none

/-- Sum over the leaves below a link of the frequency of the leaf times its depth, the link
itself being at depth `d`. -/
def Link.weightedDepth : Link → Nat → Nat
  | Link.null, _ => 0
  | Link.ptr _ f Link.null _, d => f * d
  | Link.ptr _ _ (Link.ptr a b c d1) rightLink, d =>
    Link.weightedDepth (Link.ptr a b c d1) (d + 1) + Link.weightedDepth rightLink (d + 1)

/-- Total encoded length of a text with the frequency table `map` under an assignment of codes
to letters: the sum over the letters of the count times the length of the code. -/
def encodedLength (map : FreqMap) (code : Char → List Char) : Nat :=
  (map.map (fun p => p.2 * (code p.1).length)).sum

/-! ## The heap operations permute the queue -/

theorem perm_set_cons {α : Type} (a : α) :
    ∀ (l : List α) (i : Nat) (b : α), l[i]? = some b → (b :: l.set i a).Perm (a :: l) := by
  intro l
  induction l with
  | nil => intro i b h; simp at h
  | cons x xs ih =>
    intro i b h
    cases i with
    | zero =>
      simp at h
      subst h
      simpa using List.Perm.swap a x xs
    | succ k =>
      simp at h
      have h1 := ih k b h
      simp only [List.set_cons_succ]
      exact ((List.Perm.swap x b _).trans ((h1.cons x).trans (List.Perm.swap a x xs)))

theorem perm_chain {α : Type} {b p v : α} {R F F1 : List α}
    (h2 : (p :: R).Perm (v :: F1)) (h3 : (b :: F1).Perm (p :: F)) : (b :: R).Perm (v :: F) := by
  have e1 : (p :: b :: R).Perm (b :: p :: R) := List.Perm.swap b p R
  have e2 : (b :: p :: R).Perm (b :: v :: F1) := h2.cons b
  have e3 : (b :: v :: F1).Perm (v :: b :: F1) := List.Perm.swap v b F1
  have e4 : (v :: b :: F1).Perm (v :: p :: F) := h3.cons v
  have e5 : (v :: p :: F).Perm (p :: v :: F) := List.Perm.swap p v F
  exact (e1.trans (e2.trans (e3.trans (e4.trans e5)))).cons_inv

theorem pushHeapLoop_length (value : HuffmanNode) (topIndex : Nat) :
    ∀ (fuel : Nat) (first : List HuffmanNode) (hole : Nat),
      (pushHeapLoop value topIndex fuel first hole).length = first.length := by
  intro fuel
  induction fuel with
  | zero => intro first hole; simp [pushHeapLoop]
  | succ n ih =>
    intro first hole
    simp only [pushHeapLoop]
    split
    · split
      · rw [ih]; simp
      · simp
    · simp

theorem pushHeapLoop_perm (value : HuffmanNode) (topIndex : Nat) :
    ∀ (fuel : Nat) (first : List HuffmanNode) (hole : Nat) (b : HuffmanNode),
      first[hole]? = some b →
      (b :: pushHeapLoop value topIndex fuel first hole).Perm (value :: first) := by
  intro fuel
  induction fuel with
  | zero => intro first hole b h; exact perm_set_cons value first hole b h
  | succ n ih =>
    intro first hole b h
    simp only [pushHeapLoop]
    split
    · rename_i p hp
      split
      · rename_i hc
        have hlt : (hole - 1) / 2 < hole := by omega
        have hne : hole ≠ (hole - 1) / 2 := by omega
        have h1 : (first.set hole p)[(hole - 1) / 2]? = some p := by
          rw [List.getElem?_set_ne hne]; exact hp
        have h2 := ih (first.set hole p) ((hole - 1) / 2) p h1
        have h3 := perm_set_cons p first hole b h
        exact perm_chain h2 h3
      · exact perm_set_cons value first hole b h
    · exact perm_set_cons value first hole b h

theorem push_perm (priorityQueue : Queue) (x : HuffmanNode) :
    (push priorityQueue x).Perm (x :: priorityQueue) := by
  have h : (priorityQueue ++ [x])[(priorityQueue ++ [x]).length - 1]? = some x := by simp
  have h1 := pushHeapLoop_perm x 0 ((priorityQueue ++ [x]).length - 1 + 1) _ _ x h
  have h2 : (push priorityQueue x).Perm (priorityQueue ++ [x]) := h1.cons_inv
  exact h2.trans (List.perm_append_comm)



theorem pushHeapLoop_above (value : HuffmanNode) (topIndex : Nat) :
    ∀ (fuel : Nat) (first : List HuffmanNode) (hole k : Nat), hole < k →
      (pushHeapLoop value topIndex fuel first hole)[k]? = first[k]? := by
  intro fuel
  induction fuel with
  | zero =>
    intro first hole k hk
    simp only [pushHeapLoop]
    exact List.getElem?_set_ne (by omega)
  | succ n ih =>
    intro first hole k hk
    simp only [pushHeapLoop]
    split
    · split
      · rw [ih _ _ k (by omega)]
        exact List.getElem?_set_ne (by omega)
      · exact List.getElem?_set_ne (by omega)
    · exact List.getElem?_set_ne (by omega)

theorem adjustLoop_spec (len : Nat) :
    ∀ (fuel : Nat) (first : List HuffmanNode) (hole : Nat) (b : HuffmanNode),
      first[hole]? = some b → hole < len →
      ∃ b1, (adjustLoop len fuel first hole).1[(adjustLoop len fuel first hole).2]? = some b1 ∧
        (b :: (adjustLoop len fuel first hole).1).Perm (b1 :: first) ∧
        (adjustLoop len fuel first hole).2 < len ∧
        (adjustLoop len fuel first hole).1.length = first.length ∧
        ∀ k, len ≤ k → (adjustLoop len fuel first hole).1[k]? = first[k]? := by
  intro fuel
  induction fuel with
  | zero =>
    intro first hole b h hl
    exact ⟨b, h, List.Perm.refl _, hl, rfl, fun _ _ => rfl⟩
  | succ n ih =>
    intro first hole b h hl
    simp only [adjustLoop]
    split
    · rename_i hlt
      split
      · rename_i r l hr hlft
        have hsc : 2 * (hole + 1) < len := by omega
        have h3 : ∀ moved, (b :: first.set hole moved).Perm (moved :: first) :=
          fun moved => perm_set_cons moved first hole b h
        by_cases hc : Compare r l = true
        · simp only [if_pos hc]
          have h1 : (first.set hole l)[2 * (hole + 1) - 1]? = some l := by
            rw [List.getElem?_set_ne (by omega)]; exact hlft
          obtain ⟨b1, e1, e2, e3, e4, e5⟩ := ih (first.set hole l) (2 * (hole + 1) - 1) l h1 (by omega)
          refine ⟨b1, e1, perm_chain e2 (h3 l), e3, by rw [e4]; simp, ?_⟩
          intro k hk
          rw [e5 k hk]
          exact List.getElem?_set_ne (by omega)
        · simp only [if_neg hc]
          have h1 : (first.set hole r)[2 * (hole + 1)]? = some r := by
            rw [List.getElem?_set_ne (by omega)]; exact hr
          obtain ⟨b1, e1, e2, e3, e4, e5⟩ := ih (first.set hole r) (2 * (hole + 1)) r h1 hsc
          refine ⟨b1, e1, perm_chain e2 (h3 r), e3, by rw [e4]; simp, ?_⟩
          intro k hk
          rw [e5 k hk]
          exact List.getElem?_set_ne (by omega)
      · exact ⟨b, h, List.Perm.refl _, hl, rfl, fun _ _ => rfl⟩
    · exact ⟨b, h, List.Perm.refl _, hl, rfl, fun _ _ => rfl⟩

theorem adjustHeap_spec (first : List HuffmanNode) (hole len : Nat) (value b : HuffmanNode)
    (h : first[hole]? = some b) (hl : hole < len) :
    (b :: adjustHeap first hole len value).Perm (value :: first) ∧
      (adjustHeap first hole len value).length = first.length ∧
      ∀ k, len ≤ k → (adjustHeap first hole len value)[k]? = first[k]? := by
  obtain ⟨b1, e1, e2, e3, e4, e5⟩ := adjustLoop_spec len len first hole b h hl
  simp only [adjustHeap]
  generalize adjustLoop len len first hole = res at e1 e2 e3 e4 e5
  obtain ⟨first1, hole1⟩ := res
  simp only at e1 e2 e3 e4 e5 ⊢
  have hplain : (b :: pushHeap first1 hole1 hole value).Perm (value :: first) ∧
      (pushHeap first1 hole1 hole value).length = first.length ∧
      ∀ k, len ≤ k → (pushHeap first1 hole1 hole value)[k]? = first[k]? := by
    refine ⟨perm_chain (pushHeapLoop_perm value hole _ first1 hole1 b1 e1) e2, ?_, ?_⟩
    · simp only [pushHeap]; rw [pushHeapLoop_length, e4]
    · intro k hk
      simp only [pushHeap]
      rw [pushHeapLoop_above _ _ _ _ _ k (by omega), e5 k hk]
  split
  · rename_i hcond
    split
    · rename_i l hlft
      have hidx : 2 * (hole1 + 1) - 1 < len := by omega
      have hne : hole1 ≠ 2 * (hole1 + 1) - 1 := by omega
      have h1 : (first1.set hole1 l)[2 * (hole1 + 1) - 1]? = some l := by
        rw [List.getElem?_set_ne hne]; exact hlft
      have h2 := pushHeapLoop_perm value hole (2 * (hole1 + 1) - 1 + 1) (first1.set hole1 l)
        (2 * (hole1 + 1) - 1) l h1
      have h3 : (b1 :: first1.set hole1 l).Perm (l :: first1) := perm_set_cons l first1 hole1 b1 e1
      refine ⟨perm_chain (perm_chain h2 h3) e2, ?_, ?_⟩
      · simp only [pushHeap]; rw [pushHeapLoop_length]; simp [e4]
      · intro k hk
        simp only [pushHeap]
        rw [pushHeapLoop_above _ _ _ _ _ k (by omega), List.getElem?_set_ne (by omega), e5 k hk]
    · exact hplain
  · exact hplain

theorem pop_perm (priorityQueue : Queue) (t : HuffmanNode) (h : top priorityQueue = some t) :
    (t :: pop priorityQueue).Perm priorityQueue := by
  cases priorityQueue with
  | nil => simp [top] at h
  | cons x rest =>
    simp only [top, List.head?_cons, Option.some.injEq] at h
    subst h
    cases rest with
    | nil => simp [pop]
    | cons y ys =>
      have hlast : ∃ value, (x :: y :: ys)[(x :: y :: ys).length - 1]? = some value := by
        have : (x :: y :: ys).length - 1 < (x :: y :: ys).length := by simp
        exact ⟨_, List.getElem?_eq_getElem this⟩
      obtain ⟨value, hv⟩ := hlast
      have h0 : (x :: y :: ys)[0]? = some x := rfl
      have hpop : pop (x :: y :: ys) =
          (adjustHeap ((x :: y :: ys).set ((x :: y :: ys).length - 1) x) 0
            ((x :: y :: ys).length - 1) value).dropLast := by
        simp only [pop, h0, hv]
        simp
      rw [hpop]
      have hf0 : ((x :: y :: ys).set ((x :: y :: ys).length - 1) x)[0]? = some x := by
        simp
      obtain ⟨p1, p2, p3⟩ := adjustHeap_spec _ 0 ((x :: y :: ys).length - 1) value x hf0 (by simp)
      have hswap := perm_set_cons x (x :: y :: ys) ((x :: y :: ys).length - 1) value hv
      have hR := (p1.trans hswap).cons_inv
      generalize adjustHeap ((x :: y :: ys).set ((x :: y :: ys).length - 1) x) 0
            ((x :: y :: ys).length - 1) value = R at p1 p2 p3 hR ⊢
      have hlastR : R.getLast? = some x := by
        rw [List.getLast?_eq_getElem?, p2]
        simp only [List.length_set]
        rw [p3 _ (le_refl _)]
        rw [List.getElem?_set_eq_of_lt]
        simp
      have hsplit : R.dropLast ++ [x] = R := List.dropLast_append_getLast? x hlastR
      have hcomm : ([x] ++ R.dropLast).Perm (R.dropLast ++ [x]) := List.perm_append_comm
      rw [hsplit] at hcomm
      exact hcomm.trans hR

/-! ## Tree construction -/

theorem createPriorityQueue_perm (map : FreqMap) :
    ∀ (priorityQueue : Queue),
      (createPriorityQueue priorityQueue map).Perm
        (priorityQueue ++ map.map (fun p => HuffmanNode.new p.1 p.2)) := by
  induction map with
  | nil => intro q; simp [createPriorityQueue]
  | cons p ps ih =>
    intro q
    simp only [createPriorityQueue, List.foldl_cons, List.map_cons] at ih ⊢
    refine (ih (push q (HuffmanNode.new p.1 p.2))).trans ?_
    have h1 := (push_perm q (HuffmanNode.new p.1 p.2)).append_right
      (ps.map (fun p => HuffmanNode.new p.1 p.2))
    refine h1.trans ?_
    simp only [List.cons_append]
    exact List.perm_middle.symm

theorem buildStep_spec (priorityQueue : Queue) (h : 2 ≤ priorityQueue.length) :
    ∃ left right rest, (left :: right :: rest).Perm priorityQueue ∧
      top priorityQueue = some left ∧ top (pop priorityQueue) = some right ∧
      (buildStep priorityQueue).Perm (mergeNode left right :: rest) := by
  cases priorityQueue with
  | nil => simp at h
  | cons x xs =>
    have ht : top (x :: xs) = some x := rfl
    have hp := pop_perm (x :: xs) x ht
    have hlen : (pop (x :: xs)).length = xs.length := by
      have := hp.length_eq
      simp at this
      exact this
    cases hq : pop (x :: xs) with
    | nil => rw [hq] at hlen; simp at h hlen; omega
    | cons y ys =>
      have ht2 : top (y :: ys) = some y := rfl
      have hp2 := pop_perm (y :: ys) y ht2
      refine ⟨x, y, pop (y :: ys), ?_, ht, ?_, ?_⟩
      · rw [hq] at hp
        exact ((hp2.cons x)).trans hp
      · exact ht2
      · simp only [buildStep, ht, hq, ht2]
        exact push_perm _ _

theorem QueueInv.perm {L : List (Char × Nat)} {q q1 : Queue} (hp : q.Perm q1)
    (h : QueueInv L q) : QueueInv L q1 :=
  ⟨fun x hx => h.1 x (hp.mem_iff.mpr hx), (hp.symm.flatMap_right _).trans h.2⟩

theorem mergeNode_leaves (l r : HuffmanNode) :
    (mergeNode l r).leaves = l.leaves ++ r.leaves := by
  simp [HuffmanNode.leaves, mergeNode, Link.ofNode, Link.leaves]

theorem mergeNode_built (l r : HuffmanNode) (hl : Link.Built (Link.ofNode l))
    (hr : Link.Built (Link.ofNode r)) : Link.Built (Link.ofNode (mergeNode l r)) := by
  simp only [mergeNode, Link.ofNode, Link.Built] at hl hr ⊢
  exact ⟨hl, hr, rfl⟩

theorem QueueInv.step {L : List (Char × Nat)} {q : Queue} {l r : HuffmanNode} {rest : Queue}
    (hp : (l :: r :: rest).Perm q) (h : QueueInv L q) : QueueInv L (mergeNode l r :: rest) := by
  have h1 := QueueInv.perm hp.symm h
  refine ⟨?_, ?_⟩
  · intro x hx
    rcases List.mem_cons.mp hx with hx | hx
    · subst hx
      exact mergeNode_built l r (h1.1 l (by simp)) (h1.1 r (by simp))
    · exact h1.1 x (by simp [hx])
  · have := h1.2
    simp only [List.flatMap_cons, mergeNode_leaves] at this ⊢
    simpa [List.append_assoc] using this

theorem buildLoop_spec (L : List (Char × Nat)) :
    ∀ (fuel : Nat) (q : Queue), 1 ≤ q.length → q.length ≤ fuel + 1 → QueueInv L q →
      ∃ root, buildLoop fuel q = [root] ∧ QueueInv L [root] := by
  intro fuel
  induction fuel with
  | zero =>
    intro q h1 h2 hinv
    obtain ⟨root, rfl⟩ := List.length_eq_one.mp (by omega : q.length = 1)
    exact ⟨root, rfl, hinv⟩
  | succ n ih =>
    intro q h1 h2 hinv
    simp only [buildLoop]
    split
    · rename_i hlt
      obtain ⟨l, r, rest, hp, _, _, hs⟩ := buildStep_spec q hlt
      have hlen : (buildStep q).length + 1 = q.length := by
        have e1 := hs.length_eq
        have e2 := hp.length_eq
        simp at e1 e2
        omega
      exact ih (buildStep q) (by omega) (by omega) (QueueInv.perm hs.symm (QueueInv.step hp hinv))
    · rename_i hlt
      obtain ⟨root, rfl⟩ := List.length_eq_one.mp (by omega : q.length = 1)
      exact ⟨root, rfl, hinv⟩

theorem createPriorityQueue_inv (map : FreqMap) :
    QueueInv map (createPriorityQueue [] map) := by
  have hp := createPriorityQueue_perm map []
  simp only [List.nil_append] at hp
  refine QueueInv.perm hp.symm ⟨?_, ?_⟩
  · intro x hx
    obtain ⟨p, _, rfl⟩ := List.mem_map.mp hx
    simp [HuffmanNode.new, Link.ofNode, Link.Built]
  · have : (map.map (fun p => HuffmanNode.new p.1 p.2)).flatMap HuffmanNode.leaves = map := by
      induction map with
      | nil => rfl
      | cons p ps ih =>
        simp only [List.map_cons, List.flatMap_cons]
        have e : (HuffmanNode.new p.1 p.2).leaves = [p] := by
          simp [HuffmanNode.leaves, HuffmanNode.new, Link.ofNode, Link.leaves]
        rw [e]
        simp only [List.singleton_append, List.cons.injEq, true_and]
        have hp2 := createPriorityQueue_perm ps []
        exact ih (by simpa using hp2)
    rw [this]

theorem buildHuffmanTree_spec (map : FreqMap) (hne : map ≠ []) :
    ∃ root, buildHuffmanTree (createPriorityQueue [] map) = Except.ok (root, [root]) ∧
      Link.Built (Link.ofNode root) ∧ root.leaves.Perm map := by
  have hinv := createPriorityQueue_inv map
  have hlen : (createPriorityQueue [] map).length = map.length := by
    have := (createPriorityQueue_perm map []).length_eq
    simpa using this
  have hpos : 1 ≤ map.length := by
    cases map with
    | nil => exact absurd rfl hne
    | cons _ _ => simp
  obtain ⟨root, hr, hi⟩ := buildLoop_spec map (createPriorityQueue [] map).length
    (createPriorityQueue [] map) (by omega) (by omega) hinv
  refine ⟨root, ?_, hi.1 root (by simp), ?_⟩
  · simp only [buildHuffmanTree, hr, top, List.head?_cons]
  · have := hi.2
    simpa using this

/-! ## Code table derivation -/

theorem insertAll_append (map : CodeMap) (xs ys : List (Char × List Char)) :
    insertAll map (xs ++ ys) = insertAll (insertAll map xs) ys := by
  simp [insertAll, List.foldl_append]

theorem buildCodeTableLink_built :
    ∀ (t : Link) (map : CodeMap) (path : List Char), Link.Built t →
      buildCodeTableLink t map path = Except.ok (insertAll map (Link.paths t path)) := by
  intro t
  induction t with
  | null => intro map path h; simp [Link.Built] at h
  | ptr letter f l r ihl ihr =>
    intro map path h
    cases l with
    | null => simp [buildCodeTableLink, Link.paths, insertAll]
    | ptr a b c d =>
      simp only [Link.Built] at h
      simp only [buildCodeTableLink, Link.paths, insertAll_append]
      rw [ihl map _ h.1]
      simp only
      rw [ihr _ _ h.2.1]

theorem paths_keys : ∀ (t : Link) (path : List Char),
    (Link.paths t path).map Prod.fst = (Link.leaves t).map Prod.fst := by
  intro t
  induction t with
  | null => intro path; rfl
  | ptr letter f l r ihl ihr =>
    intro path
    cases l with
    | null => simp [Link.paths, Link.leaves]
    | ptr a b c d => simp only [Link.paths, Link.leaves, List.map_append, ihl, ihr]

theorem lookup_eq_none_of_not_mem {β : Type} (k : Char) :
    ∀ (map : List (Char × β)), k ∉ map.map Prod.fst → map.lookup k = none := by
  intro map
  induction map with
  | nil => intro _; rfl
  | cons p ps ih =>
    intro h
    simp only [List.map_cons, List.mem_cons, not_or] at h
    obtain ⟨k1, v1⟩ := p
    have hne : (k == k1) = false := by simpa using h.1
    simp only [List.lookup, hne]
    exact ih h.2

theorem insertAll_nodup : ∀ (entries map : CodeMap),
    ((map ++ entries).map Prod.fst).Nodup → insertAll map entries = map ++ entries := by
  intro entries
  induction entries with
  | nil => intro map _; simp [insertAll]
  | cons p ps ih =>
    intro map h
    have hnot : p.1 ∉ map.map Prod.fst := by
      simp only [List.map_append, List.map_cons] at h
      have := (List.nodup_append.mp h).2.2
      intro hm
      exact this hm (by simp)
    have h1 : mapInsert map p.1 p.2 = map ++ [p] := by
      simp [mapInsert, lookup_eq_none_of_not_mem p.1 map hnot]
    have h2 : insertAll map (p :: ps) = insertAll (map ++ [p]) ps := by
      simp only [insertAll, List.foldl_cons, h1]
    rw [h2, ih (map ++ [p]) (by simpa using h)]
    simp

theorem paths_extend : ∀ (t : Link) (path : List Char) (p : Char × List Char),
    p ∈ Link.paths t path → path <+: p.2 := by
  intro t
  induction t with
  | null => intro path p h; simp [Link.paths] at h
  | ptr letter f l r ihl ihr =>
    intro path p h
    cases l with
    | null =>
      simp only [Link.paths, List.mem_singleton] at h
      subst h
      exact List.prefix_refl _
    | ptr a b c d =>
      simp only [Link.paths, List.mem_append] at h
      rcases h with h | h
      · exact (List.prefix_append path ['0']).trans (ihl _ p h)
      · exact (List.prefix_append path ['1']).trans (ihr _ p h)

theorem branch_disjoint (path x y : List Char) (h0 : path ++ ['0'] <+: x)
    (h1 : path ++ ['1'] <+: y) : ¬ x <+: y ∧ ¬ y <+: x := by
  have key : ∀ z, path ++ ['0'] <+: z → path ++ ['1'] <+: z → False := by
    intro z ha hb
    have hlen : (path ++ ['0']).length = (path ++ ['1']).length := by simp
    have := List.prefix_of_prefix_length_le ha hb (le_of_eq hlen)
    have heq := this.eq_of_length hlen
    have := List.append_cancel_left heq
    simp at this
  exact ⟨fun h => key y (h0.trans h) h1, fun h => key x h0 (h1.trans h)⟩

theorem paths_pairwise : ∀ (t : Link) (path : List Char),
    (Link.paths t path).Pairwise (fun p q => ¬ p.2 <+: q.2 ∧ ¬ q.2 <+: p.2) := by
  intro t
  induction t with
  | null => intro path; simp [Link.paths]
  | ptr letter f l r ihl ihr =>
    intro path
    cases l with
    | null => simp [Link.paths]
    | ptr a b c d =>
      simp only [Link.paths]
      rw [List.pairwise_append]
      refine ⟨ihl _, ihr _, ?_⟩
      intro p hp q hq
      exact branch_disjoint path p.2 q.2 (paths_extend _ _ p hp) (paths_extend _ _ q hq)

/-- From a non-empty table with distinct keys: the tree is built, the code table is derived,
and the table is the list of root-to-leaf paths of the tree. -/
theorem codeTable_spec (map : FreqMap) (hne : map ≠ []) (hnd : (map.map Prod.fst).Nodup) :
    ∃ root, buildHuffmanTree (createPriorityQueue [] map) = Except.ok (root, [root]) ∧
      Link.Built (Link.ofNode root) ∧ root.leaves.Perm map ∧
      buildCodeTable root [] [] = Except.ok (Link.paths (Link.ofNode root) []) := by
  obtain ⟨root, h1, h2, h3⟩ := buildHuffmanTree_spec map hne
  refine ⟨root, h1, h2, h3, ?_⟩
  simp only [buildCodeTable]
  rw [buildCodeTableLink_built _ _ _ h2, insertAll_nodup]
  · simp
  · simp only [List.nil_append, paths_keys]
    exact ((h3.map Prod.fst).nodup_iff).mpr hnd

/-! ## Frequency counting -/

theorem lookup_map_update (c x : Char) (g : Nat → Nat) : ∀ (map : FreqMap),
    (map.map (fun p => if p.1 = x then (p.1, g p.2) else p)).lookup c =
      if x = c then (map.lookup c).map g else map.lookup c := by
  intro map
  induction map with
  | nil => simp
  | cons p ps ih =>
    obtain ⟨k, v⟩ := p
    simp only [List.map_cons]
    by_cases hk : k = x
    · subst hk
      by_cases hc : c = k
      · subst hc; simp
      · have hb : (c == k) = false := by simpa using hc
        simp only [if_true, List.lookup_cons, hb, ih]
    · by_cases hc : c = k
      · subst hc
        have hx : ¬ x = c := fun e => hk e.symm
        simp [hk, hx]
      · have hb : (c == k) = false := by simpa using hc
        simp only [hk, if_false, List.lookup_cons, hb, ih]

theorem createMapStep_lookup (map : FreqMap) (x c : Char) :
    (createMapStep map x).lookup c =
      if x = c then some (((map.lookup c).getD 0 + 1) % UINT_RANGE) else map.lookup c := by
  simp only [createMapStep]
  split
  · rename_i hnone
    simp only [mapInsert, hnone, List.lookup_append]
    by_cases hx : x = c
    · subst hx
      simp [hnone, UINT_RANGE]
    · have hb : (c == x) = false := by simpa using fun e => hx e.symm
      simp [hx, List.lookup_cons, hb]
  · rename_i v hsome
    rw [lookup_map_update c x (fun n => (n + 1) % UINT_RANGE)]
    by_cases hx : x = c
    · subst hx
      simp [hsome]
    · simp [hx]

theorem createMap_lookup (c : Char) : ∀ (input : List Char) (map : FreqMap),
    (createMap map (some input)).lookup c =
      if input.count c = 0 then map.lookup c
      else some (((map.lookup c).getD 0 + input.count c) % UINT_RANGE) := by
  intro input
  induction input with
  | nil => intro map; simp [createMap]
  | cons x xs ih =>
    intro map
    have hstep : createMap map (some (x :: xs)) = createMap (createMapStep map x) (some xs) := rfl
    rw [hstep, ih, createMapStep_lookup]
    by_cases hx : x = c
    · subst hx
      simp only [if_true, List.count_cons_self, Option.getD_some]
      by_cases h0 : List.count x xs = 0
      · simp [h0]
      · simp only [h0, if_false, Nat.add_one_ne_zero, Option.some.injEq]
        simp only [UINT_RANGE]
        omega
    · have hne : (x == c) = false := by simpa using hx
      simp [hx, List.count_cons, hne]

theorem mem_keys_iff_lookup {β : Type} (c : Char) (map : List (Char × β)) :
    c ∈ map.map Prod.fst ↔ map.lookup c ≠ none := by
  constructor
  · intro h hn
    rw [List.lookup_eq_none_iff] at hn
    obtain ⟨p, hp, rfl⟩ := List.mem_map.mp h
    simpa using hn p hp
  · intro h
    by_contra hc
    exact h (lookup_eq_none_of_not_mem c map hc)

theorem createMap_keys (c : Char) (input : List Char) (map : FreqMap) :
    c ∈ (createMap map (some input)).map Prod.fst ↔ c ∈ map.map Prod.fst ∨ c ∈ input := by
  rw [mem_keys_iff_lookup, mem_keys_iff_lookup, createMap_lookup]
  by_cases h0 : input.count c = 0
  · have : c ∉ input := List.count_eq_zero.mp h0
    simp [h0, this]
  · have : c ∈ input := by
      by_contra hc
      exact h0 (List.count_eq_zero.mpr hc)
    simp [h0, this]

theorem createMapStep_nodup (map : FreqMap) (x : Char) (h : (map.map Prod.fst).Nodup) :
    ((createMapStep map x).map Prod.fst).Nodup := by
  simp only [createMapStep]
  split
  · rename_i hnone
    simp only [mapInsert, hnone, List.map_append, List.map_cons, List.map_nil]
    have hx : x ∉ map.map Prod.fst := by
      rw [mem_keys_iff_lookup]; simp [hnone]
    exact List.Nodup.append h (by simp) (by simpa using hx)
  · have : (map.map (fun p => if p.1 = x then (p.1, (p.2 + 1) % UINT_RANGE) else p)).map Prod.fst
        = map.map Prod.fst := by
      rw [List.map_map]
      apply List.map_congr_left
      intro p _
      by_cases hp : p.1 = x <;> simp [hp]
    rw [this]; exact h

theorem createMap_nodup : ∀ (input : List Char) (map : FreqMap), (map.map Prod.fst).Nodup →
    ((createMap map (some input)).map Prod.fst).Nodup := by
  intro input
  induction input with
  | nil => intro map h; exact h
  | cons x xs ih => intro map h; exact ih _ (createMapStep_nodup map x h)

theorem createMap_size (input : List Char) :
    (createMap [] (some input)).length = input.toFinset.card := by
  have hnd := createMap_nodup input [] (by simp)
  have hset : ((createMap [] (some input)).map Prod.fst).toFinset = input.toFinset := by
    ext c
    simp only [List.mem_toFinset]
    rw [createMap_keys]
    simp
  rw [← hset, List.toFinset_card_of_nodup hnd]
  simp

theorem built_frequency : ∀ (t : Link), Link.Built t →
    (∀ p ∈ Link.leaves t, p.2 < UINT_RANGE) →
    Link.frequency t = ((Link.leaves t).map Prod.snd).sum % UINT_RANGE := by
  intro t
  induction t with
  | null => intro h; simp [Link.Built] at h
  | ptr letter f l r ihl ihr =>
    intro h hb
    cases l with
    | null =>
      have hf : f < UINT_RANGE := hb (letter, f) (by simp [Link.leaves])
      simp [Link.leaves, Link.frequency, Nat.mod_eq_of_lt hf]
    | ptr a b c d =>
      simp only [Link.Built] at h
      simp only [Link.leaves, List.mem_append] at hb
      have e1 := ihl h.1 (fun p hp => hb p (Or.inl hp))
      have e2 := ihr h.2.1 (fun p hp => hb p (Or.inr hp))
      simp only [Link.frequency] at e1
      simp only [Link.frequency, Link.leaves, List.map_append, List.sum_append]
      generalize ((Link.ptr a b c d).leaves.map Prod.snd).sum = s1 at e1 ⊢
      generalize (r.leaves.map Prod.snd).sum = s2 at e2 ⊢
      rw [h.2.2, Nat.add_mod s1 s2, ← e1, ← e2]

theorem lookup_of_mem_nodup : ∀ (map : FreqMap), (map.map Prod.fst).Nodup →
    ∀ p ∈ map, map.lookup p.1 = some p.2 := by
  intro map
  induction map with
  | nil => intro _ p hp; simp at hp
  | cons q qs ih =>
    intro hnd p hp
    obtain ⟨k, v⟩ := q
    simp only [List.map_cons, List.nodup_cons] at hnd
    rcases List.mem_cons.mp hp with hp | hp
    · subst hp; simp
    · have hne : p.1 ≠ k := by
        intro e
        exact hnd.1 (e ▸ List.mem_map_of_mem Prod.fst hp)
      have hb : (p.1 == k) = false := by simpa using hne
      simp only [List.lookup_cons, hb]
      exact ih hnd.2 p hp

theorem createMap_total (input : List Char) (hlen : input.length < UINT_RANGE) :
    totalCount (createMap [] (some input)) = input.length := by
  have hnd := createMap_nodup input [] (by simp)
  have hval : (createMap [] (some input)).map Prod.snd =
      ((createMap [] (some input)).map Prod.fst).map (fun c => input.count c) := by
    rw [List.map_map]
    apply List.map_congr_left
    intro p hp
    have h1 := lookup_of_mem_nodup _ hnd p hp
    rw [createMap_lookup] at h1
    have hmem : p.1 ∈ input := by
      have := (createMap_keys p.1 input []).mp (List.mem_map_of_mem Prod.fst hp)
      simpa using this
    have hc : input.count p.1 ≠ 0 := fun e => (List.count_eq_zero.mp e) hmem
    have hle := List.count_le_length p.1 input
    simp only [hc, if_false, List.lookup_nil, Option.getD_none, Nat.zero_add,
      Option.some.injEq] at h1
    rw [Nat.mod_eq_of_lt (by omega)] at h1
    simp [Function.comp, h1]
  have hperm : ((createMap [] (some input)).map Prod.fst).Perm input.dedup := by
    apply List.perm_of_nodup_nodup_toFinset_eq hnd (List.nodup_dedup input)
    ext c
    simp only [List.mem_toFinset, List.mem_dedup]
    rw [createMap_keys]
    simp
  rw [totalCount, hval, (hperm.map _).sum_eq, List.sum_map_count_dedup_eq_length]

/-! ## Bit string and header -/

theorem codeOf_append_empty (map : CodeMap) (x : Char) (h : map.lookup x = none) (c : Char) :
    codeOf (map ++ [(x, [])]) c = codeOf map c := by
  simp only [codeOf, List.lookup_append]
  by_cases hc : c = x
  · subst hc; simp [h]
  · have hb : (c == x) = false := by simpa using hc
    simp [List.lookup_cons, hb]

theorem getBitStringCode_fold : ∀ (input acc : List Char) (map : CodeMap),
    (input.foldl getBitStringCodeStep (acc, map)).1 = acc ++ input.flatMap (codeOf map) := by
  intro input
  induction input with
  | nil => intro acc map; simp
  | cons x xs ih =>
    intro acc map
    simp only [List.foldl_cons, List.flatMap_cons]
    cases hx : map.lookup x with
    | some code =>
      have hs : getBitStringCodeStep (acc, map) x = (acc ++ code, map) := by
        simp [getBitStringCodeStep, hx]
      rw [hs, ih]
      simp [codeOf, hx]
    | none =>
      have hs : getBitStringCodeStep (acc, map) x = (acc, map ++ [(x, [])]) := by
        simp [getBitStringCodeStep, hx]
      rw [hs, ih]
      have hfun : codeOf (map ++ [(x, [])]) = codeOf map :=
        funext (codeOf_append_empty map x hx)
      rw [hfun]
      simp [codeOf, hx]

theorem toInt32_small (n : Nat) (h : n < 2 ^ 31) : toInt32 n = (n : Int) := by
  have h1 : n % 2 ^ 32 = n := Nat.mod_eq_of_lt (by omega)
  simp only [toInt32, h1, h, if_true]

theorem header_small (n : Nat) (h : n < 2 ^ 31) :
    ∃ b0 b1 b2 b3, intBytes (toInt32 n) = [b0, b1, b2, b3] ∧ intOfBytes b0 b1 b2 b3 = (n : Int) := by
  refine ⟨n % 256, n / 256 % 256, n / 65536 % 256, n / 16777216 % 256, ?_, ?_⟩
  · rw [toInt32_small n h]
    have hu : ((n : Int) % 2 ^ 32).toNat = n := by
      have : ((n : Int) % 2 ^ 32) = (n : Int) := Int.emod_eq_of_lt (by omega) (by omega)
      rw [this]; simp
    simp only [intBytes, hu]
  · have hsum : n % 256 + 256 * (n / 256 % 256) + 65536 * (n / 65536 % 256) +
        16777216 * (n / 16777216 % 256) = n := by omega
    simp only [intOfBytes, hsum]
    exact toInt32_small n h

theorem length_flatMap_codeOf (map : CodeMap) : ∀ (input : List Char),
    (input.flatMap (codeOf map)).length = (input.map (fun c => (codeOf map c).length)).sum := by
  intro input
  induction input with
  | nil => rfl
  | cons x xs ih => simp [ih]

/-! ## Packing and the stream `"aab"` -/

theorem lor_bits : ∀ b0 b1 b2 b3 b4 b5 b6 b7 : Fin 2,
    ((((((((0 ||| b0.val <<< (7 - 0)) ||| b1.val <<< (7 - 1)) ||| b2.val <<< (7 - 2)) |||
      b3.val <<< (7 - 3)) ||| b4.val <<< (7 - 4)) ||| b5.val <<< (7 - 5)) |||
      b6.val <<< (7 - 6)) ||| b7.val <<< (7 - 7)) =
    128 * b0.val + 64 * b1.val + 32 * b2.val + 16 * b3.val + 8 * b4.val + 4 * b5.val +
      2 * b6.val + b7.val := by
  decide

theorem bitOf_val (c : Char) : (if c = '1' then 1 else 0 : Nat) = (bitOf c).val := by
  unfold bitOf; split <;> rfl

theorem packByte_eq (letter : Nat → Char) (i : Nat) :
    packByte letter i =
      128 * (bitOf (letter i)).val + 64 * (bitOf (letter (i + 1))).val +
      32 * (bitOf (letter (i + 2))).val + 16 * (bitOf (letter (i + 3))).val +
      8 * (bitOf (letter (i + 4))).val + 4 * (bitOf (letter (i + 5))).val +
      2 * (bitOf (letter (i + 6))).val + (bitOf (letter (i + 7))).val := by
  have hr : List.range 8 = [0, 1, 2, 3, 4, 5, 6, 7] := by rfl
  simp only [packByte, hr, List.foldl, bitOf_val, Nat.add_zero]
  exact lor_bits _ _ _ _ _ _ _ _

theorem packByte_aab (past : Nat → Char) :
    192 ≤ packByte (letterAt ['1', '1', '0'] past) 0 ∧
      packByte (letterAt ['1', '1', '0'] past) 0 < 208 := by
  rw [packByte_eq]
  have h0 : bitOf (letterAt ['1', '1', '0'] past 0) = 1 := rfl
  have h1 : bitOf (letterAt ['1', '1', '0'] past (0 + 1)) = 1 := rfl
  have h2 : bitOf (letterAt ['1', '1', '0'] past (0 + 2)) = 0 := rfl
  have h3 : bitOf (letterAt ['1', '1', '0'] past (0 + 3)) = 0 := rfl
  rw [h0, h1, h2, h3]
  have := (bitOf (letterAt ['1', '1', '0'] past (0 + 4))).isLt
  have := (bitOf (letterAt ['1', '1', '0'] past (0 + 5))).isLt
  have := (bitOf (letterAt ['1', '1', '0'] past (0 + 6))).isLt
  have := (bitOf (letterAt ['1', '1', '0'] past (0 + 7))).isLt
  simp only [Fin.val_one, Fin.val_zero]
  omega

theorem decode_aab : ∀ x : Fin 16,
    decodeFiles ['b', '\n', '0', '\n', 'a', '\n', '1', '\n'] [3, 0, 0, 0, 10, 192 + x.val] =
      Except.ok ['a', 'a', 'b', 'b'] ∧
    decodeFiles ['a', '\n', '1', '\n', 'b', '\n', '0', '\n'] [3, 0, 0, 0, 10, 192 + x.val] =
      Except.ok ['a', 'a', 'b', 'b'] := by
  intro x
  fin_cases x <;> exact ⟨rfl, rfl⟩

/-! ## Ties, exact sums and paths -/

theorem leaf_le_sum : ∀ (l : List (Char × Nat)) (p : Char × Nat), p ∈ l →
    p.2 ≤ (l.map Prod.snd).sum := by
  intro l
  induction l with
  | nil => intro p hp; simp at hp
  | cons x xs ih =>
    intro p hp
    simp only [List.map_cons, List.sum_cons]
    rcases List.mem_cons.mp hp with h | h
    · subst h; omega
    · have := ih p h; omega

theorem built_sumExact : ∀ (t : Link), Link.Built t →
    ((Link.leaves t).map Prod.snd).sum < UINT_RANGE →
    Link.SumExact t ∧ Link.frequency t = ((Link.leaves t).map Prod.snd).sum := by
  intro t
  induction t with
  | null => intro h; simp [Link.Built] at h
  | ptr letter f l r ihl ihr =>
    intro h hs
    cases l with
    | null => simp [Link.SumExact, Link.leaves, Link.frequency]
    | ptr a b c d =>
      simp only [Link.Built] at h
      simp only [Link.leaves, List.map_append, List.sum_append] at hs ⊢
      obtain ⟨e1, e2⟩ := ihl h.1 (by omega)
      obtain ⟨e3, e4⟩ := ihr h.2.1 (by omega)
      simp only [Link.frequency] at e2
      simp only [Link.SumExact, Link.frequency]
      have hf : f = b + Link.frequency r := by
        rw [h.2.2, Nat.mod_eq_of_lt (by omega)]
      exact ⟨⟨e1, e3, hf⟩, by omega⟩

theorem paths_walk : ∀ (t : Link), Link.Built t → ∀ (path : List Char) (d : Nat)
    (p : Char × List Char), p ∈ Link.paths t path →
    ∃ suffix f, p.2 = path ++ suffix ∧ Link.walk t suffix = Link.ptr p.1 f Link.null Link.null ∧
      (p.1, f) ∈ Link.leaves t ∧ (p.1, d + suffix.length) ∈ Link.depths t d := by
  intro t
  induction t with
  | null => intro h; simp [Link.Built] at h
  | ptr letter f l r ihl ihr =>
    intro h path d p hp
    cases l with
    | null =>
      simp only [Link.Built] at h
      subst h
      simp only [Link.paths, List.mem_singleton] at hp
      subst hp
      exact ⟨[], f, by simp, by simp [Link.walk], by simp [Link.leaves],
        by simp [Link.depths]⟩
    | ptr a b c d1 =>
      simp only [Link.Built] at h
      simp only [Link.paths, List.mem_append] at hp
      rcases hp with hp | hp
      · obtain ⟨suffix, g, e1, e2, e3, e4⟩ := ihl h.1 (path ++ ['0']) (d + 1) p hp
        refine ⟨'0' :: suffix, g, by simp [e1], by simp [Link.walk, e2], ?_, ?_⟩
        · simp only [Link.leaves, List.mem_append]; exact Or.inl e3
        · simp only [Link.depths, List.mem_append, List.length_cons]
          left
          have : d + (suffix.length + 1) = d + 1 + suffix.length := by omega
          rw [this]; exact e4
      · obtain ⟨suffix, g, e1, e2, e3, e4⟩ := ihr h.2.1 (path ++ ['1']) (d + 1) p hp
        refine ⟨'1' :: suffix, g, by simp [e1], by simp [Link.walk, e2], ?_, ?_⟩
        · simp only [Link.leaves, List.mem_append]; exact Or.inr e3
        · simp only [Link.depths, List.mem_append, List.length_cons]
          right
          have : d + (suffix.length + 1) = d + 1 + suffix.length := by omega
          rw [this]; exact e4

/-! ## Packing and unpacking -/

theorem packLoop_eq (letter : Nat → Char) (n : Nat) (hn : n + 8 ≤ 2 ^ 31) :
    ∀ (fuel i : Nat), (n - i + 7) / 8 ≤ fuel →
      packLoop letter (n : Int) fuel i =
        ((List.range ((n - i + 7) / 8)).map (fun q => packByte letter (i + 8 * q)), none) := by
  have hn1 : n + 8 ≤ 2147483648 := hn
  intro fuel
  induction fuel with
  | zero =>
    intro i h
    have h0 : (n - i + 7) / 8 = 0 := by omega
    simp [packLoop, h0]
  | succ k ih =>
    intro i h
    simp only [packLoop]
    by_cases hlt : i < n
    · have hc : ((i : Int) < (n : Int)) := by exact_mod_cast hlt
      have hg : ¬ INT_MAX < i + 8 := by
        simp only [INT_MAX]; omega
      rw [if_pos hc, if_neg hg]
      have hcnt : (n - i + 7) / 8 = (n - (i + 8) + 7) / 8 + 1 := by omega
      rw [hcnt, List.range_succ_eq_map, ih (i + 8) (by omega)]
      simp only [List.map_cons, List.map_map, Nat.mul_zero, Nat.add_zero, Prod.mk.injEq,
        List.cons.injEq, true_and, and_true]
      apply List.map_congr_left
      intro q _
      simp only [Function.comp, Nat.succ_eq_add_one]
      congr 1
      omega
    · have hc : ¬ ((i : Int) < (n : Int)) := by
        intro hh; exact hlt (by exact_mod_cast hh)
      rw [if_neg hc]
      have h0 : (n - i + 7) / 8 = 0 := by omega
      simp [h0]

theorem packLoop_nonpos (letter : Nat → Char) (len : Int) (hlen : len ≤ 0) :
    ∀ (fuel i : Nat), packLoop letter len fuel i = ([], none) := by
  intro fuel i
  cases fuel with
  | zero => rfl
  | succ k =>
    simp only [packLoop]
    have hc : ¬ ((i : Int) < len) := by omega
    rw [if_neg hc]

/-- The packing loop on a bit string of more than `2^31 - 8` and fewer than `2^31` characters
reaches `i = 2^31 - 8`, where `i + 8` is above `INT_MAX`. -/
theorem packLoop_overflow (letter : Nat → Char) (n : Nat) (hn : 2147483640 < n) :
    ∀ (fuel i : Nat), i % 8 = 0 → i ≤ 2147483640 → (2147483640 - i) / 8 < fuel →
      (packLoop letter (n : Int) fuel i).2 = some Fault.intOverflow := by
  intro fuel
  induction fuel with
  | zero => intro i _ _ h; omega
  | succ k ih =>
    intro i h8 hi hf
    simp only [packLoop]
    have hc : ((i : Int) < (n : Int)) := by
      have : i < n := by omega
      exact_mod_cast this
    rw [if_pos hc]
    by_cases hg : INT_MAX < i + 8
    · rw [if_pos hg]
    · rw [if_neg hg]
      simp only [INT_MAX] at hg
      exact ih (i + 8) (by omega) (by omega) (by omega)

theorem packedBytes_eq (bitStringCode : List Char) (past : Nat → Char)
    (h : bitStringCode.length + 8 ≤ 2 ^ 31) :
    packedBytes bitStringCode past =
      (List.range (byteCount bitStringCode.length)).map
        (fun q => packByte (letterAt bitStringCode past) (8 * q)) := by
  have h1 : bitStringCode.length + 8 ≤ 2147483648 := h
  have hs : bitStringCode.length < 2 ^ 31 := by
    have : (2 : Nat) ^ 31 = 2147483648 := by norm_num
    omega
  simp only [packedBytes, toInt32_small _ hs, byteCount]
  rw [packLoop_eq _ _ h _ 0 (by omega)]
  simp

theorem createBinaryFileFault_none (bitStringCode : List Char) (past : Nat → Char)
    (h : bitStringCode.length + 8 ≤ 2 ^ 31) :
    createBinaryFileFault bitStringCode past = none := by
  have h1 : bitStringCode.length + 8 ≤ 2147483648 := h
  have hs : bitStringCode.length < 2 ^ 31 := by
    have : (2 : Nat) ^ 31 = 2147483648 := by norm_num
    omega
  simp only [createBinaryFileFault, toInt32_small _ hs]
  rw [packLoop_eq _ _ h _ 0 (by omega)]

theorem createBinaryFileFault_overflow (bitStringCode : List Char) (past : Nat → Char)
    (h1 : 2147483640 < bitStringCode.length) (h2 : bitStringCode.length < 2 ^ 31) :
    createBinaryFileFault bitStringCode past = some Fault.intOverflow := by
  simp only [createBinaryFileFault, toInt32_small _ h2]
  exact packLoop_overflow _ _ h1 _ 0 rfl (by omega) (by omega)

theorem unpack_bits : ∀ b0 b1 b2 b3 b4 b5 b6 b7 : Fin 2,
    unpackByte (128 * b0.val + 64 * b1.val + 32 * b2.val + 16 * b3.val + 8 * b4.val +
        4 * b5.val + 2 * b6.val + b7.val) =
      [bitChar b0, bitChar b1, bitChar b2, bitChar b3, bitChar b4, bitChar b5, bitChar b6,
        bitChar b7] := by
  decide

theorem unpackByte_packByte (letter : Nat → Char) (i : Nat) :
    unpackByte (packByte letter i) =
      (List.range 8).map (fun d => bitChar (bitOf (letter (i + d)))) := by
  rw [packByte_eq, unpack_bits]
  rfl

theorem flatMap_blocks (g : Nat → Char) : ∀ (cnt : Nat),
    (List.range cnt).flatMap (fun j => (List.range 8).map (fun d => g (8 * j + d))) =
      (List.range (8 * cnt)).map g := by
  intro cnt
  induction cnt with
  | zero => rfl
  | succ c ih =>
    rw [List.range_succ, List.flatMap_append, ih]
    have h8 : 8 * (c + 1) = 8 * c + 1 + 1 + 1 + 1 + 1 + 1 + 1 + 1 := by omega
    rw [h8]
    simp only [List.range_succ, List.map_append, List.flatMap_cons, List.flatMap_nil,
      List.append_nil, List.map_cons, List.map_nil, List.append_assoc, List.cons_append,
      List.nil_append]
    simp [List.range, List.range.loop]

theorem unpack_packedBytes (bitStringCode : List Char) (past : Nat → Char)
    (h : bitStringCode.length + 8 ≤ 2 ^ 31) :
    unpack (packedBytes bitStringCode past) (byteCount bitStringCode.length) =
      (List.range (8 * byteCount bitStringCode.length)).map
        (fun k => bitChar (bitOf (letterAt bitStringCode past k))) := by
  rw [packedBytes_eq _ _ h, ← flatMap_blocks]
  simp only [unpack]
  apply List.flatMap_congr
  intro j hj
  have hj1 : j < byteCount bitStringCode.length := List.mem_range.mp hj
  have hget : ((List.range (byteCount bitStringCode.length)).map
      (fun q => packByte (letterAt bitStringCode past) (8 * q))).getD j 0
      = packByte (letterAt bitStringCode past) (8 * j) := by
    simp [List.getD_eq_getElem?_getD, List.getElem?_map, List.getElem?_range hj1]
  rw [hget, unpackByte_packByte]

theorem numBytesOf_natCast (n : Nat) : numBytesOf (n : Int) = ((byteCount n : Nat) : Int) := by
  simp only [numBytesOf, byteCount]
  have h1 : Int.tdiv (n : Int) 8 = ((n / 8 : Nat) : Int) := (Int.ofNat_tdiv n 8).symm
  have h2 : Int.tmod (n : Int) 8 = ((n % 8 : Nat) : Int) := (Int.ofNat_tmod n 8).symm
  rw [h1, h2]
  by_cases h : n % 8 = 0
  · have : ((n % 8 : Nat) : Int) = 0 := by exact_mod_cast h
    simp only [this, ne_eq, not_true_eq_false, if_false]
    have : (n + 7) / 8 = n / 8 := by omega
    rw [this]; simp
  · have hne : ((n % 8 : Nat) : Int) ≠ 0 := by
      intro e; exact h (by exact_mod_cast e)
    simp only [ne_eq, hne, not_false_eq_true, if_true]
    have : (n + 7) / 8 = n / 8 + 1 := by omega
    rw [this]; simp

theorem bitChar_bitOf (c : Char) (h : c = '0' ∨ c = '1') : bitChar (bitOf c) = c := by
  rcases h with h | h <;> subst h <;> decide

theorem letterAt_lt (bitStringCode : List Char) (past : Nat → Char) (k : Nat)
    (h : k < bitStringCode.length) : letterAt bitStringCode past k = bitStringCode[k] := by
  simp [letterAt, List.getElem?_eq_getElem h]

theorem letterAt_length (bitStringCode : List Char) (past : Nat → Char) :
    letterAt bitStringCode past bitStringCode.length = Char.ofNat 0 := by
  simp [letterAt]

theorem map_range_bits (bitStringCode : List Char) (past : Nat → Char)
    (hbin : ∀ c ∈ bitStringCode, c = '0' ∨ c = '1') :
    (List.range bitStringCode.length).map
      (fun k => bitChar (bitOf (letterAt bitStringCode past k))) = bitStringCode := by
  apply List.ext_getElem
  · simp
  · intro i h1 h2
    simp only [List.getElem_map, List.getElem_range]
    rw [letterAt_lt _ _ _ h2]
    exact bitChar_bitOf _ (hbin _ (List.getElem_mem _))

/-- Characters that the unpacking yields after the `n` characters of the bit string: the
padding of the last byte. -/
theorem unpack_split (bitStringCode : List Char) (past : Nat → Char)
    (hbin : ∀ c ∈ bitStringCode, c = '0' ∨ c = '1') (h : bitStringCode.length + 8 ≤ 2 ^ 31) :
    unpack (packedBytes bitStringCode past) (byteCount bitStringCode.length) =
      bitStringCode ++
        (List.range (8 * byteCount bitStringCode.length - bitStringCode.length)).map
          (fun j => bitChar (bitOf (letterAt bitStringCode past (bitStringCode.length + j)))) := by
  rw [unpack_packedBytes _ _ h]
  have hle : bitStringCode.length ≤ 8 * byteCount bitStringCode.length := by
    simp only [byteCount]; omega
  have hsplit : 8 * byteCount bitStringCode.length =
      bitStringCode.length + (8 * byteCount bitStringCode.length - bitStringCode.length) := by
    omega
  conv_lhs => rw [hsplit, List.range_add, List.map_append, map_range_bits _ _ hbin]
  simp [List.map_map, Function.comp]

theorem packedBytes_length (bitStringCode : List Char) (past : Nat → Char)
    (h : bitStringCode.length + 8 ≤ 2 ^ 31) :
    (packedBytes bitStringCode past).length = byteCount bitStringCode.length := by
  rw [packedBytes_eq _ _ h]; simp

theorem toInt32_pow31 : toInt32 2147483648 = -2147483648 := by decide

theorem packedBytes_wrapped (bitStringCode : List Char) (past : Nat → Char)
    (h : bitStringCode.length = 2147483648) : packedBytes bitStringCode past = [] := by
  unfold packedBytes
  rw [h, toInt32_pow31, packLoop_nonpos _ _ (by decide)]

theorem packedBytes_pow31 (c : Char) (past : Nat → Char) :
    packedBytes (List.replicate 2147483648 c) past = [] :=
  packedBytes_wrapped _ past (List.length_replicate _ _)

/-! ## Reading the code table file -/

theorem getline_good (str after : List Char) (h : '\n' ∉ str) :
    getline (goodStream (str ++ '\n' :: after)) = (str, goodStream after) := by
  have hall : ∀ a ∈ str, (fun c => decide (c ≠ '\n')) a = true := by
    intro a ha
    simp only [ne_eq, decide_not, Bool.not_eq_true', decide_eq_false_iff_not]
    intro e; exact h (e ▸ ha)
  have hspan : (str ++ '\n' :: after).span (fun c => decide (c ≠ '\n')) =
      (str, '\n' :: after) := by
    rw [List.span_eq_take_drop, List.takeWhile_append_of_pos hall,
      List.dropWhile_append_of_pos hall]
    simp
  simp only [getline, goodStream, Bool.false_eq_true, or_self, if_false, hspan]

theorem getline_end :
    getline (goodStream []) = ([], { rest := [], eofbit := true, failbit := true }) := by
  rfl

theorem getline_bad (s : IStream) (h : s.eofbit = true) :
    getline s = ([], { s with failbit := true }) := by
  simp [getline, h]

theorem readTableLoop_record (fuel : Nat) (sym : Char) (code rest : List Char)
    (map : DecodeMap) (hne : code ≠ []) (hnl : '\n' ∉ code) :
    readTableLoop (fuel + 1) (goodStream ([sym, '\n'] ++ code ++ ['\n'] ++ rest)) map =
      readTableLoop fuel (goodStream rest) (mapInsert map code [sym]) := by
  by_cases hs : sym = '\n'
  · subst hs
    have g1 : getline (goodStream (['\n', '\n'] ++ code ++ ['\n'] ++ rest)) =
        ([], goodStream ('\n' :: (code ++ '\n' :: rest))) := by
      have := getline_good [] ('\n' :: (code ++ '\n' :: rest)) (by simp)
      simpa using this
    have g2 : getline (goodStream ('\n' :: (code ++ '\n' :: rest))) =
        ([], goodStream (code ++ '\n' :: rest)) := by
      have := getline_good [] (code ++ '\n' :: rest) (by simp)
      simpa using this
    have g3 := getline_good code rest hnl
    rw [readTableLoop]
    simp only [g1, g2, g3]
    simp [goodStream]
  · have g1 : getline (goodStream ([sym, '\n'] ++ code ++ ['\n'] ++ rest)) =
        ([sym], goodStream (code ++ '\n' :: rest)) := by
      have := getline_good [sym] (code ++ '\n' :: rest) (by simpa using fun e => hs e.symm)
      simpa using this
    have g2 := getline_good code rest hnl
    rw [readTableLoop]
    simp only [g1, g2]
    simp [goodStream, hne]

theorem readTableLoop_end (fuel : Nat) (map : DecodeMap) :
    readTableLoop (fuel + 1) (goodStream []) map = mapInsert map [] ['\n'] := by
  cases fuel <;> rfl

theorem readTableLoop_table : ∀ (table : CodeMap) (fuel : Nat) (map : DecodeMap),
    (∀ p ∈ table, p.2 ≠ [] ∧ '\n' ∉ p.2) → table.length < fuel →
    readTableLoop fuel (goodStream (createCodeTableFile table)) map =
      mapInsert (table.foldl (fun m p => mapInsert m (decodeEntry p).1 (decodeEntry p).2) map)
        [] ['\n'] := by
  intro table
  induction table with
  | nil =>
    intro fuel map _ hf
    obtain ⟨k, rfl⟩ : ∃ k, fuel = k + 1 := ⟨fuel - 1, by simp at hf; omega⟩
    simpa [createCodeTableFile] using readTableLoop_end k map
  | cons p ps ih =>
    intro fuel map hcodes hf
    obtain ⟨k, rfl⟩ : ∃ k, fuel = k + 1 := ⟨fuel - 1, by simp at hf; omega⟩
    have hp := hcodes p (by simp)
    have htext : createCodeTableFile (p :: ps) =
        [p.1, '\n'] ++ p.2 ++ ['\n'] ++ createCodeTableFile ps := by
      simp [createCodeTableFile]
    rw [htext, readTableLoop_record k p.1 p.2 _ map hp.1 hp.2]
    rw [ih k _ (fun q hq => hcodes q (by simp [hq])) (by simp at hf; omega)]
    simp [decodeEntry]

theorem lookup_none_of_not_mem_keys {κ β : Type} [BEq κ] [LawfulBEq κ] (k : κ)
    (map : List (κ × β)) (h : k ∉ map.map Prod.fst) : map.lookup k = none := by
  rw [List.lookup_eq_none_iff]
  intro p hp
  simp only [bne_iff_ne, ne_eq]
  intro e
  exact h (e ▸ List.mem_map_of_mem Prod.fst hp)

theorem mapInsert_new {κ β : Type} [DecidableEq κ] (map : List (κ × β)) (k : κ) (v : β)
    (h : k ∉ map.map Prod.fst) : mapInsert map k v = map ++ [(k, v)] := by
  simp [mapInsert, lookup_none_of_not_mem_keys k map h]

theorem foldl_mapInsert_nodup {κ β : Type} [DecidableEq κ] :
    ∀ (entries map : List (κ × β)), ((map ++ entries).map Prod.fst).Nodup →
      entries.foldl (fun m p => mapInsert m p.1 p.2) map = map ++ entries := by
  intro entries
  induction entries with
  | nil => intro map _; simp
  | cons p ps ih =>
    intro map h
    have hnot : p.1 ∉ map.map Prod.fst := by
      simp only [List.map_append, List.map_cons] at h
      have := (List.nodup_append.mp h).2.2
      intro hm
      exact this hm (by simp)
    simp only [List.foldl_cons, mapInsert_new map p.1 p.2 hnot]
    rw [ih (map ++ [p]) (by simpa using h)]
    simp

theorem lookup_mem_of_nodup_keys {κ β : Type} [BEq κ] [LawfulBEq κ] :
    ∀ (map : List (κ × β)), (map.map Prod.fst).Nodup →
      ∀ p ∈ map, map.lookup p.1 = some p.2 := by
  intro map
  induction map with
  | nil => intro _ p hp; simp at hp
  | cons q qs ih =>
    intro hnd p hp
    obtain ⟨k, v⟩ := q
    simp only [List.map_cons, List.nodup_cons] at hnd
    rcases List.mem_cons.mp hp with hp | hp
    · subst hp; simp
    · have hne : p.1 ≠ k := by
        intro e
        exact hnd.1 (e ▸ List.mem_map_of_mem Prod.fst hp)
      have hb : (p.1 == k) = false := by simpa using hne
      simp only [List.lookup_cons, hb]
      exact ih hnd.2 p hp

theorem createCodeTableFile_length (table : CodeMap) :
    table.length ≤ (createCodeTableFile table).length := by
  induction table with
  | nil => simp [createCodeTableFile]
  | cons p ps ih =>
    simp only [createCodeTableFile, List.flatMap_cons, List.length_append, List.length_cons,
      List.length_nil] at ih ⊢
    omega

theorem decodeEntry_keys (table : CodeMap) :
    (table.map decodeEntry).map Prod.fst = table.map Prod.snd := by
  simp [List.map_map, Function.comp, decodeEntry]

/-- The map that `decompress` reads from the file that `createCodeTableFile` wrote, for a code
table with distinct, non-empty codes free of newlines: one element per element of the code
table, and the element that the last pass of the reading loop adds for the empty string. -/
theorem readTable_createCodeTableFile (table : CodeMap)
    (hcodes : ∀ p ∈ table, p.2 ≠ [] ∧ '\n' ∉ p.2) (hnd : (table.map Prod.snd).Nodup) :
    readTable (createCodeTableFile table) = table.map decodeEntry ++ [([], ['\n'])] := by
  have hfuel := createCodeTableFile_length table
  have h1 := readTableLoop_table table ((createCodeTableFile table).length + 1) [] hcodes
    (by omega)
  have hfold : table.foldl (fun m p => mapInsert m (decodeEntry p).1 (decodeEntry p).2) [] =
      (table.map decodeEntry).foldl (fun m p => mapInsert m p.1 p.2) [] := by
    rw [List.foldl_map]
  have hkeys : (([] ++ table.map decodeEntry).map Prod.fst).Nodup := by
    rw [List.nil_append, decodeEntry_keys]; exact hnd
  have hempty : ([] : List Char) ∉ (table.map decodeEntry).map Prod.fst := by
    rw [decodeEntry_keys]
    intro hm
    obtain ⟨p, hp, e⟩ := List.mem_map.mp hm
    exact (hcodes p hp).1 e
  show readTableLoop _ (goodStream _) [] = _
  rw [h1, hfold, foldl_mapInsert_nodup _ _ hkeys, List.nil_append, mapInsert_new _ _ _ hempty]

theorem binary_no_newline (code : List Char) (h : ∀ c ∈ code, c = '0' ∨ c = '1') :
    '\n' ∉ code := by
  intro hm
  rcases h _ hm with e | e <;> exact absurd e (by decide)

/-! ## Heap order -/

theorem freqAt_of_getElem? {q : List HuffmanNode} {i : Nat} {x : HuffmanNode}
    (h : q[i]? = some x) : freqAt q i = x.frequency := by
  simp [freqAt, h]

theorem freqAt_set_self (q : List HuffmanNode) (j : Nat) (x : HuffmanNode)
    (h : j < q.length) : freqAt (q.set j x) j = x.frequency := by
  simp [freqAt, List.getElem?_set_eq_of_lt, h]

theorem freqAt_set_ne (q : List HuffmanNode) (i j : Nat) (x : HuffmanNode) (h : i ≠ j) :
    freqAt (q.set j x) i = freqAt q i := by
  simp [freqAt, List.getElem?_set_ne (Ne.symm h)]

theorem pushHeapLoop_heap (value : HuffmanNode) (len : Nat) :
    ∀ (fuel : Nat) (first : List HuffmanNode) (hole : Nat),
      HoleOrder first len hole →
      (∀ i, 0 < i → i < len → (i - 1) / 2 = hole → value.frequency ≤ freqAt first i) →
      hole < len → len ≤ first.length → hole < fuel →
      IsHeapUpTo (pushHeapLoop value 0 fuel first hole) len := by
  intro fuel
  induction fuel with
  | zero => intro first hole _ _ _ _ hf; omega
  | succ n ih =>
    intro first hole hord hch hlen hL hf
    have hfinal : (0 < hole → freqAt first ((hole - 1) / 2) < value.frequency) →
        IsHeapUpTo (first.set hole value) len := by
      intro hexit i hi0 hil
      by_cases h1 : i = hole
      · subst h1
        rw [freqAt_set_self _ _ _ (by omega), freqAt_set_ne _ _ _ _ (by omega)]
        exact Nat.le_of_lt (hexit hi0)
      · rw [freqAt_set_ne _ i _ _ h1]
        by_cases h2 : (i - 1) / 2 = hole
        · rw [h2, freqAt_set_self _ _ _ (by omega)]
          exact hch i hi0 hil h2
        · rw [freqAt_set_ne _ _ _ _ h2]
          exact hord.1 i hi0 hil h1 h2
    simp only [pushHeapLoop]
    have hp : (hole - 1) / 2 < first.length := by omega
    rw [List.getElem?_eq_getElem hp]
    simp only
    have hpf : freqAt first ((hole - 1) / 2) = first[(hole - 1) / 2].frequency :=
      freqAt_of_getElem? (List.getElem?_eq_getElem hp)
    by_cases hc : 0 < hole ∧ Compare first[(hole - 1) / 2] value = true
    · rw [if_pos hc]
      obtain ⟨h0, hcmp⟩ := hc
      simp only [Compare, decide_eq_true_eq, ge_iff_le] at hcmp
      have hne : (hole - 1) / 2 ≠ hole := by omega
      apply ih
      · refine ⟨?_, ?_⟩
        · intro i hi0 hil hi1 hi2
          have hih : i ≠ hole := by
            intro e; subst e; exact hi2 rfl
          rw [freqAt_set_ne _ i _ _ hih]
          by_cases h2 : (i - 1) / 2 = hole
          · rw [h2, freqAt_set_self _ _ _ (by omega), ← hpf]
            exact hord.2 i hi0 hil h2 h0
          · rw [freqAt_set_ne _ _ _ _ h2]
            exact hord.1 i hi0 hil hih h2
        · intro i hi0 hil hi1 hi2
          have hg : freqAt first (((hole - 1) / 2 - 1) / 2) ≤ freqAt first ((hole - 1) / 2) :=
            hord.1 ((hole - 1) / 2) hi2 (by omega) hne (by omega)
          rw [freqAt_set_ne _ (((hole - 1) / 2 - 1) / 2) _ _ (by omega)]
          by_cases h1 : i = hole
          · subst h1
            rw [freqAt_set_self _ _ _ (by omega), ← hpf]
            exact hg
          · rw [freqAt_set_ne _ i _ _ h1]
            have := hord.1 i hi0 hil h1 (by omega)
            rw [hi1] at this
            omega
      · intro i hi0 hil hi1
        by_cases h1 : i = hole
        · subst h1
          rw [freqAt_set_self _ _ _ (by omega)]
          exact hcmp
        · rw [freqAt_set_ne _ i _ _ h1]
          have := hord.1 i hi0 hil h1 (by omega)
          rw [hi1, hpf] at this
          omega
      · omega
      · simp; exact hL
      · omega
    · rw [if_neg hc]
      apply hfinal
      intro h0
      rw [hpf]
      have : ¬ Compare first[(hole - 1) / 2] value = true := fun e => hc ⟨h0, e⟩
      simp only [Compare, decide_eq_true_eq, ge_iff_le, not_le] at this
      exact this

theorem freqAt_append_lt (q : List HuffmanNode) (x : HuffmanNode) (i : Nat)
    (h : i < q.length) : freqAt (q ++ [x]) i = freqAt q i := by
  simp [freqAt, List.getElem?_append_left h]

theorem push_length (priorityQueue : Queue) (x : HuffmanNode) :
    (push priorityQueue x).length = priorityQueue.length + 1 := by
  have := (push_perm priorityQueue x).length_eq
  simpa using this

theorem push_heap (priorityQueue : Queue) (x : HuffmanNode) (h : IsHeap priorityQueue) :
    IsHeap (push priorityQueue x) := by
  have hlen := push_length priorityQueue x
  simp only [IsHeap, hlen]
  simp only [push, pushHeap]
  apply pushHeapLoop_heap
  · refine ⟨?_, ?_⟩
    · intro i hi0 hil hi1 hi2
      simp only [List.length_append, List.length_cons, List.length_nil] at hi1
      rw [freqAt_append_lt _ _ _ (by omega), freqAt_append_lt _ _ _ (by omega)]
      exact h i hi0 (by omega)
    · intro i hi0 hil hi1 _
      simp only [List.length_append, List.length_cons, List.length_nil] at hi1
      omega
  · intro i hi0 hil hi1
    simp only [List.length_append, List.length_cons, List.length_nil] at hi1
    omega
  · simp
  · simp
  · omega

theorem adjustLoop_hole (len : Nat) :
    ∀ (fuel : Nat) (first : List HuffmanNode) (hole : Nat),
      HoleOrder first len hole → hole < len → len ≤ first.length →
      (len - 1) / 2 ≤ hole + fuel →
      HoleOrder (adjustLoop len fuel first hole).1 len (adjustLoop len fuel first hole).2 ∧
        (adjustLoop len fuel first hole).2 < len ∧
        ¬ (adjustLoop len fuel first hole).2 < (len - 1) / 2 := by
  intro fuel
  induction fuel with
  | zero =>
    intro first hole hord hlen _ hf
    exact ⟨hord, hlen, by simp only [adjustLoop]; omega⟩
  | succ n ih =>
    intro first hole hord hlen hL hf
    simp only [adjustLoop]
    by_cases hlt : hole < (len - 1) / 2
    · rw [if_pos hlt]
      have hr : 2 * (hole + 1) < first.length := by omega
      have hl : 2 * (hole + 1) - 1 < first.length := by omega
      rw [List.getElem?_eq_getElem hr, List.getElem?_eq_getElem hl]
      simp only
      have hfr : freqAt first (2 * (hole + 1)) = first[2 * (hole + 1)].frequency :=
        freqAt_of_getElem? (List.getElem?_eq_getElem hr)
      have hfl : freqAt first (2 * (hole + 1) - 1) = first[2 * (hole + 1) - 1].frequency :=
        freqAt_of_getElem? (List.getElem?_eq_getElem hl)
      -- the step with the chosen child `c`, which is not above the other child
      have hstep : ∀ c, (c = 2 * (hole + 1) ∨ c = 2 * (hole + 1) - 1) →
          (∀ (hc : c < first.length),
            freqAt first c ≤ freqAt first (2 * (hole + 1)) ∧
            freqAt first c ≤ freqAt first (2 * (hole + 1) - 1)) →
          ∀ (hc : c < first.length), HoleOrder (first.set hole first[c]) len c := by
        intro c hcc hmin hc
        have hfc : freqAt first c = first[c].frequency :=
          freqAt_of_getElem? (List.getElem?_eq_getElem hc)
        have hch : c ≠ hole := by omega
        have hpar : (c - 1) / 2 = hole := by omega
        refine ⟨?_, ?_⟩
        · intro i hi0 hil hi1 hi2
          by_cases h1 : i = hole
          · subst h1
            rw [freqAt_set_self _ _ _ (by omega), freqAt_set_ne _ _ _ _ (by omega), ← hfc]
            exact hord.2 c (by omega) (by omega) hpar hi0
          · rw [freqAt_set_ne _ i _ _ h1]
            by_cases h2 : (i - 1) / 2 = hole
            · rw [h2, freqAt_set_self _ _ _ (by omega), ← hfc]
              have hi : i = 2 * (hole + 1) ∨ i = 2 * (hole + 1) - 1 := by omega
              rcases hi with e | e
              · rw [e]; exact (hmin hc).1
              · rw [e]; exact (hmin hc).2
            · rw [freqAt_set_ne _ _ _ _ h2]
              exact hord.1 i hi0 hil h1 h2
        · intro i hi0 hil hi1 _
          rw [hpar, freqAt_set_self _ _ _ (by omega), freqAt_set_ne _ i _ _ (by omega), ← hfc]
          have := hord.1 i hi0 hil (by omega) (by omega)
          rw [hi1] at this
          exact this
      by_cases hcmp : Compare first[2 * (hole + 1)] first[2 * (hole + 1) - 1] = true
      · simp only [if_pos hcmp]
        have hge := hcmp
        simp only [Compare, decide_eq_true_eq, ge_iff_le] at hge
        have := hstep (2 * (hole + 1) - 1) (Or.inr rfl)
          (fun _ => ⟨by rw [hfl, hfr]; exact hge, le_refl _⟩) hl
        exact ih _ _ this (by omega) (by simp; exact hL) (by omega)
      · simp only [if_neg hcmp]
        have hlt2 := hcmp
        simp only [Compare, decide_eq_true_eq, ge_iff_le, not_le] at hlt2
        have := hstep (2 * (hole + 1)) (Or.inl rfl)
          (fun _ => ⟨le_refl _, by rw [hfl, hfr]; exact Nat.le_of_lt hlt2⟩) hr
        exact ih _ _ this (by omega) (by simp; exact hL) (by omega)
    · rw [if_neg hlt]
      exact ⟨hord, hlen, hlt⟩

theorem adjustHeap_heap (first : List HuffmanNode) (len : Nat) (value : HuffmanNode)
    (hord : HoleOrder first len 0) (hpos : 0 < len) (hL : len ≤ first.length) :
    IsHeapUpTo (adjustHeap first 0 len value) len := by
  have h0 : first[0]? = some first[0] := List.getElem?_eq_getElem (by omega)
  obtain ⟨_, _, _, _, hlen1, _⟩ := adjustLoop_spec len len first 0 first[0] h0 hpos
  obtain ⟨hord1, hlt1, hnot1⟩ := adjustLoop_hole len len first 0 hord hpos hL (by omega)
  simp only [adjustHeap]
  generalize adjustLoop len len first 0 = res at hlen1 hord1 hlt1 hnot1
  obtain ⟨first1, hole1⟩ := res
  simp only at hlen1 hord1 hlt1 hnot1 ⊢
  by_cases hcond : len % 2 = 0 ∧ hole1 = (len - 2) / 2
  · rw [if_pos hcond]
    have hc : 2 * (hole1 + 1) - 1 < first1.length := by omega
    rw [List.getElem?_eq_getElem hc]
    simp only [pushHeap]
    have hfc : freqAt first1 (2 * (hole1 + 1) - 1) = first1[2 * (hole1 + 1) - 1].frequency :=
      freqAt_of_getElem? (List.getElem?_eq_getElem hc)
    apply pushHeapLoop_heap
    · refine ⟨?_, ?_⟩
      · intro i hi0 hil hi1 hi2
        by_cases h1 : i = hole1
        · subst h1
          rw [freqAt_set_self _ _ _ (by omega), freqAt_set_ne _ _ _ _ (by omega), ← hfc]
          exact hord1.2 (2 * (i + 1) - 1) (by omega) (by omega) (by omega) hi0
        · rw [freqAt_set_ne _ i _ _ h1]
          have h2 : (i - 1) / 2 ≠ hole1 := by omega
          rw [freqAt_set_ne _ _ _ _ h2]
          exact hord1.1 i hi0 hil h1 h2
      · intro i hi0 hil hi1 _
        omega
    · intro i hi0 hil hi1
      omega
    · omega
    · simp; omega
    · omega
  · rw [if_neg hcond]
    simp only [pushHeap]
    apply pushHeapLoop_heap _ _ _ _ _ hord1
    · intro i hi0 hil hi1
      omega
    · exact hlt1
    · omega
    · omega

theorem freqAt_dropLast (q : List HuffmanNode) (i : Nat) (h : i < q.length - 1) :
    freqAt q.dropLast i = freqAt q i := by
  simp only [freqAt]
  rw [List.dropLast_eq_take, List.getElem?_take_of_lt h]

theorem pop_heap (priorityQueue : Queue) (h : IsHeap priorityQueue) :
    IsHeap (pop priorityQueue) := by
  cases priorityQueue with
  | nil => intro i _ hi; simp [pop] at hi
  | cons x rest =>
    cases rest with
    | nil => intro i _ hi; simp [pop] at hi
    | cons y ys =>
      have hL : (x :: y :: ys).length = ys.length + 2 := by simp
      have hlast : ∃ value, (x :: y :: ys)[(x :: y :: ys).length - 1]? = some value :=
        ⟨_, List.getElem?_eq_getElem (by simp)⟩
      obtain ⟨value, hv⟩ := hlast
      have h0 : (x :: y :: ys)[0]? = some x := rfl
      have hpop : pop (x :: y :: ys) =
          (adjustHeap ((x :: y :: ys).set ((x :: y :: ys).length - 1) x) 0
            ((x :: y :: ys).length - 1) value).dropLast := by
        simp only [pop, h0, hv]
        simp
      rw [hpop]
      clear hpop hv
      generalize hq : x :: y :: ys = q at h hL h0 ⊢
      have hf0 : (q.set (q.length - 1) x)[0]? = some x := by
        rw [List.getElem?_set_ne (by omega)]; exact h0
      obtain ⟨_, hRlen, _⟩ := adjustHeap_spec (q.set (q.length - 1) x) 0 (q.length - 1) value x
        hf0 (by omega)
      have hheap : IsHeapUpTo (adjustHeap (q.set (q.length - 1) x) 0 (q.length - 1) value)
          (q.length - 1) := by
        apply adjustHeap_heap
        · refine ⟨?_, ?_⟩
          · intro i hi0 hil hi1 hi2
            rw [freqAt_set_ne _ i _ _ (by omega), freqAt_set_ne _ _ _ _ (by omega)]
            exact h i hi0 (by omega)
          · intro i _ _ _ hpos
            omega
        · omega
        · simp
      intro i hi0 hil
      simp only [List.length_dropLast, hRlen, List.length_set] at hil
      rw [freqAt_dropLast _ _ (by rw [hRlen]; simp; omega),
        freqAt_dropLast _ _ (by rw [hRlen]; simp; omega)]
      exact hheap i hi0 hil

theorem heap_root_le (q : List HuffmanNode) (h : IsHeapUpTo q q.length) :
    ∀ (i : Nat), i < q.length → freqAt q 0 ≤ freqAt q i := by
  intro i
  induction i using Nat.strong_induction_on with
  | _ i ih =>
    intro hi
    by_cases h0 : i = 0
    · subst h0; exact le_refl _
    · have h1 := ih ((i - 1) / 2) (by omega) (by omega)
      have h2 := h i (by omega) hi
      omega

theorem top_min (priorityQueue : Queue) (t : HuffmanNode) (h : IsHeap priorityQueue)
    (ht : top priorityQueue = some t) : ∀ y ∈ priorityQueue, t.frequency ≤ y.frequency := by
  intro y hy
  obtain ⟨i, hi, rfl⟩ := List.getElem_of_mem hy
  have h1 := heap_root_le priorityQueue h i hi
  have ht0 : priorityQueue[0]? = some t := by
    rw [← List.head?_eq_getElem?]; exact ht
  rw [freqAt_of_getElem? ht0, freqAt_of_getElem? (List.getElem?_eq_getElem hi)] at h1
  exact h1

theorem createPriorityQueue_heap (map : FreqMap) :
    ∀ (priorityQueue : Queue), IsHeap priorityQueue →
      IsHeap (createPriorityQueue priorityQueue map) := by
  induction map with
  | nil => intro q h; exact h
  | cons p ps ih =>
    intro q h
    simp only [createPriorityQueue, List.foldl_cons] at ih ⊢
    exact ih _ (push_heap q _ h)

theorem isHeap_nil : IsHeap [] := by
  intro i _ hi
  simp at hi

theorem buildLoop_invariant (P : Queue → Prop)
    (hstep : ∀ q, 2 ≤ q.length → P q → P (buildStep q)) :
    ∀ (fuel : Nat) (q : Queue), P q → P (buildLoop fuel q) := by
  intro fuel
  induction fuel with
  | zero => intro q h; exact h
  | succ n ih =>
    intro q h
    simp only [buildLoop]
    split
    · rename_i hlt
      exact ih _ (hstep q hlt h)
    · exact h

theorem buildStep_minima (q : Queue) (h : IsHeap q) (hlen : 2 ≤ q.length) :
    ∃ left right, top q = some left ∧ top (pop q) = some right ∧
      (∀ y ∈ q, left.frequency ≤ y.frequency) ∧
      (∀ y ∈ pop q, right.frequency ≤ y.frequency) ∧
      right ∈ q ∧
      buildStep q = push (pop (pop q)) (mergeNode left right) ∧
      IsHeap (buildStep q) := by
  obtain ⟨l, r, rest, hp, ht, ht2, _⟩ := buildStep_spec q hlen
  have hpop := pop_perm q l ht
  have hr : r ∈ pop q := by
    cases hq : pop q with
    | nil => rw [hq] at ht2; simp [top] at ht2
    | cons a as =>
      rw [hq] at ht2
      simp only [top, List.head?_cons, Option.some.injEq] at ht2
      subst ht2
      simp
  have hstep : buildStep q = push (pop (pop q)) (mergeNode l r) := by
    simp only [buildStep, ht, ht2]
  refine ⟨l, r, ht, ht2, top_min q l h ht, top_min (pop q) r (pop_heap q h) ht2,
    hpop.mem_iff.mp (List.mem_cons_of_mem _ hr), hstep, ?_⟩
  rw [hstep]
  exact push_heap _ _ (pop_heap _ (pop_heap q h))

theorem mergeNode_leftLe (l r : HuffmanNode) (hl : Link.LeftLe (Link.ofNode l))
    (hr : Link.LeftLe (Link.ofNode r)) (hle : l.frequency ≤ r.frequency) :
    Link.LeftLe (Link.ofNode (mergeNode l r)) := by
  simp only [mergeNode, Link.ofNode, Link.LeftLe, Link.frequency] at hl hr ⊢
  exact ⟨hl, hr, hle⟩

theorem buildStep_leftLe (q : Queue) (hlen : 2 ≤ q.length)
    (h : IsHeap q ∧ ∀ x ∈ q, Link.LeftLe (Link.ofNode x)) :
    IsHeap (buildStep q) ∧ ∀ x ∈ buildStep q, Link.LeftLe (Link.ofNode x) := by
  obtain ⟨l, r, rest, hp, ht, ht2, hs⟩ := buildStep_spec q hlen
  obtain ⟨l1, r1, e1, e2, hmin, _, hrq, _, hheap⟩ := buildStep_minima q h.1 hlen
  have el : l1 = l := by rw [ht] at e1; exact (Option.some.inj e1).symm
  have er : r1 = r := by rw [ht2] at e2; exact (Option.some.inj e2).symm
  subst el; subst er
  refine ⟨hheap, ?_⟩
  intro x hx
  rcases List.mem_cons.mp (hs.mem_iff.mp hx) with hx | hx
  · subst hx
    exact mergeNode_leftLe l1 r1 (h.2 l1 (hp.mem_iff.mp (by simp)))
      (h.2 r1 hrq) (hmin r1 hrq)
  · exact h.2 x (hp.mem_iff.mp (by simp [hx]))

theorem buildHuffmanTree_leftLe (map : FreqMap) (hne : map ≠ []) :
    ∃ root q, buildHuffmanTree (createPriorityQueue [] map) = Except.ok (root, q) ∧
      Link.LeftLe (Link.ofNode root) := by
  obtain ⟨root, h1, _, _⟩ := buildHuffmanTree_spec map hne
  refine ⟨root, [root], h1, ?_⟩
  have hinit : IsHeap (createPriorityQueue [] map) ∧
      ∀ x ∈ createPriorityQueue [] map, Link.LeftLe (Link.ofNode x) := by
    refine ⟨createPriorityQueue_heap map [] isHeap_nil, ?_⟩
    intro x hx
    have := (createPriorityQueue_perm map []).mem_iff.mp hx
    simp only [List.nil_append, List.mem_map] at this
    obtain ⟨p, _, rfl⟩ := this
    simp [HuffmanNode.new, Link.ofNode, Link.LeftLe]
  have hfin := buildLoop_invariant
    (fun q => IsHeap q ∧ ∀ x ∈ q, Link.LeftLe (Link.ofNode x))
    buildStep_leftLe (createPriorityQueue [] map).length _ hinit
  have hq : buildLoop (createPriorityQueue [] map).length (createPriorityQueue [] map) =
      [root] := by
    simp only [buildHuffmanTree] at h1
    split at h1
    · simp only [Except.ok.injEq, Prod.mk.injEq] at h1
      exact h1.2
    · simp at h1
  rw [hq] at hfin
  exact hfin.2 root (by simp)

/-! ## Decoding the written files -/

theorem decodeLoop_code (D : DecodeMap) (table : CodeMap) (n : Nat)
    (hD : DecodesFor D table) (hpf : PrefixFree table) (p : Char × List Char)
    (hp : p ∈ table) :
    ∀ (suf pre : List Char) (k : Nat) (rest out : List Char),
      pre ++ suf = p.2 → suf ≠ [] → k + suf.length ≤ n →
      decodeLoop D (n : Int) k (suf ++ rest) pre out =
        decodeLoop D (n : Int) (k + suf.length) rest [] (out ++ [p.1]) := by
  intro suf
  induction suf with
  | nil => intro pre k rest out _ h; exact absurd rfl h
  | cons c cs ih =>
    intro pre k rest out hcode _ hk
    simp only [List.length_cons] at hk
    have hkn : ¬ ((k : Int) = (n : Int)) := by
      intro e
      have : k = n := by exact_mod_cast e
      omega
    by_cases hcs : cs = []
    · subst hcs
      have hline : pre ++ [c] = p.2 := hcode
      have hl := hD.1 p hp
      simp only [List.cons_append, List.nil_append, decodeLoop, hline, hl, if_neg hkn,
        List.length_cons, List.length_nil, List.append_eq, Nat.zero_add]
    · have hnone : D.lookup (pre ++ [c]) = none := by
        apply hD.2 _ (by simp)
        intro q hq e
        have hpre : q.2 <+: p.2 := by
          rw [e, ← hcode]
          exact ⟨cs, by simp⟩
        have hqp := hpf.1 q hq p hp hpre
        rw [hqp, ← hcode] at e
        have := congrArg List.length e
        simp only [List.length_append, List.length_cons, List.length_nil] at this
        cases cs with
        | nil => exact hcs rfl
        | cons _ _ => simp at this
      have hrec := ih (pre ++ [c]) (k + 1) rest out (by simp [← hcode]) hcs (by omega)
      simp only [List.cons_append, decodeLoop, hnone, if_neg hkn, List.length_cons,
        List.append_eq]
      rw [hrec]
      congr 1
      omega

theorem decodeLoop_stream (D : DecodeMap) (table : CodeMap) (n : Nat)
    (hD : DecodesFor D table) (hpf : PrefixFree table) :
    ∀ (input : List Char) (k : Nat) (rest out : List Char),
      (∀ c ∈ input, (c, codeOf table c) ∈ table) →
      k + (input.flatMap (codeOf table)).length ≤ n →
      decodeLoop D (n : Int) k (input.flatMap (codeOf table) ++ rest) [] out =
        decodeLoop D (n : Int) (k + (input.flatMap (codeOf table)).length) rest []
          (out ++ input) := by
  intro input
  induction input with
  | nil => intro k rest out _ _; simp
  | cons c cs ih =>
    intro k rest out hin hk
    have hc := hin c (by simp)
    simp only [List.flatMap_cons, List.length_append] at hk ⊢
    have hne : codeOf table c ≠ [] := hpf.2 _ hc
    rw [List.append_assoc,
      decodeLoop_code D table n hD hpf (c, codeOf table c) hc (codeOf table c) [] k _ out
        (by simp) hne (by omega)]
    rw [ih (k + (codeOf table c).length) rest (out ++ [c])
      (fun x hx => hin x (by simp [hx])) (by omega)]
    simp only [List.append_assoc, List.singleton_append]
    congr 1
    omega

theorem decodeLoop_last (D : DecodeMap) (n : Nat) (tail out : List Char) :
    decodeLoop D (n : Int) n ('0' :: tail) [] out =
      match D.lookup ['0'] with
      | some symbol => out ++ symbol
      | none => out := by
  simp only [decodeLoop, List.nil_append]
  split <;> simp

theorem paths_binary : ∀ (t : Link) (path : List Char) (p : Char × List Char),
    p ∈ Link.paths t path → (∀ c ∈ path, c = '0' ∨ c = '1') → ∀ c ∈ p.2, c = '0' ∨ c = '1' := by
  intro t
  induction t with
  | null => intro path p h; simp [Link.paths] at h
  | ptr letter f l r ihl ihr =>
    intro path p h hb
    cases l with
    | null =>
      simp only [Link.paths, List.mem_singleton] at h
      subst h
      exact hb
    | ptr a b c d =>
      simp only [Link.paths, List.mem_append] at h
      rcases h with h | h
      · apply ihl _ p h
        intro x hx
        rcases List.mem_append.mp hx with hx | hx
        · exact hb x hx
        · simp at hx; exact Or.inl hx
      · apply ihr _ p h
        intro x hx
        rcases List.mem_append.mp hx with hx | hx
        · exact hb x hx
        · simp at hx; exact Or.inr hx

theorem paths_nonempty_of_two_leaves (t : Link) (h2 : 2 ≤ (Link.leaves t).length) :
    ∀ p ∈ Link.paths t [], p.2 ≠ [] := by
  intro p hp
  cases t with
  | null => simp [Link.paths] at hp
  | ptr letter f l r =>
    cases l with
    | null => simp [Link.leaves] at h2
    | ptr a b c d =>
      simp only [Link.paths, List.mem_append] at hp
      intro e
      rcases hp with hp | hp
      · have := (paths_extend _ _ p hp).length_le
        rw [e] at this; simp at this
      · have := (paths_extend _ _ p hp).length_le
        rw [e] at this; simp at this

theorem paths_prefixFree (t : Link) (h2 : 2 ≤ (Link.leaves t).length) :
    PrefixFree (Link.paths t []) := by
  refine ⟨?_, paths_nonempty_of_two_leaves t h2⟩
  intro p hp q hq hpre
  by_contra hne
  have hsym : Symmetric (fun (a b : Char × List Char) => ¬ a.2 <+: b.2 ∧ ¬ b.2 <+: a.2) :=
    fun _ _ h => ⟨h.2, h.1⟩
  exact ((paths_pairwise t []).forall hsym hp hq hne).1 hpre

theorem codes_nodup (table : CodeMap) (hpf : PrefixFree table)
    (hk : (table.map Prod.fst).Nodup) : (table.map Prod.snd).Nodup := by
  apply List.Nodup.map_on _ (List.Nodup.of_map _ hk)
  intro p hp q hq e
  exact hpf.1 p hp q hq (by rw [e])

theorem readTable_decodesFor (table : CodeMap) (hpf : PrefixFree table)
    (hk : (table.map Prod.fst).Nodup)
    (hbin : ∀ p ∈ table, ∀ c ∈ p.2, c = '0' ∨ c = '1') :
    DecodesFor (readTable (createCodeTableFile table)) table := by
  have hnd := codes_nodup table hpf hk
  have hc : ∀ q ∈ table, q.2 ≠ [] ∧ '\n' ∉ q.2 :=
    fun q hq => ⟨hpf.2 q hq, binary_no_newline q.2 (hbin q hq)⟩
  rw [readTable_createCodeTableFile table hc hnd]
  have hkeys : ((table.map decodeEntry).map Prod.fst).Nodup := by
    rw [decodeEntry_keys]; exact hnd
  refine ⟨?_, ?_⟩
  · intro p hp
    rw [List.lookup_append]
    have := lookup_mem_of_nodup_keys (table.map decodeEntry) hkeys (decodeEntry p)
      (List.mem_map_of_mem decodeEntry hp)
    simp only [decodeEntry] at this
    rw [this]
    rfl
  · intro line hline hnot
    apply lookup_none_of_not_mem_keys
    rw [List.map_append, decodeEntry_keys]
    intro hm
    rcases List.mem_append.mp hm with hm | hm
    · obtain ⟨p, hp, e⟩ := List.mem_map.mp hm
      exact hnot p hp e
    · simp at hm
      exact hline hm

theorem mem_table_codeOf (table : CodeMap) (hk : (table.map Prod.fst).Nodup) (c : Char)
    (hc : c ∈ table.map Prod.fst) : (c, codeOf table c) ∈ table := by
  obtain ⟨p, hp, rfl⟩ := List.mem_map.mp hc
  have := lookup_mem_of_nodup_keys table hk p hp
  simp only [codeOf, this, Option.getD_some]
  exact hp

theorem flatMap_binary (table : CodeMap) (hbin : ∀ p ∈ table, ∀ c ∈ p.2, c = '0' ∨ c = '1')
    (input : List Char) (hin : ∀ c ∈ input, (c, codeOf table c) ∈ table) :
    ∀ b ∈ input.flatMap (codeOf table), b = '0' ∨ b = '1' := by
  intro b hb
  obtain ⟨c, hc, hbc⟩ := List.mem_flatMap.mp hb
  exact hbin _ (hin c hc) b hbc

theorem paddingOf_aligned (bitStringCode : List Char) (past : Nat → Char)
    (h : bitStringCode.length % 8 = 0) : paddingOf bitStringCode past = [] := by
  have : 8 * byteCount bitStringCode.length - bitStringCode.length = 0 := by
    simp only [byteCount]; omega
  simp [paddingOf, this]

theorem paddingOf_unaligned (bitStringCode : List Char) (past : Nat → Char)
    (h : bitStringCode.length % 8 ≠ 0) :
    ∃ tail, paddingOf bitStringCode past = '0' :: tail := by
  obtain ⟨m, hm⟩ : ∃ m, 8 * byteCount bitStringCode.length - bitStringCode.length = m + 1 :=
    ⟨8 * byteCount bitStringCode.length - bitStringCode.length - 1, by
      simp only [byteCount]; omega⟩
  have h0 : bitChar (bitOf (Char.ofNat 0)) = '0' := by decide
  refine ⟨((List.range m).map Nat.succ).map
    (fun j => bitChar (bitOf (letterAt bitStringCode past (bitStringCode.length + j)))), ?_⟩
  simp only [paddingOf, hm, List.range_succ_eq_map, List.map_cons, Nat.add_zero,
    letterAt_length, h0]

theorem decodeFiles_artifacts (hdr : List Char) (bitStringCode : List Char)
    (past : Nat → Char) (hbin : ∀ c ∈ bitStringCode, c = '0' ∨ c = '1')
    (hlen : bitStringCode.length + 8 ≤ 2 ^ 31) :
    decodeFiles hdr (createBinaryFile bitStringCode past) =
      Except.ok (decodeLoop (readTable hdr) (bitStringCode.length : Int) 0
        (bitStringCode ++ paddingOf bitStringCode past) [] []) := by
  obtain ⟨b0, b1, b2, b3, e1, e2⟩ := header_small bitStringCode.length (by omega)
  have hfile : createBinaryFile bitStringCode past =
      b0 :: b1 :: b2 :: b3 :: ('\n').toNat :: packedBytes bitStringCode past := by
    simp only [createBinaryFile, e1, List.cons_append, List.nil_append]
  have hnb : numBytesOf (bitStringCode.length : Int) =
      ((byteCount bitStringCode.length : Nat) : Int) := numBytesOf_natCast _
  have hnot : ¬ (((byteCount bitStringCode.length : Nat) : Int) < 0) := by omega
  simp only [decodeFiles, hfile, List.getD_cons_zero, List.getD_cons_succ, e2, hnb, hnot,
    if_false, List.drop_succ_cons, List.drop_zero, Int.toNat_ofNat]
  rw [unpack_split _ _ hbin hlen]
  rfl

theorem getBitStringCode_eq (input : List Char) (map : CodeMap) :
    (getBitStringCode (some input) map).1 = input.flatMap (codeOf map) := by
  simp only [getBitStringCode]
  rw [getBitStringCode_fold]
  simp

theorem iteration_perm {β : Type} (rank : Char → Nat) (map : List (Char × β)) :
    (iteration rank map).Perm map :=
  List.perm_insertionSort _ map

theorem iteration_pair {β : Type} (rank : Char → Nat) (x y : Char × β) :
    iteration rank [x, y] = [x, y] ∨ iteration rank [x, y] = [y, x] := by
  by_cases h : rank x.1 ≤ rank y.1 <;>
    simp [iteration, List.insertionSort, List.orderedInsert, h]

theorem iteration_triple {β : Type} (rank : Char → Nat) (x y z : Char × β) :
    iteration rank [x, y, z] ∈
      [[x, y, z], [x, z, y], [y, x, z], [y, z, x], [z, x, y], [z, y, x]] := by
  by_cases h1 : rank x.1 ≤ rank y.1 <;> by_cases h2 : rank y.1 ≤ rank z.1 <;>
    by_cases h3 : rank x.1 ≤ rank z.1 <;>
    simp [iteration, List.insertionSort, List.orderedInsert, h1, h2, h3]

/-- Every order of a map with distinct keys is the iteration order for some rank. -/
theorem iteration_complete {β : Type} (map map1 : List (Char × β))
    (hk : (map.map Prod.fst).Nodup) (hp : map1.Perm map) :
    ∃ rank : Char → Nat, iteration rank map = map1 := by
  have hk1 : (map1.map Prod.fst).Nodup := (hp.map Prod.fst).nodup_iff.mpr hk
  refine ⟨fun c => (map1.map Prod.fst).indexOf c, ?_⟩
  refine @List.Perm.eq_of_sorted (Char × β) (fun p q : Char × β =>
    (map1.map Prod.fst).indexOf p.1 ≤ (map1.map Prod.fst).indexOf q.1) _ _ ?_ ?_ ?_ ?_
  · intro a b ha hb hab hba
    have ha1 : a ∈ map1 := hp.mem_iff.mpr ((iteration_perm _ map).mem_iff.mp ha)
    have hidx : (map1.map Prod.fst).indexOf a.1 = (map1.map Prod.fst).indexOf b.1 :=
      Nat.le_antisymm hab hba
    have hfst : a.1 = b.1 :=
      (List.indexOf_inj (List.mem_map_of_mem _ ha1) (List.mem_map_of_mem _ hb)).mp hidx
    exact (List.inj_on_of_nodup_map hk1) ha1 hb hfst
  · haveI : IsTotal (Char × β) (fun p q : Char × β =>
        (map1.map Prod.fst).indexOf p.1 ≤ (map1.map Prod.fst).indexOf q.1) :=
      ⟨fun _ _ => Nat.le_total _ _⟩
    haveI : IsTrans (Char × β) (fun p q : Char × β =>
        (map1.map Prod.fst).indexOf p.1 ≤ (map1.map Prod.fst).indexOf q.1) :=
      ⟨fun _ _ _ h1 h2 => Nat.le_trans h1 h2⟩
    exact List.sorted_insertionSort _ map
  · have hnd : map1.Nodup := List.Nodup.of_map _ hk1
    rw [List.pairwise_iff_getElem]
    intro i j hi hj hij
    have hi1 : i < (map1.map Prod.fst).length := by simpa using hi
    have hj1 : j < (map1.map Prod.fst).length := by simpa using hj
    have e1 : (map1.map Prod.fst).indexOf map1[i].1 = i := by
      have := List.indexOf_getElem hk1 i hi1
      simpa using this
    have e2 : (map1.map Prod.fst).indexOf map1[j].1 = j := by
      have := List.indexOf_getElem hk1 j hj1
      simpa using this
    show (map1.map Prod.fst).indexOf map1[i].1 ≤ (map1.map Prod.fst).indexOf map1[j].1
    rw [e1, e2]
    exact Nat.le_of_lt hij
  · exact (iteration_perm _ map).trans hp.symm

theorem codeOf_perm (t1 t2 : CodeMap) (hp : t1.Perm t2) (hk : (t2.map Prod.fst).Nodup)
    (c : Char) : codeOf t1 c = codeOf t2 c := by
  have hk1 : (t1.map Prod.fst).Nodup := (hp.map Prod.fst).nodup_iff.mpr hk
  by_cases hc : c ∈ t2.map Prod.fst
  · have h2 := mem_table_codeOf t2 hk c hc
    have h1 := mem_table_codeOf t1 hk1 c ((hp.map Prod.fst).mem_iff.mpr hc)
    have h3 : (c, codeOf t1 c) ∈ t2 := hp.mem_iff.mp h1
    have := (List.inj_on_of_nodup_map hk) h3 h2 rfl
    exact (Prod.mk.inj this).2
  · have hc1 : c ∉ t1.map Prod.fst := fun h => hc ((hp.map Prod.fst).mem_iff.mp h)
    simp only [codeOf, lookup_eq_none_of_not_mem c t1 hc1, lookup_eq_none_of_not_mem c t2 hc]

theorem prefixFree_perm (t1 t2 : CodeMap) (hp : t1.Perm t2) (h : PrefixFree t2) :
    PrefixFree t1 :=
  ⟨fun p hp1 q hq1 hpre => h.1 p (hp.mem_iff.mp hp1) q (hp.mem_iff.mp hq1) hpre,
    fun p hp1 => h.2 p (hp.mem_iff.mp hp1)⟩

theorem compress_spec (input : List Char) (past : Nat → Char) (mapRank codeRank : Char → Nat)
    (h2 : 2 ≤ input.toFinset.card) :
    ∃ root codeTable,
      buildHuffmanTree
          (createPriorityQueue [] (iteration mapRank (createMap [] (some input)))) =
        Except.ok (root, [root]) ∧
      buildCodeTable root [] [] = Except.ok codeTable ∧
      PrefixFree codeTable ∧ (codeTable.map Prod.fst).Nodup ∧
      (∀ p ∈ codeTable, ∀ c ∈ p.2, c = '0' ∨ c = '1') ∧
      (∀ c ∈ input, (c, codeOf codeTable c) ∈ codeTable) ∧
      (createBinaryFileFault (input.flatMap (codeOf codeTable)) past = none →
        compress (some input) past mapRank codeRank =
          Except.ok { hdr := createCodeTableFile (iteration codeRank codeTable),
                      txt := createCompressedInputFile (input.flatMap (codeOf codeTable)),
                      bin := createBinaryFile (input.flatMap (codeOf codeTable)) past }) := by
  have hsize := createMap_size input
  have hperm := iteration_perm mapRank (createMap [] (some input))
  have hne : iteration mapRank (createMap [] (some input)) ≠ [] := by
    intro e
    have := hperm.length_eq
    rw [e] at this
    simp only [List.length_nil] at this
    rw [← this] at hsize
    omega
  have hnd0 := createMap_nodup input [] (by simp)
  have hnd : ((iteration mapRank (createMap [] (some input))).map Prod.fst).Nodup :=
    (hperm.map Prod.fst).nodup_iff.mpr hnd0
  obtain ⟨root, h1, hbuilt, hleaves, h4⟩ := codeTable_spec _ hne hnd
  have hlen2 : 2 ≤ (Link.leaves (Link.ofNode root)).length := by
    have := hleaves.length_eq
    have := hperm.length_eq
    simp only [HuffmanNode.leaves] at *
    omega
  have hkeys : ((Link.paths (Link.ofNode root) []).map Prod.fst).Perm
      ((createMap [] (some input)).map Prod.fst) := by
    rw [paths_keys]
    exact (hleaves.trans hperm).map Prod.fst
  have hknd : ((Link.paths (Link.ofNode root) []).map Prod.fst).Nodup :=
    hkeys.nodup_iff.mpr hnd0
  refine ⟨root, Link.paths (Link.ofNode root) [], h1, h4, paths_prefixFree _ hlen2, hknd,
    fun p hp => paths_binary _ [] p hp (by simp), ?_, ?_⟩
  · intro c hc
    apply mem_table_codeOf _ hknd
    apply hkeys.mem_iff.mpr
    exact (createMap_keys c input []).mpr (Or.inr hc)
  · intro hfault
    simp only [compress, h1, h4, getBitStringCode_eq, hfault]

theorem decodeLoop_nil (D : DecodeMap) (numBits : Int) (k : Nat) (line out : List Char) :
    decodeLoop D numBits k [] line out = out := by
  simp [decodeLoop]

theorem roundTrip_decode (input : List Char) (past : Nat → Char)
    (mapRank codeRank : Char → Nat) (h2 : 2 ≤ input.toFinset.card) :
    ∃ root codeTable,
      buildHuffmanTree
          (createPriorityQueue [] (iteration mapRank (createMap [] (some input)))) =
        Except.ok (root, [root]) ∧
      buildCodeTable root [] [] = Except.ok codeTable ∧
      ((input.flatMap (codeOf codeTable)).length + 8 ≤ 2 ^ 31 →
        ((input.flatMap (codeOf codeTable)).length % 8 = 0 ∨
            (∀ p ∈ codeTable, p.2 ≠ ['0']) →
          roundTrip input past mapRank codeRank = Except.ok (some input)) ∧
        (∀ s, (input.flatMap (codeOf codeTable)).length % 8 ≠ 0 →
          (s, ['0']) ∈ codeTable →
          roundTrip input past mapRank codeRank = Except.ok (some (input ++ [s])))) := by
  obtain ⟨root, table0, h1, h4, hpf0, hk0, hbin0, hin0, hc0⟩ :=
    compress_spec input past mapRank codeRank h2
  refine ⟨root, table0, h1, h4, ?_⟩
  intro hlen
  have hc := hc0 (createBinaryFileFault_none _ past hlen)
  -- the code table in the order in which `createCodeTableFile` writes it
  have hperm := iteration_perm codeRank table0
  have hcode : codeOf (iteration codeRank table0) = codeOf table0 :=
    funext (codeOf_perm _ _ hperm hk0)
  generalize iteration codeRank table0 = table at hc hperm hcode
  have hpf : PrefixFree table := prefixFree_perm _ _ hperm hpf0
  have hk : (table.map Prod.fst).Nodup := (hperm.map Prod.fst).nodup_iff.mpr hk0
  have hbin : ∀ p ∈ table, ∀ c ∈ p.2, c = '0' ∨ c = '1' :=
    fun p hp => hbin0 p (hperm.mem_iff.mp hp)
  have hin : ∀ c ∈ input, (c, codeOf table c) ∈ table := by
    intro c hcin
    rw [hcode]
    exact hperm.mem_iff.mpr (hin0 c hcin)
  rw [← hcode] at hc hlen ⊢
  have hD := readTable_decodesFor table hpf hk hbin
  have hbits := flatMap_binary table hbin input hin
  have hdec := decodeFiles_artifacts (createCodeTableFile table)
    (input.flatMap (codeOf table)) past hbits hlen
  have hstream := decodeLoop_stream (readTable (createCodeTableFile table)) table
    (input.flatMap (codeOf table)).length hD hpf input 0
    (paddingOf (input.flatMap (codeOf table)) past) [] hin (by omega)
  simp only [Nat.zero_add, List.nil_append] at hstream
  rw [hstream] at hdec
  have hround : ∀ out, decodeLoop (readTable (createCodeTableFile table))
      ((input.flatMap (codeOf table)).length : Int) (input.flatMap (codeOf table)).length
      (paddingOf (input.flatMap (codeOf table)) past) [] input = out →
      roundTrip input past mapRank codeRank = Except.ok (some out) := by
    intro out e
    rw [e] at hdec
    simp only [roundTrip, hc, decompress, hdec]
  refine ⟨?_, ?_⟩
  · intro hcase
    apply hround
    by_cases h8 : (input.flatMap (codeOf table)).length % 8 = 0
    · rw [paddingOf_aligned _ _ h8, decodeLoop_nil]
    · obtain ⟨tail, ht⟩ := paddingOf_unaligned _ past h8
      rw [ht, decodeLoop_last]
      have hno : ∀ p ∈ table, p.2 ≠ ['0'] := by
        rcases hcase with h | h
        · exact absurd h h8
        · exact fun p hp => h p (hperm.mem_iff.mp hp)
      rw [hD.2 ['0'] (by simp) hno]
  · intro s h8 hs
    apply hround
    obtain ⟨tail, ht⟩ := paddingOf_unaligned _ past h8
    rw [ht, decodeLoop_last, hD.1 (s, ['0']) (hperm.mem_iff.mpr hs)]

theorem createMap_ab_step (rest : List Char) :
    createMap [] (some ('a' :: 'b' :: rest)) = createMap [('a', 1), ('b', 1)] (some rest) :=
  rfl

theorem createMap_b_step (m : Nat) (rest : List Char) :
    createMap [('a', 1), ('b', m)] (some ('b' :: rest)) =
      createMap [('a', 1), ('b', (m + 1) % UINT_RANGE)] (some rest) :=
  rfl

theorem createMap_replicate_b : ∀ (k m : Nat), m + k < UINT_RANGE →
    createMap [('a', 1), ('b', m)] (some (List.replicate k 'b')) = [('a', 1), ('b', m + k)] := by
  intro k
  induction k with
  | zero => intro m _; rfl
  | succ j ih =>
    intro m h
    rw [List.replicate_succ, createMap_b_step, Nat.mod_eq_of_lt (by omega), ih (m + 1) (by omega)]
    have : m + 1 + j = m + (j + 1) := by omega
    rw [this]

theorem flatMap_replicate_b_length (k : Nat) :
    ((List.replicate k 'b').flatMap (codeOf [('a', ['0']), ('b', ['1'])])).length = k := by
  induction k with
  | zero => rfl
  | succ j ih =>
    rw [List.replicate_succ, List.flatMap_cons, List.length_append, ih]
    have : (codeOf [('a', ['0']), ('b', ['1'])] 'b').length = 1 := by decide
    omega

theorem createBinaryFile_pow31 (bitStringCode : List Char) (past : Nat → Char)
    (h : bitStringCode.length = 2147483648) :
    createBinaryFile bitStringCode past = [0, 0, 0, 128, 10] := by
  unfold createBinaryFile packedBytes
  rw [h, toInt32_pow31, packLoop_nonpos _ _ (by decide)]
  decide

theorem createBinaryFileFault_pow31 (bitStringCode : List Char) (past : Nat → Char)
    (h : bitStringCode.length = 2147483648) :
    createBinaryFileFault bitStringCode past = none := by
  unfold createBinaryFileFault
  rw [h, toInt32_pow31, packLoop_nonpos _ _ (by decide)]

theorem decodeFiles_pow31 (hdr : List Char) :
    decodeFiles hdr [0, 0, 0, 128, 10] = Except.error Fault.badArrayLength := by
  have h : numBytesOf (intOfBytes 0 0 0 128) < 0 := by decide
  simp only [decodeFiles, List.getD_cons_zero, List.getD_cons_succ, h, if_true]

theorem compress_of_table (input : List Char) (past : Nat → Char)
    (mapRank codeRank : Char → Nat) (map : FreqMap)
    (root : HuffmanNode) (q : Queue) (table : CodeMap)
    (hmap : iteration mapRank (createMap [] (some input)) = map)
    (hbuild : buildHuffmanTree (createPriorityQueue [] map) = Except.ok (root, q))
    (htable : buildCodeTable root [] [] = Except.ok table)
    (hfault : createBinaryFileFault (input.flatMap (codeOf table)) past = none) :
    compress (some input) past mapRank codeRank =
      Except.ok { hdr := createCodeTableFile (iteration codeRank table),
                  txt := createCompressedInputFile (input.flatMap (codeOf table)),
                  bin := createBinaryFile (input.flatMap (codeOf table)) past } := by
  simp only [compress, hmap, hbuild, htable, getBitStringCode_eq, hfault]

theorem compress_of_table_fault (input : List Char) (past : Nat → Char)
    (mapRank codeRank : Char → Nat) (map : FreqMap)
    (root : HuffmanNode) (q : Queue) (table : CodeMap) (e : Fault)
    (hmap : iteration mapRank (createMap [] (some input)) = map)
    (hbuild : buildHuffmanTree (createPriorityQueue [] map) = Except.ok (root, q))
    (htable : buildCodeTable root [] [] = Except.ok table)
    (hfault : createBinaryFileFault (input.flatMap (codeOf table)) past = some e) :
    compress (some input) past mapRank codeRank = Except.error e := by
  simp only [compress, hmap, hbuild, htable, getBitStringCode_eq, hfault]

theorem roundTrip_of_compress (input : List Char) (past : Nat → Char)
    (mapRank codeRank : Char → Nat) (files : Artifacts)
    (h : compress (some input) past mapRank codeRank = Except.ok files) :
    roundTrip input past mapRank codeRank = decompress (some files.hdr) (some files.bin) := by
  simp only [roundTrip, h]

theorem roundTrip_of_compress_error (input : List Char) (past : Nat → Char)
    (mapRank codeRank : Char → Nat) (e : Fault)
    (h : compress (some input) past mapRank codeRank = Except.error e) :
    roundTrip input past mapRank codeRank = Except.error e := by
  simp only [roundTrip, h]

theorem compress_aab (past : Nat → Char) (mapRank codeRank : Char → Nat) :
    ∃ files, compress (some ['a', 'a', 'b']) past mapRank codeRank = Except.ok files ∧
      (files.hdr = ['b', '\n', '0', '\n', 'a', '\n', '1', '\n'] ∨
        files.hdr = ['a', '\n', '1', '\n', 'b', '\n', '0', '\n']) ∧
      files.bin = [3, 0, 0, 0, 10, packByte (letterAt ['1', '1', '0'] past) 0] := by
  have htable : buildCodeTable (mergeNode (HuffmanNode.new 'b' 1) (HuffmanNode.new 'a' 2))
      [] [] = Except.ok [('b', ['0']), ('a', ['1'])] := rfl
  have hfault : createBinaryFileFault
      (['a', 'a', 'b'].flatMap (codeOf [('b', ['0']), ('a', ['1'])])) past = none :=
    createBinaryFileFault_none _ _ (by decide)
  have hc : compress (some ['a', 'a', 'b']) past mapRank codeRank =
      Except.ok { hdr := createCodeTableFile (iteration codeRank [('b', ['0']), ('a', ['1'])]),
                  txt := createCompressedInputFile
                    (['a', 'a', 'b'].flatMap (codeOf [('b', ['0']), ('a', ['1'])])),
                  bin := createBinaryFile
                    (['a', 'a', 'b'].flatMap (codeOf [('b', ['0']), ('a', ['1'])])) past } := by
    rcases iteration_pair mapRank ('a', 2) ('b', 1) with h | h
    · exact compress_of_table _ past mapRank codeRank _ _ _ _ h rfl htable hfault
    · exact compress_of_table _ past mapRank codeRank _ _ _ _ h rfl htable hfault
  refine ⟨_, hc, ?_, rfl⟩
  rcases iteration_pair codeRank ('b', ['0']) ('a', ['1']) with h | h
  · left; simp only [h]; rfl
  · right; simp only [h]; rfl

theorem decompress_pow31 (hdr : List Char) :
    decompress (some hdr) (some [0, 0, 0, 128, 10]) = Except.error Fault.badArrayLength := by
  simp only [decompress, decodeFiles_pow31]

theorem createMap_pow31 :
    createMap [] (some ('a' :: List.replicate 2147483647 'b')) =
      [('a', 1), ('b', 2147483647)] := by
  have e : (2147483647 : Nat) = 2147483646 + 1 := rfl
  rw [e, List.replicate_succ, createMap_ab_step, createMap_replicate_b 2147483646 1 (by decide)]

theorem createMap_below_pow31 :
    createMap [] (some ('a' :: List.replicate 2147483646 'b')) =
      [('a', 1), ('b', 2147483646)] := by
  have e : (2147483646 : Nat) = 2147483645 + 1 := rfl
  rw [e, List.replicate_succ, createMap_ab_step, createMap_replicate_b 2147483645 1 (by decide)]

theorem flatMap_below_pow31 :
    (('a' :: List.replicate 2147483646 'b').flatMap
      (codeOf [('a', ['0']), ('b', ['1'])])).length = 2147483647 := by
  rw [List.flatMap_cons, List.length_append, flatMap_replicate_b_length]
  rfl

theorem flatMap_pow31 :
    (('a' :: List.replicate 2147483647 'b').flatMap
      (codeOf [('a', ['0']), ('b', ['1'])])).length = 2147483648 := by
  rw [List.flatMap_cons, List.length_append, flatMap_replicate_b_length]
  rfl

/-! ## Optimality of the code lengths -/

theorem kraftSum_cons (l : Nat) (ls : List Nat) :
    kraftSum (l :: ls) = (1 / 2 : ℚ) ^ l + kraftSum ls := by
  simp [kraftSum]

theorem weightedLength_cons (p : Nat × Nat) (ps : List (Nat × Nat)) :
    weightedLength (p :: ps) = p.1 * p.2 + weightedLength ps := by
  simp [weightedLength]

theorem kraftSum_perm {l1 l2 : List Nat} (h : l1.Perm l2) : kraftSum l1 = kraftSum l2 :=
  (h.map _).sum_eq

theorem weightedLength_perm {l1 l2 : List (Nat × Nat)} (h : l1.Perm l2) :
    weightedLength l1 = weightedLength l2 :=
  (h.map _).sum_eq

theorem kraftSum_nonneg (ls : List Nat) : 0 ≤ kraftSum ls := by
  induction ls with
  | nil => simp [kraftSum]
  | cons l t ih => rw [kraftSum_cons]; positivity

/-- A Kraft sum of lengths bounded by `m` is a multiple of `2 ^ (-m)`. -/
theorem kraftSum_scaled (m : Nat) : ∀ (ls : List Nat), (∀ l ∈ ls, l ≤ m) →
    ∃ N : Nat, kraftSum ls = (N : ℚ) / 2 ^ m := by
  intro ls
  induction ls with
  | nil => intro _; exact ⟨0, by simp [kraftSum]⟩
  | cons l t ih =>
    intro h
    obtain ⟨N, hN⟩ := ih (fun x hx => h x (List.mem_cons_of_mem _ hx))
    have hl : l ≤ m := h l (List.mem_cons_self _ _)
    refine ⟨2 ^ (m - l) + N, ?_⟩
    rw [kraftSum_cons, hN]
    have h2 : (2 : ℚ) ^ m = 2 ^ (m - l) * 2 ^ l := by
      rw [← pow_add]; congr 1; omega
    have hpos : (0 : ℚ) < 2 ^ l := by positivity
    have hpos2 : (0 : ℚ) < 2 ^ (m - l) := by positivity
    push_cast
    rw [h2]
    field_simp

/-- When the two longest codes are merged into one code that is one shorter than the second
longest, the Kraft sum stays at most 1. -/
theorem kraftSum_merge (la lb : Nat) (ls : List Nat) (hl : ∀ l ∈ ls, l ≤ lb)
    (hk : kraftSum (la :: lb :: ls) ≤ 1) : 1 ≤ lb ∧ kraftSum ((lb - 1) :: ls) ≤ 1 := by
  obtain ⟨N, hN⟩ := kraftSum_scaled lb ls hl
  rw [kraftSum_cons, kraftSum_cons, hN] at hk
  have hpa : (0 : ℚ) < (1 / 2) ^ la := by positivity
  have hpos : (0 : ℚ) < 2 ^ lb := by positivity
  have h1 : (1 / 2 : ℚ) ^ lb = 1 / 2 ^ lb := by rw [one_div, one_div, inv_pow]
  have h2 : (1 : ℚ) / 2 ^ lb + (N : ℚ) / 2 ^ lb < 1 := by rw [h1] at hk; linarith
  have h3 : ((1 + N : Nat) : ℚ) < ((2 ^ lb : Nat) : ℚ) := by
    push_cast
    rw [← add_div, div_lt_one hpos] at h2
    exact h2
  have h4 : 1 + N < 2 ^ lb := by exact_mod_cast h3
  have hlb : 1 ≤ lb := by
    rcases Nat.eq_zero_or_pos lb with h0 | h0
    · rw [h0] at h4; simp at h4
    · exact h0
  refine ⟨hlb, ?_⟩
  rw [kraftSum_cons, hN]
  have h5 : (1 / 2 : ℚ) ^ (lb - 1) = 2 / 2 ^ lb := by
    obtain ⟨k, rfl⟩ : ∃ k, lb = k + 1 := ⟨lb - 1, by omega⟩
    rw [Nat.add_sub_cancel, one_div, inv_pow, pow_succ]
    field_simp
  rw [h5, ← add_div, div_le_one hpos]
  have h6 : ((2 + N : Nat) : ℚ) ≤ ((2 ^ lb : Nat) : ℚ) := by
    exact_mod_cast (by omega : 2 + N ≤ 2 ^ lb)
  push_cast at h6
  exact h6

/-- Exchange step: the lightest symbol can be given the longest code without making the
encoding longer. -/
theorem exists_max_length (a : Nat) :
    ∀ (others : List (Nat × Nat)) (la : Nat), (∀ p ∈ others, a ≤ p.1) →
      ∃ la1 others1, others1.map Prod.fst = others.map Prod.fst ∧
        (∀ p ∈ others1, p.2 ≤ la1) ∧
        (la1 :: others1.map Prod.snd).Perm (la :: others.map Prod.snd) ∧
        weightedLength ((a, la1) :: others1) ≤ weightedLength ((a, la) :: others) := by
  intro others
  induction others with
  | nil => intro la _; exact ⟨la, [], rfl, by simp, List.Perm.refl _, le_refl _⟩
  | cons c t ih =>
    intro la h
    obtain ⟨la1, t1, hw, hmax, hperm, hcost⟩ :=
      ih la (fun p hp => h p (List.mem_cons_of_mem _ hp))
    have hac : a ≤ c.1 := h c (List.mem_cons_self _ _)
    obtain ⟨c1, c2⟩ := c
    simp only [weightedLength_cons] at hcost ⊢
    simp only at hac
    by_cases hc : c2 ≤ la1
    · refine ⟨la1, (c1, c2) :: t1, ?_, ?_, ?_, ?_⟩
      · simp [hw]
      · intro p hp
        rcases List.mem_cons.1 hp with rfl | hp
        · exact hc
        · exact hmax p hp
      · exact (List.Perm.swap _ _ _).trans
          ((List.Perm.cons _ hperm).trans (List.Perm.swap _ _ _))
      · simp only [weightedLength_cons]; omega
    · have hlt : la1 < c2 := Nat.lt_of_not_le hc
      refine ⟨c2, (c1, la1) :: t1, ?_, ?_, ?_, ?_⟩
      · simp [hw]
      · intro p hp
        rcases List.mem_cons.1 hp with rfl | hp
        · exact le_of_lt hlt
        · exact le_trans (hmax p hp) (le_of_lt hlt)
      · exact (List.Perm.cons _ hperm).trans (List.Perm.swap _ _ _)
      · simp only [weightedLength_cons]
        obtain ⟨d, rfl⟩ := Nat.exists_eq_add_of_le hac
        obtain ⟨e, rfl⟩ := Nat.exists_eq_add_of_le (le_of_lt hlt)
        nlinarith [Nat.zero_le (d * e)]

theorem perm_map_cons (x : Nat) (xs : List Nat) (ps : List (Nat × Nat))
    (h : (ps.map Prod.fst).Perm (x :: xs)) :
    ∃ l ps0, ps.Perm ((x, l) :: ps0) ∧ (ps0.map Prod.fst).Perm xs := by
  have hx : x ∈ ps.map Prod.fst := h.symm.subset (List.mem_cons_self _ _)
  obtain ⟨p, hp, hfp⟩ := List.mem_map.1 hx
  obtain ⟨p1, p2⟩ := p
  simp only at hfp
  subst hfp
  obtain ⟨ps0, h1⟩ : ∃ ps0, ps.Perm ((p1, p2) :: ps0) := ⟨_, List.perm_cons_erase hp⟩
  refine ⟨p2, ps0, h1, ?_⟩
  have h2 : (p1 :: ps0.map Prod.fst).Perm (p1 :: xs) :=
    (h1.map Prod.fst).symm.trans h
  exact h2.cons_inv

/-- Reduction step of the optimality argument: from any assignment of code lengths that
satisfies the Kraft inequality, the two lightest symbols can be merged into one symbol that
carries both counts, at a saving of at least the two counts. -/
theorem exists_merged_lengths (a b : Nat) (rest : List Nat) (ps : List (Nat × Nat))
    (hw : (ps.map Prod.fst).Perm (a :: b :: rest))
    (ha : ∀ x ∈ b :: rest, a ≤ x) (hb : ∀ x ∈ rest, b ≤ x)
    (hk : kraftSum (ps.map Prod.snd) ≤ 1) :
    ∃ ps1 : List (Nat × Nat), (ps1.map Prod.fst).Perm ((a + b) :: rest) ∧
      kraftSum (ps1.map Prod.snd) ≤ 1 ∧ weightedLength ps1 + (a + b) ≤ weightedLength ps := by
  obtain ⟨la, ps0, hp0, hw0⟩ := perm_map_cons a (b :: rest) ps hw
  obtain ⟨lb, ps00, hp00, hw00⟩ := perm_map_cons b rest ps0 hw0
  have hps : ps.Perm ((a, la) :: (b, lb) :: ps00) := hp0.trans (List.Perm.cons _ hp00)
  -- the lightest symbol gets the longest code
  obtain ⟨la1, others1, hf1, hmax1, hperm1, hcost1⟩ :=
    exists_max_length a ((b, lb) :: ps00) la (by
      intro p hp
      apply ha
      have : p.1 ∈ ((b, lb) :: ps00).map Prod.fst := List.mem_map_of_mem _ hp
      rw [List.map_cons] at this
      exact ((List.Perm.cons b hw00).subset this))
  match others1, hf1, hmax1, hperm1, hcost1 with
  | [], hf1, _, _, _ => simp at hf1
  | (b1, lb1) :: t1, hf1, hmax1, hperm1, hcost1 =>
    simp only [List.map_cons, List.cons.injEq] at hf1
    obtain ⟨hb1, hft1⟩ := hf1
    subst hb1
    -- the second lightest symbol gets the longest of the other codes
    obtain ⟨lb2, t2, hf2, hmax2, hperm2, hcost2⟩ :=
      exists_max_length b1 t1 lb1 (by
        intro p hp
        apply hb
        have : p.1 ∈ t1.map Prod.fst := List.mem_map_of_mem _ hp
        rw [hft1] at this
        exact hw00.subset this)
    have hle : lb2 ≤ la1 := by
      have hm : lb2 ∈ lb1 :: t1.map Prod.snd := hperm2.subset (List.mem_cons_self _ _)
      rcases List.mem_cons.1 hm with h | h
      · rw [h]; exact hmax1 (b1, lb1) (List.mem_cons_self _ _)
      · obtain ⟨p, hp, hpe⟩ := List.mem_map.1 h
        rw [← hpe]; exact hmax1 p (List.mem_cons_of_mem _ hp)
    have hk2 : kraftSum (la1 :: lb2 :: t2.map Prod.snd) ≤ 1 := by
      have h1 : (la1 :: lb2 :: t2.map Prod.snd).Perm (ps.map Prod.snd) :=
        ((List.Perm.cons la1 hperm2).trans hperm1).trans (hps.map Prod.snd).symm
      rw [kraftSum_perm h1]; exact hk
    obtain ⟨hpos, hk3⟩ := kraftSum_merge la1 lb2 (t2.map Prod.snd)
      (by
        intro l hl
        obtain ⟨p, hp, hpe⟩ := List.mem_map.1 hl
        rw [← hpe]; exact hmax2 p hp) hk2
    refine ⟨(a + b1, lb2 - 1) :: t2, ?_, hk3, ?_⟩
    · rw [List.map_cons, hf2, hft1]
      exact List.Perm.cons _ hw00
    · rw [weightedLength_perm hps]
      simp only [weightedLength_cons] at hcost1 hcost2 ⊢
      obtain ⟨k, rfl⟩ : ∃ k, lb2 = k + 1 := ⟨lb2 - 1, by omega⟩
      have h1 : a * (k + 1) ≤ a * la1 := Nat.mul_le_mul_left a hle
      have h2 : (a + b1) * (k + 1 - 1) + (a + b1) = a * (k + 1) + b1 * (k + 1) := by
        rw [Nat.add_sub_cancel]; ring
      omega

theorem stripBit_some (b : Char) (c t : List Char) (h : stripBit b c = some t) : c = b :: t := by
  cases c with
  | nil => simp [stripBit] at h
  | cons x xs =>
    simp only [stripBit] at h
    split at h
    · rename_i hx
      simp only [Option.some.injEq] at h
      rw [hx, h]
    · simp at h

/-- The Kraft sum of non-empty binary codes is half the sum of the Kraft sums of the rests of
the codes that start with `'0'` and of the rests of the codes that start with `'1'`. -/
theorem kraftSum_split : ∀ (codes : List (List Char)), (∀ c ∈ codes, c ≠ []) →
    (∀ c ∈ codes, ∀ x ∈ c, x = '0' ∨ x = '1') →
    kraftSum (codes.map List.length) =
      (kraftSum ((codes.filterMap (stripBit '0')).map List.length) +
        kraftSum ((codes.filterMap (stripBit '1')).map List.length)) / 2 := by
  intro codes
  induction codes with
  | nil => intro _ _; simp [kraftSum]
  | cons c cs ih =>
    intro hne hbin
    have ih1 := ih (fun d hd => hne d (List.mem_cons_of_mem _ hd))
      (fun d hd => hbin d (List.mem_cons_of_mem _ hd))
    cases c with
    | nil => exact absurd rfl (hne [] (List.mem_cons_self _ _))
    | cons x t =>
      have hx : x = '0' ∨ x = '1' :=
        hbin (x :: t) (List.mem_cons_self _ _) x (List.mem_cons_self _ _)
      rw [List.map_cons, kraftSum_cons, ih1, List.length_cons, pow_succ]
      rcases hx with rfl | rfl
      · have h0 : stripBit '0' ('0' :: t) = some t := by simp [stripBit]
        have h1 : stripBit '1' ('0' :: t) = none := by simp [stripBit]
        rw [List.filterMap_cons_some h0, List.filterMap_cons_none h1, List.map_cons,
          kraftSum_cons]
        ring
      · have h0 : stripBit '0' ('1' :: t) = none := by simp [stripBit]
        have h1 : stripBit '1' ('1' :: t) = some t := by simp [stripBit]
        rw [List.filterMap_cons_some h1, List.filterMap_cons_none h0, List.map_cons,
          kraftSum_cons]
        ring

theorem pairwise_stripBit (b : Char) (codes : List (List Char))
    (hp : codes.Pairwise (fun c d => ¬ c <+: d ∧ ¬ d <+: c)) :
    (codes.filterMap (stripBit b)).Pairwise (fun c d => ¬ c <+: d ∧ ¬ d <+: c) := by
  refine List.Pairwise.filterMap (stripBit b) ?_ hp
  intro c d hcd t ht u hu
  have hc := stripBit_some b c t (Option.mem_def.1 ht)
  have hd := stripBit_some b d u (Option.mem_def.1 hu)
  subst hc hd
  constructor
  · intro h; exact hcd.1 ((List.prefix_cons_inj b).2 h)
  · intro h; exact hcd.2 ((List.prefix_cons_inj b).2 h)

/-- Kraft inequality: the lengths of binary codes none of which is an initial segment of
another have a Kraft sum of at most 1. -/
theorem kraft_inequality : ∀ (n : Nat) (codes : List (List Char)),
    (∀ c ∈ codes, c.length ≤ n) →
    codes.Pairwise (fun c d => ¬ c <+: d ∧ ¬ d <+: c) →
    (∀ c ∈ codes, ∀ x ∈ c, x = '0' ∨ x = '1') →
    kraftSum (codes.map List.length) ≤ 1 := by
  intro n
  induction n with
  | zero =>
    intro codes hlen hp _
    match codes, hlen, hp with
    | [], _, _ => simp [kraftSum]
    | [c], hlen, _ =>
      have : c.length = 0 := Nat.le_zero.1 (hlen c (List.mem_cons_self _ _))
      simp [kraftSum, this]
    | c :: d :: t, hlen, hp =>
      exfalso
      have hc : c = [] :=
        List.length_eq_zero.1 (Nat.le_zero.1 (hlen c (List.mem_cons_self _ _)))
      have hcd := (List.pairwise_cons.1 hp).1 d (List.mem_cons_self _ _)
      rw [hc] at hcd
      exact hcd.1 (List.nil_prefix)
  | succ n ih =>
    intro codes hlen hp hbin
    by_cases hnil : [] ∈ codes
    · -- the empty code is an initial segment of every code, so it stands alone
      match codes, hp, hnil with
      | [c], _, hnil =>
        have hc : c = [] := (List.mem_singleton.1 hnil).symm
        simp [kraftSum, hc]
      | c :: d :: t, hp, hnil =>
        exfalso
        have h1 := List.pairwise_cons.1 hp
        rcases List.mem_cons.1 hnil with h | h
        · have hcd := h1.1 d (List.mem_cons_self _ _)
          rw [← h] at hcd
          exact hcd.1 (List.nil_prefix)
        · have hcd := h1.1 [] h
          exact hcd.2 (List.nil_prefix)
    · have hne : ∀ c ∈ codes, c ≠ [] := fun c hc h => hnil (h ▸ hc)
      rw [kraftSum_split codes hne hbin]
      have hside : ∀ b : Char,
          kraftSum ((codes.filterMap (stripBit b)).map List.length) ≤ 1 := by
        intro b
        apply ih
        · intro t ht
          obtain ⟨c, hc, hct⟩ := List.mem_filterMap.1 ht
          have := stripBit_some b c t hct
          have hl := hlen c hc
          rw [this, List.length_cons] at hl
          omega
        · exact pairwise_stripBit b codes hp
        · intro t ht x hx
          obtain ⟨c, hc, hct⟩ := List.mem_filterMap.1 ht
          have := stripBit_some b c t hct
          exact hbin c hc x (this ▸ List.mem_cons_of_mem _ hx)
      have h0 := hside '0'
      have h1 := hside '1'
      linarith

theorem weightedDepth_succ : ∀ (t : Link) (d : Nat),
    Link.weightedDepth t (d + 1) = Link.weightedDepth t d + ((Link.leaves t).map Prod.snd).sum := by
  intro t
  induction t with
  | null => intro d; rfl
  | ptr letter f l r ihl ihr =>
    intro d
    cases l with
    | null => simp [Link.weightedDepth, Link.leaves, Nat.mul_succ]
    | ptr a b c d1 =>
      simp only [Link.weightedDepth, Link.leaves, List.map_append, List.sum_append]
      rw [ihl (d + 1), ihr (d + 1)]
      omega

theorem weightedDepth_mergeNode (l r : HuffmanNode) :
    Link.weightedDepth (Link.ofNode (mergeNode l r)) 0 =
      Link.weightedDepth (Link.ofNode l) 0 + Link.weightedDepth (Link.ofNode r) 0 +
        ((l.leaves.map Prod.snd).sum + (r.leaves.map Prod.snd).sum) := by
  have h : Link.weightedDepth (Link.ofNode (mergeNode l r)) 0 =
      Link.weightedDepth (Link.ofNode l) (0 + 1) + Link.weightedDepth (Link.ofNode r) (0 + 1) := by
    simp [mergeNode, Link.ofNode, Link.weightedDepth]
  rw [h, weightedDepth_succ, weightedDepth_succ]
  simp only [HuffmanNode.leaves]
  omega

/-- One iteration of `buildHuffmanTree` on a heap-ordered queue whose frequencies are exact
and sum to less than `2 ^ 32`: the two extracted nodes carry the two smallest frequencies, the
pushed node carries their sum, and the state is kept. -/
theorem buildStep_exact (q : Queue) (hlen : 2 ≤ q.length) (hh : IsHeap q)
    (hex : ∀ x ∈ q, x.frequency = (x.leaves.map Prod.snd).sum)
    (hsum : (q.map HuffmanNode.frequency).sum < UINT_RANGE) :
    ∃ left right rest, (left :: right :: rest).Perm q ∧
      (buildStep q).Perm (mergeNode left right :: rest) ∧
      (∀ y ∈ right :: rest, left.frequency ≤ y.frequency) ∧
      (∀ y ∈ rest, right.frequency ≤ y.frequency) ∧
      (mergeNode left right).frequency = left.frequency + right.frequency ∧
      IsHeap (buildStep q) ∧
      (∀ x ∈ buildStep q, x.frequency = (x.leaves.map Prod.snd).sum) ∧
      ((buildStep q).map HuffmanNode.frequency).sum < UINT_RANGE := by
  obtain ⟨left, right, hl, hr, hminl, hminr, _, hstep, hheap⟩ := buildStep_minima q hh hlen
  have hp1 : (left :: pop q).Perm q := pop_perm q left hl
  have hp2 : (right :: pop (pop q)).Perm (pop q) := pop_perm (pop q) right hr
  have hp : (left :: right :: pop (pop q)).Perm q := (List.Perm.cons left hp2).trans hp1
  have hs : (buildStep q).Perm (mergeNode left right :: pop (pop q)) := by
    rw [hstep]; exact push_perm _ _
  have hsumq : (q.map HuffmanNode.frequency).sum =
      left.frequency + (right.frequency + ((pop (pop q)).map HuffmanNode.frequency).sum) := by
    rw [← (hp.map HuffmanNode.frequency).sum_eq]
    simp
  have hfreq : (mergeNode left right).frequency = left.frequency + right.frequency := by
    simp only [mergeNode]
    apply Nat.mod_eq_of_lt
    omega
  refine ⟨left, right, pop (pop q), hp, hs, ?_, ?_, hfreq, hheap, ?_, ?_⟩
  · intro y hy
    exact hminl y (hp1.subset (List.mem_cons_of_mem _ (hp2.subset hy)))
  · intro y hy
    exact hminr y (hp2.subset (List.mem_cons_of_mem _ hy))
  · intro x hx
    rcases List.mem_cons.1 (hs.subset hx) with h | h
    · rw [h, hfreq, mergeNode_leaves, List.map_append, List.sum_append,
        hex left (hp.subset (List.mem_cons_self _ _)),
        hex right (hp.subset (List.mem_cons_of_mem _ (List.mem_cons_self _ _)))]
    · exact hex x (hp.subset (List.mem_cons_of_mem _ (List.mem_cons_of_mem _ h)))
  · rw [(hs.map HuffmanNode.frequency).sum_eq, List.map_cons, List.sum_cons, hfreq]
    omega

/-- The loop of `buildHuffmanTree` ends with one tree, and the weighted depth that the loop
adds to the trees of the queue is at most the total length of any assignment of code lengths
to the frequencies of the queue that satisfies the Kraft inequality. -/
theorem buildLoop_optimal : ∀ (fuel : Nat) (q : Queue), 1 ≤ q.length → q.length ≤ fuel + 1 →
    IsHeap q → (∀ x ∈ q, x.frequency = (x.leaves.map Prod.snd).sum) →
    (q.map HuffmanNode.frequency).sum < UINT_RANGE →
    ∃ root, buildLoop fuel q = [root] ∧
      ∀ ps : List (Nat × Nat), (ps.map Prod.fst).Perm (q.map HuffmanNode.frequency) →
        kraftSum (ps.map Prod.snd) ≤ 1 →
        Link.weightedDepth (Link.ofNode root) 0 ≤
          (q.map (fun x => Link.weightedDepth (Link.ofNode x) 0)).sum + weightedLength ps := by
  intro fuel
  induction fuel with
  | zero =>
    intro q h1 h2 _ _ _
    obtain ⟨root, rfl⟩ := List.length_eq_one.mp (by omega : q.length = 1)
    exact ⟨root, rfl, fun ps _ _ => by simp⟩
  | succ n ih =>
    intro q h1 h2 hh hex hsum
    simp only [buildLoop]
    split
    · rename_i hlt
      obtain ⟨left, right, rest, hp, hs, hminl, hminr, hfreq, hheap, hex1, hsum1⟩ :=
        buildStep_exact q hlt hh hex hsum
      have hlen : (buildStep q).length + 1 = q.length := by
        have e1 := hs.length_eq
        have e2 := hp.length_eq
        simp at e1 e2
        omega
      obtain ⟨root, hroot, hopt⟩ := ih (buildStep q) (by omega) (by omega) hheap hex1 hsum1
      refine ⟨root, hroot, ?_⟩
      intro ps hw hk
      have hw1 : (ps.map Prod.fst).Perm
          (left.frequency :: right.frequency :: rest.map HuffmanNode.frequency) :=
        hw.trans (hp.map HuffmanNode.frequency).symm
      obtain ⟨ps1, hw2, hk2, hcost⟩ := exists_merged_lengths left.frequency right.frequency
        (rest.map HuffmanNode.frequency) ps hw1
        (by
          intro x hx
          rcases List.mem_cons.1 hx with h | h
          · rw [h]; exact hminl right (List.mem_cons_self _ _)
          · obtain ⟨y, hy, rfl⟩ := List.mem_map.1 h
            exact hminl y (List.mem_cons_of_mem _ hy))
        (by
          intro x hx
          obtain ⟨y, hy, rfl⟩ := List.mem_map.1 hx
          exact hminr y hy) hk
      have hw3 : (ps1.map Prod.fst).Perm ((buildStep q).map HuffmanNode.frequency) := by
        refine hw2.trans ?_
        rw [← hfreq]
        exact (hs.map HuffmanNode.frequency).symm
      have h3 := hopt ps1 hw3 hk2
      have e1 : ((buildStep q).map (fun x => Link.weightedDepth (Link.ofNode x) 0)).sum =
          Link.weightedDepth (Link.ofNode (mergeNode left right)) 0 +
            (rest.map (fun x => Link.weightedDepth (Link.ofNode x) 0)).sum := by
        rw [(hs.map _).sum_eq]; simp
      have e2 : (q.map (fun x => Link.weightedDepth (Link.ofNode x) 0)).sum =
          Link.weightedDepth (Link.ofNode left) 0 + (Link.weightedDepth (Link.ofNode right) 0 +
            (rest.map (fun x => Link.weightedDepth (Link.ofNode x) 0)).sum) := by
        rw [← (hp.map _).sum_eq]; simp
      have e3 := weightedDepth_mergeNode left right
      rw [← hex left (hp.subset (List.mem_cons_self _ _)),
        ← hex right (hp.subset (List.mem_cons_of_mem _ (List.mem_cons_self _ _)))] at e3
      omega
    · rename_i hlt
      obtain ⟨root, rfl⟩ := List.length_eq_one.mp (by omega : q.length = 1)
      exact ⟨root, rfl, fun ps _ _ => by simp⟩

theorem encodedLength_append (m1 m2 : FreqMap) (code : Char → List Char) :
    encodedLength (m1 ++ m2) code = encodedLength m1 code + encodedLength m2 code := by
  simp [encodedLength]

theorem encodedLength_congr (map : FreqMap) (code1 code2 : Char → List Char)
    (h : ∀ p ∈ map, code1 p.1 = code2 p.1) :
    encodedLength map code1 = encodedLength map code2 := by
  unfold encodedLength
  congr 1
  apply List.map_congr_left
  intro p hp
  rw [h p hp]

theorem encodedLength_perm {m1 m2 : FreqMap} (h : m1.Perm m2) (code : Char → List Char) :
    encodedLength m1 code = encodedLength m2 code :=
  (h.map _).sum_eq

theorem codeOf_append_left (t1 t2 : CodeMap) (c : Char) (h : c ∈ t1.map Prod.fst) :
    codeOf (t1 ++ t2) c = codeOf t1 c := by
  have h1 := (mem_keys_iff_lookup c t1).1 h
  simp only [codeOf, List.lookup_append]
  cases hl : List.lookup c t1 with
  | none => exact absurd hl h1
  | some v => rfl

theorem codeOf_append_right (t1 t2 : CodeMap) (c : Char) (h : c ∉ t1.map Prod.fst) :
    codeOf (t1 ++ t2) c = codeOf t2 c := by
  simp only [codeOf, List.lookup_append, lookup_eq_none_of_not_mem c t1 h, Option.none_or]

/-- The total encoded length under the codes read off a tree is the weighted depth of the
tree. -/
theorem encodedLength_paths : ∀ (t : Link) (path : List Char),
    ((Link.leaves t).map Prod.fst).Nodup →
    encodedLength (Link.leaves t) (codeOf (Link.paths t path)) =
      Link.weightedDepth t path.length := by
  intro t
  induction t with
  | null => intro path _; rfl
  | ptr letter f l r ihl ihr =>
    intro path hnd
    cases l with
    | null =>
      simp [Link.leaves, Link.paths, Link.weightedDepth, encodedLength, codeOf, List.lookup]
    | ptr a b c d =>
      simp only [Link.leaves, Link.paths, Link.weightedDepth] at hnd ⊢
      rw [List.map_append] at hnd
      have hl := (List.nodup_append.1 hnd).1
      have hr := (List.nodup_append.1 hnd).2.1
      have hdis := (List.nodup_append.1 hnd).2.2
      rw [encodedLength_append]
      rw [encodedLength_congr (Link.leaves (Link.ptr a b c d)) _
          (codeOf (Link.paths (Link.ptr a b c d) (path ++ ['0'])))
          (fun p hp => codeOf_append_left _ _ p.1
            (by rw [paths_keys]; exact List.mem_map_of_mem _ hp)),
        encodedLength_congr (Link.leaves r) _ (codeOf (Link.paths r (path ++ ['1'])))
          (fun p hp => codeOf_append_right _ _ p.1
            (by
              rw [paths_keys]
              intro hmem
              exact hdis hmem (List.mem_map_of_mem _ hp))),
        ihl (path ++ ['0']) hl, ihr (path ++ ['1']) hr]
      simp

theorem kraft_prefixFree (codes : List (List Char))
    (hp : codes.Pairwise (fun c d => ¬ c <+: d ∧ ¬ d <+: c))
    (hbin : ∀ c ∈ codes, ∀ x ∈ c, x = '0' ∨ x = '1') :
    kraftSum (codes.map List.length) ≤ 1 := by
  refine kraft_inequality (codes.map List.length).sum codes ?_ hp hbin
  intro c hc
  exact List.single_le_sum (fun _ _ => Nat.zero_le _) _ (List.mem_map_of_mem _ hc)

/-- Optimality of the tree of `buildHuffmanTree` for a table with distinct letters whose
counts sum to less than `2 ^ 32`: the codes read off the tree give a total encoded length that
no assignment of code lengths satisfying the Kraft inequality undercuts. -/
theorem buildHuffmanTree_optimal (map : FreqMap) (hne : map ≠ [])
    (hnd : (map.map Prod.fst).Nodup) (hb : totalCount map < UINT_RANGE) :
    ∃ root, buildHuffmanTree (createPriorityQueue [] map) = Except.ok (root, [root]) ∧
      root.leaves.Perm map ∧
      buildCodeTable root [] [] = Except.ok (Link.paths (Link.ofNode root) []) ∧
      ∀ ps : List (Nat × Nat), ps.map Prod.fst = map.map Prod.snd →
        kraftSum (ps.map Prod.snd) ≤ 1 →
        encodedLength map (codeOf (Link.paths (Link.ofNode root) [])) ≤ weightedLength ps := by
  obtain ⟨root, h1, _, h3, h4⟩ := codeTable_spec map hne hnd
  refine ⟨root, h1, h3, h4, ?_⟩
  have hperm := createPriorityQueue_perm map []
  rw [List.nil_append] at hperm
  have hlen : (createPriorityQueue [] map).length = map.length := by
    rw [hperm.length_eq, List.length_map]
  have hpos : 1 ≤ map.length := by
    cases map with
    | nil => exact absurd rfl hne
    | cons _ _ => simp
  have hfreq : ((createPriorityQueue [] map).map HuffmanNode.frequency).Perm
      (map.map Prod.snd) := by
    have := hperm.map HuffmanNode.frequency
    rw [List.map_map] at this
    exact this
  obtain ⟨root1, hloop, hopt⟩ := buildLoop_optimal (createPriorityQueue [] map).length
    (createPriorityQueue [] map) (by omega) (by omega)
    (createPriorityQueue_heap map [] isHeap_nil)
    (by
      intro x hx
      obtain ⟨p, _, rfl⟩ := List.mem_map.1 (hperm.subset hx)
      simp [HuffmanNode.new, HuffmanNode.leaves, Link.ofNode, Link.leaves])
    (by rw [hfreq.sum_eq]; exact hb)
  have hroot : root1 = root := by
    have h5 : buildHuffmanTree (createPriorityQueue [] map) = Except.ok (root1, [root1]) := by
      simp only [buildHuffmanTree, hloop, top, List.head?_cons]
    rw [h1] at h5
    injection h5 with h5
    injection h5 with h5 _
    exact h5.symm
  subst hroot
  intro ps hw hk
  have h6 := hopt ps (by rw [hw]; exact hfreq.symm) hk
  have hzero : ((createPriorityQueue [] map).map
      (fun x => Link.weightedDepth (Link.ofNode x) 0)).sum = 0 := by
    rw [(hperm.map _).sum_eq, List.map_map]
    apply List.sum_eq_zero
    intro x hx
    obtain ⟨p, _, rfl⟩ := List.mem_map.1 hx
    simp [HuffmanNode.new, Link.ofNode, Link.weightedDepth]
  rw [hzero, Nat.zero_add] at h6
  have h7 := encodedLength_paths (Link.ofNode root1) []
    (((h3.map Prod.fst).nodup_iff).mpr hnd)
  rw [List.length_nil] at h7
  rw [← encodedLength_perm h3, HuffmanNode.leaves, h7]
  exact h6

/-! ## Properties of the specification -/

/-- C1: the round trip `decompress (compress S) = S` fails on the code for the stream
`"aab"`, whatever the memory after the bit string holds and in whatever order the two maps of
`compress` are iterated: the encoding has 3 bits, the decoding loop also consumes the padding
bit at index 3, which is `'0'`, the code of `'b'`, and the output is `"aabb"`. -/
theorem roundTrip_aab (past : Nat → Char) (mapRank codeRank : Char → Nat) :
    roundTrip ['a', 'a', 'b'] past mapRank codeRank =
      Except.ok (some ['a', 'a', 'b', 'b']) := by
  obtain ⟨files, hc, hh, hb⟩ := compress_aab past mapRank codeRank
  obtain ⟨hlo, hhi⟩ := packByte_aab past
  have hd := decode_aab ⟨packByte (letterAt ['1', '1', '0'] past) 0 - 192, by omega⟩
  have hx : 192 + (packByte (letterAt ['1', '1', '0'] past) 0 - 192) =
      packByte (letterAt ['1', '1', '0'] past) 0 := by omega
  simp only [hx] at hd
  rcases hh with hh | hh
  · simp only [roundTrip, hc, decompress, hh, hb, hd.1]
  · simp only [roundTrip, hc, decompress, hh, hb, hd.2]

/-- C2: for the stream of three copies of `'a'` the code table has the single entry of `'a'`,
with the empty string as code, so no bit is packed, and decompressing the files gives the
empty stream instead of the three copies. -/
theorem roundTrip_single_symbol (past : Nat → Char) (mapRank codeRank : Char → Nat) :
    (∃ root q,
      buildHuffmanTree
          (createPriorityQueue [] (iteration mapRank (createMap [] (some ['a', 'a', 'a'])))) =
        Except.ok (root, q) ∧
      buildCodeTable root [] [] = Except.ok [('a', [])]) ∧
    (∃ files, compress (some ['a', 'a', 'a']) past mapRank codeRank = Except.ok files ∧
      files.hdr = ['a', '\n', '\n'] ∧ files.bin = [0, 0, 0, 0, 10]) ∧
    roundTrip ['a', 'a', 'a'] past mapRank codeRank = Except.ok (some []) := by
  have hc : compress (some ['a', 'a', 'a']) past mapRank codeRank =
      Except.ok { hdr := ['a', '\n', '\n'], txt := createCompressedInputFile [],
                  bin := [0, 0, 0, 0, 10] } := rfl
  have hd : decompress (some ['a', '\n', '\n']) (some [0, 0, 0, 0, 10]) =
      Except.ok (some []) := rfl
  refine ⟨⟨HuffmanNode.new 'a' 3, [HuffmanNode.new 'a' 3], rfl, rfl⟩, ⟨_, hc, rfl, rfl⟩, ?_⟩
  simp only [roundTrip, hc, hd]

/-- C3: for every non-empty frequency table, `buildHuffmanTree` returns a root and
`buildCodeTable` a code table in which the code of one symbol is never an initial segment of the
code of another symbol, equal codes included. -/
theorem codeTable_prefix_free (map : FreqMap) (hne : map ≠ [])
    (hnd : (map.map Prod.fst).Nodup) :
    ∃ root q codeTable,
      buildHuffmanTree (createPriorityQueue [] map) = Except.ok (root, q) ∧
      buildCodeTable root [] [] = Except.ok codeTable ∧
      ∀ p ∈ codeTable, ∀ p2 ∈ codeTable, p.1 ≠ p2.1 → ¬ p.2 <+: p2.2 := by
  obtain ⟨root, h1, _, _, h4⟩ := codeTable_spec map hne hnd
  refine ⟨root, [root], _, h1, h4, ?_⟩
  intro p hp p2 hp2 hne2
  have hsym : Symmetric (fun (a b : Char × List Char) => ¬ a.2 <+: b.2 ∧ ¬ b.2 <+: a.2) :=
    fun _ _ h => ⟨h.2, h.1⟩
  have hpq : p ≠ p2 := fun e => hne2 (by rw [e])
  exact ((paths_pairwise (Link.ofNode root) []).forall hsym hp hp2 hpq).1

/-- Witness of C3 on the table of `"aaabbc"`. -/
theorem codeTable_prefix_free_witness :
    ([('a', 3), ('b', 2), ('c', 1)] ≠ ([] : FreqMap) ∧
      (([('a', 3), ('b', 2), ('c', 1)] : FreqMap).map Prod.fst).Nodup) ∧
    ∃ root q codeTable,
      buildHuffmanTree (createPriorityQueue [] [('a', 3), ('b', 2), ('c', 1)]) =
        Except.ok (root, q) ∧
      buildCodeTable root [] [] = Except.ok codeTable ∧
      ∀ p ∈ codeTable, ∀ p2 ∈ codeTable, p.1 ≠ p2.1 → ¬ p.2 <+: p2.2 :=
  ⟨⟨by decide, by decide⟩,
    codeTable_prefix_free [('a', 3), ('b', 2), ('c', 1)] (by decide) (by decide)⟩

/-- C4 as stated fails at the table `a ↦ 2^31, b ↦ 2^31`: the root frequency is computed in
`unsigned int` and is 0, while the counts sum to `2^32`. -/
theorem root_frequency_wraps :
    ∃ root q,
      buildHuffmanTree (createPriorityQueue [] [('a', 2147483648), ('b', 2147483648)]) =
        Except.ok (root, q) ∧
      root.frequency = 0 ∧ totalCount [('a', 2147483648), ('b', 2147483648)] = 4294967296 ∧
      root.frequency ≠ totalCount [('a', 2147483648), ('b', 2147483648)] :=
  ⟨_, _, rfl, rfl, by decide, by decide⟩

/-- C4, amended: for every non-empty frequency table, `buildHuffmanTree` returns a root whose
frequency is the sum of all counts modulo `2^32`; the leaf frequencies of the tree sum to the
sum of all counts; and when the table is the one `createMap` builds from an input of fewer than
`2^32` bytes, root frequency and sum of counts both equal the number of bytes. -/
theorem root_frequency (map : FreqMap) (hne : map ≠ [])
    (hb : ∀ p ∈ map, p.2 < UINT_RANGE) :
    ∃ root q,
      buildHuffmanTree (createPriorityQueue [] map) = Except.ok (root, q) ∧
      root.frequency = totalCount map % UINT_RANGE ∧
      (root.leaves.map Prod.snd).sum = totalCount map ∧
      ∀ input, map = createMap [] (some input) → input.length < UINT_RANGE →
        root.frequency = input.length ∧ totalCount map = input.length := by
  obtain ⟨root, h1, h2, h3⟩ := buildHuffmanTree_spec map hne
  have hsum : (root.leaves.map Prod.snd).sum = totalCount map := (h3.map Prod.snd).sum_eq
  have hfreq : root.frequency = totalCount map % UINT_RANGE := by
    have := built_frequency (Link.ofNode root) h2
      (fun p hp => hb p (h3.mem_iff.mp hp))
    rw [← hsum]
    simpa [Link.ofNode, Link.frequency, HuffmanNode.leaves] using this
  refine ⟨root, [root], h1, hfreq, hsum, ?_⟩
  intro input hmap hlen
  have ht : totalCount map = input.length := by rw [hmap]; exact createMap_total input hlen
  exact ⟨by rw [hfreq, ht, Nat.mod_eq_of_lt hlen], ht⟩

/-- Witness of C4 on the input `"aaabbc"`: its table is `a ↦ 3, b ↦ 2, c ↦ 1` and the root
frequency is 6, the number of bytes. -/
theorem root_frequency_witness :
    ([('a', 3), ('b', 2), ('c', 1)] ≠ ([] : FreqMap) ∧
      ∀ p ∈ ([('a', 3), ('b', 2), ('c', 1)] : FreqMap), p.2 < UINT_RANGE) ∧
    createMap [] (some ['a', 'a', 'a', 'b', 'b', 'c']) = [('a', 3), ('b', 2), ('c', 1)] ∧
    ∃ root q,
      buildHuffmanTree (createPriorityQueue [] [('a', 3), ('b', 2), ('c', 1)]) =
        Except.ok (root, q) ∧
      root.frequency = totalCount [('a', 3), ('b', 2), ('c', 1)] % UINT_RANGE ∧
      (root.leaves.map Prod.snd).sum = totalCount [('a', 3), ('b', 2), ('c', 1)] ∧
      root.frequency = ['a', 'a', 'a', 'b', 'b', 'c'].length := by
  refine ⟨⟨by decide, by decide⟩, by decide, ?_⟩
  obtain ⟨root, q, h1, h2, h3, h4⟩ :=
    root_frequency [('a', 3), ('b', 2), ('c', 1)] (by decide) (by decide)
  exact ⟨root, q, h1, h2, h3,
    (h4 ['a', 'a', 'a', 'b', 'b', 'c'] (by decide) (by decide)).1⟩

/-- C5 as stated fails at the map `a ↦ 2^32 - 1` and the stream `"a"`: the count is
incremented in `unsigned int` and becomes 0, not `2^32`. -/
theorem createMap_count_wraps :
    (createMap [('a', 4294967295)] (some ['a'])).lookup 'a' = some 0 ∧
    (createMap [('a', 4294967295)] (some ['a'])).lookup 'a' ≠
      some ((([('a', 4294967295)] : FreqMap).lookup 'a').getD 0 + List.count 'a' ['a']) := by
  decide

/-- C5, amended: after `createMap`, a byte `c` is a key iff it was a key before or occurs in
the stream; the count of a key is its previous count (0 if absent) plus the number of
occurrences of `c` in the stream, modulo `2^32`; started from the empty map, the number of
keys is the number of distinct bytes of the stream and a byte that does not occur is no key. -/
theorem createMap_counts (map : FreqMap) (input : List Char) (c : Char)
    (hb : ∀ p ∈ map, p.2 < UINT_RANGE) :
    (c ∈ (createMap map (some input)).map Prod.fst ↔ c ∈ map.map Prod.fst ∨ c ∈ input) ∧
    (c ∈ (createMap map (some input)).map Prod.fst →
      (createMap map (some input)).lookup c =
        some (((map.lookup c).getD 0 + input.count c) % UINT_RANGE)) ∧
    (createMap [] (some input)).length = input.toFinset.card ∧
    (c ∉ input → c ∉ (createMap [] (some input)).map Prod.fst) := by
  refine ⟨createMap_keys c input map, ?_, createMap_size input, ?_⟩
  · intro hkey
    rw [createMap_lookup]
    by_cases h0 : input.count c = 0
    · have hnot : c ∉ input := List.count_eq_zero.mp h0
      have hk : c ∈ map.map Prod.fst := by
        rcases (createMap_keys c input map).mp hkey with h | h
        · exact h
        · exact absurd h hnot
      cases hl : map.lookup c with
      | none => exact absurd hl ((mem_keys_iff_lookup c map).mp hk)
      | some v =>
        have hmem : (c, v) ∈ map := by
          obtain ⟨l1, l2, e, _⟩ := List.lookup_eq_some_iff.mp hl
          rw [e]; simp
        have hv : v < UINT_RANGE := hb (c, v) hmem
        simp [h0, Nat.mod_eq_of_lt hv]
    · simp [h0]
  · intro hnot hkey
    rcases (createMap_keys c input []).mp hkey with h | h
    · simp at h
    · exact hnot h

/-- Witness of C5: the map `a ↦ 1`, the stream `"ab"` and the byte `'a'`. -/
theorem createMap_counts_witness :
    (∀ p ∈ ([('a', 1)] : FreqMap), p.2 < UINT_RANGE) ∧
    ('a' ∈ (createMap [('a', 1)] (some ['a', 'b'])).map Prod.fst ↔
      'a' ∈ ([('a', 1)] : FreqMap).map Prod.fst ∨ 'a' ∈ ['a', 'b']) ∧
    ('a' ∈ (createMap [('a', 1)] (some ['a', 'b'])).map Prod.fst →
      (createMap [('a', 1)] (some ['a', 'b'])).lookup 'a' =
        some (((([('a', 1)] : FreqMap).lookup 'a').getD 0 + ['a', 'b'].count 'a') %
          UINT_RANGE)) ∧
    (createMap [] (some ['a', 'b'])).length = ['a', 'b'].toFinset.card ∧
    ('a' ∉ ['a', 'b'] → 'a' ∉ (createMap [] (some ['a', 'b'])).map Prod.fst) :=
  ⟨by decide, createMap_counts [('a', 1)] ['a', 'b'] 'a' (by decide)⟩

/-- C6: for every non-empty frequency table, the code table built from its Huffman tree,
starting from the empty code table, has the keys of the frequency table, each once, hence as
many entries as the frequency table. -/
theorem codeTable_size (map : FreqMap) (hne : map ≠ []) (hnd : (map.map Prod.fst).Nodup) :
    ∃ root q codeTable,
      buildHuffmanTree (createPriorityQueue [] map) = Except.ok (root, q) ∧
      buildCodeTable root [] [] = Except.ok codeTable ∧
      (∀ c, c ∈ codeTable.map Prod.fst ↔ c ∈ map.map Prod.fst) ∧
      (codeTable.map Prod.fst).Nodup ∧ codeTable.length = map.length := by
  obtain ⟨root, h1, _, h3, h4⟩ := codeTable_spec map hne hnd
  have hperm : ((Link.paths (Link.ofNode root) []).map Prod.fst).Perm (map.map Prod.fst) := by
    rw [paths_keys]
    exact h3.map Prod.fst
  refine ⟨root, [root], _, h1, h4, fun c => hperm.mem_iff, hperm.nodup_iff.mpr hnd, ?_⟩
  simpa using hperm.length_eq

/-- Witness of C6 on the table of `"aaabbc"`. -/
theorem codeTable_size_witness :
    ([('a', 3), ('b', 2), ('c', 1)] ≠ ([] : FreqMap) ∧
      (([('a', 3), ('b', 2), ('c', 1)] : FreqMap).map Prod.fst).Nodup) ∧
    ∃ root q codeTable,
      buildHuffmanTree (createPriorityQueue [] [('a', 3), ('b', 2), ('c', 1)]) =
        Except.ok (root, q) ∧
      buildCodeTable root [] [] = Except.ok codeTable ∧
      (∀ c, c ∈ codeTable.map Prod.fst ↔
        c ∈ ([('a', 3), ('b', 2), ('c', 1)] : FreqMap).map Prod.fst) ∧
      (codeTable.map Prod.fst).Nodup ∧
      codeTable.length = ([('a', 3), ('b', 2), ('c', 1)] : FreqMap).length :=
  ⟨⟨by decide, by decide⟩, codeTable_size [('a', 3), ('b', 2), ('c', 1)] (by decide) (by decide)⟩

/-- C7: for every input stream and every code table, in particular the one derived from the
input, `getBitStringCode` returns the concatenation, in input order, of the codes of the input
bytes; its length is the sum of the code lengths over the input; and when that is below `2^31`,
the `.bin` file starts with four bytes that read back as an `int` equal to it. -/
theorem getBitStringCode_header (input : List Char) (map : CodeMap) (past : Nat → Char) :
    (getBitStringCode (some input) map).1 = input.flatMap (codeOf map) ∧
    (getBitStringCode (some input) map).1.length =
      (input.map (fun c => (codeOf map c).length)).sum ∧
    ((input.map (fun c => (codeOf map c).length)).sum < 2 ^ 31 →
      ∃ b0 b1 b2 b3 rest,
        createBinaryFile (getBitStringCode (some input) map).1 past =
          b0 :: b1 :: b2 :: b3 :: rest ∧
        intOfBytes b0 b1 b2 b3 =
          (((input.map (fun c => (codeOf map c).length)).sum : Nat) : Int)) := by
  have hbits : (getBitStringCode (some input) map).1 = input.flatMap (codeOf map) := by
    simp only [getBitStringCode]
    rw [getBitStringCode_fold]
    simp
  have hlen := length_flatMap_codeOf map input
  refine ⟨hbits, by rw [hbits, hlen], ?_⟩
  intro hsmall
  rw [hbits]
  obtain ⟨b0, b1, b2, b3, e1, e2⟩ := header_small (input.flatMap (codeOf map)).length
    (by rw [hlen]; exact hsmall)
  refine ⟨b0, b1, b2, b3,
    ('\n').toNat :: packedBytes (input.flatMap (codeOf map)) past, ?_, by rw [e2, hlen]⟩
  simp only [createBinaryFile, e1, List.cons_append, List.nil_append]

/-- Witness of C7: the stream `"aab"` with the code table `b ↦ "0"`, `a ↦ "1"`. -/
theorem getBitStringCode_header_witness :
    ((['a', 'a', 'b'].map
        (fun c => (codeOf [('b', ['0']), ('a', ['1'])] c).length)).sum < 2 ^ 31) ∧
    ∃ b0 b1 b2 b3 rest,
      createBinaryFile
          (getBitStringCode (some ['a', 'a', 'b']) [('b', ['0']), ('a', ['1'])]).1
          (fun _ => Char.ofNat 0) =
        b0 :: b1 :: b2 :: b3 :: rest ∧
      intOfBytes b0 b1 b2 b3 =
        (((['a', 'a', 'b'].map
          (fun c => (codeOf [('b', ['0']), ('a', ['1'])] c).length)).sum : Nat) : Int) :=
  ⟨by decide,
    (getBitStringCode_header ['a', 'a', 'b'] [('b', ['0']), ('a', ['1'])]
      (fun _ => Char.ofNat 0)).2.2 (by decide)⟩

/-- C8: on the bit string `"1"` with `'1'` characters in the memory after the terminator of
the string, `createBinaryFile` writes the packed byte `0xBF`: bit 7 is the bit of the string,
bit 6 comes from the terminator, and the bits 5 to 0 come from the bytes read past the end of
the string, so the padding is not zero. -/
theorem createBinaryFile_padding :
    createBinaryFile ['1'] (fun _ => '1') = [1, 0, 0, 0, 10, 191] ∧
    packedBytes ['1'] (fun _ => '1') ≠ [128] := by
  decide

/-- C9: on the table `"0" ↦ a`, `"1" ↦ b` and a packed file with bit count 2 and the byte
`0x40`, the decoding loop emits three symbols: it also consumes the padding bit at index 2,
while the first two bits alone decode to `"ab"`. -/
theorem decode_reads_padding_bit :
    decodeFiles ['a', '\n', '0', '\n', 'b', '\n', '1', '\n'] [2, 0, 0, 0, 10, 64] =
      Except.ok ['a', 'b', 'a'] ∧
    decodeLoop (readTable ['a', '\n', '0', '\n', 'b', '\n', '1', '\n']) 2 0
      ((unpack [64] 1).take 2) [] [] = ['a', 'b'] := by
  exact ⟨rfl, rfl⟩

/-- C10: on an empty input, and on an input file that cannot be opened, `compress` has no
check for the empty table: `buildHuffmanTree` is called on the empty queue and reads its top. -/
theorem compress_empty (past : Nat → Char) (mapRank codeRank : Char → Nat) :
    createPriorityQueue [] (iteration mapRank (createMap [] (some []))) = [] ∧
    buildHuffmanTree [] = Except.error Fault.topOfEmptyQueue ∧
    compress (some []) past mapRank codeRank = Except.error Fault.topOfEmptyQueue ∧
    compress none past mapRank codeRank = Except.error Fault.topOfEmptyQueue := by
  exact ⟨rfl, rfl, rfl, rfl⟩

/-- C14: for the input `"aaabbc"` the frequency table is `a ↦ 3, b ↦ 2, c ↦ 1`; in whatever
order the table is iterated, the first two nodes extracted are `c` and `b`, joined into a node
of frequency 3, and the derived codes have the lengths 1 for `a`, 2 for `b` and 2 for `c`; the
bit string that `compress` writes has 9 characters and the header of the `.bin` file holds 9,
again in whatever order the maps are iterated. -/
theorem example_aaabbc :
    createMap [] (some ['a', 'a', 'a', 'b', 'b', 'c']) = [('a', 3), ('b', 2), ('c', 1)] ∧
    (∀ t ∈ ([[('a', 3), ('b', 2), ('c', 1)], [('a', 3), ('c', 1), ('b', 2)],
              [('b', 2), ('a', 3), ('c', 1)], [('b', 2), ('c', 1), ('a', 3)],
              [('c', 1), ('a', 3), ('b', 2)], [('c', 1), ('b', 2), ('a', 3)]] : List FreqMap),
      top (createPriorityQueue [] t) = some (HuffmanNode.new 'c' 1) ∧
      top (pop (createPriorityQueue [] t)) = some (HuffmanNode.new 'b' 2) ∧
      buildStep (createPriorityQueue [] t) =
        push (pop (pop (createPriorityQueue [] t)))
          (mergeNode (HuffmanNode.new 'c' 1) (HuffmanNode.new 'b' 2)) ∧
      (mergeNode (HuffmanNode.new 'c' 1) (HuffmanNode.new 'b' 2)).frequency = 3 ∧
      ∃ root q codeTable,
        buildHuffmanTree (createPriorityQueue [] t) = Except.ok (root, q) ∧
        buildCodeTable root [] [] = Except.ok codeTable ∧
        (codeOf codeTable 'a').length = 1 ∧ (codeOf codeTable 'b').length = 2 ∧
        (codeOf codeTable 'c').length = 2) ∧
    (∀ past mapRank codeRank, ∃ files b0 b1 b2 b3 rest,
      compress (some ['a', 'a', 'a', 'b', 'b', 'c']) past mapRank codeRank = Except.ok files ∧
      files.txt.take 2 = ['9', '\n'] ∧ (files.txt.drop 2).length = 9 ∧
      files.bin = b0 :: b1 :: b2 :: b3 :: rest ∧ intOfBytes b0 b1 b2 b3 = 9) := by
  refine ⟨by decide, ?_, ?_⟩
  · intro t ht
    simp only [List.mem_cons, List.mem_singleton, List.not_mem_nil, or_false] at ht
    rcases ht with rfl | rfl | rfl | rfl | rfl | rfl <;>
      exact ⟨rfl, rfl, rfl, rfl, _, _, _, rfl, rfl, rfl, rfl, rfl⟩
  · intro past mapRank codeRank
    have hmap : createMap [] (some ['a', 'a', 'a', 'b', 'b', 'c']) =
        [('a', 3), ('b', 2), ('c', 1)] := by decide
    have ht := iteration_triple mapRank ('a', 3) ('b', 2) ('c', 1)
    rw [← hmap] at ht
    simp only [List.mem_cons, List.mem_singleton, List.not_mem_nil, or_false] at ht
    rcases ht with h | h | h | h | h | h <;>
      exact ⟨_, 9, 0, 0, 0, _,
        compress_of_table _ past mapRank codeRank _ _ _ _ h rfl rfl
          (createBinaryFileFault_none _ _ (by decide)),
        rfl, rfl, rfl, rfl⟩

/-- C16: `createPriorityQueue` adds to the queue exactly one node `HuffmanNode(letter, count)`,
with null links, per element of the map; the queue grows by the size of the map, so from an
empty queue its size is the size of the map, and 0 for an empty map. -/
theorem createPriorityQueue_pushes (priorityQueue : Queue) (map : FreqMap) :
    (createPriorityQueue priorityQueue map).Perm
      (priorityQueue ++ map.map (fun node => HuffmanNode.new node.1 node.2)) ∧
    (createPriorityQueue priorityQueue map).length = priorityQueue.length + map.length ∧
    (createPriorityQueue [] map).length = map.length ∧
    createPriorityQueue [] [] = [] := by
  have h := createPriorityQueue_perm map priorityQueue
  have h0 := createPriorityQueue_perm map []
  refine ⟨h, by simpa using h.length_eq, by simpa using h0.length_eq, rfl⟩

/-- C18 as stated fails at the table `a ↦ 2^31, b ↦ 2^31`: the root has the two leaves as
children and the frequency 0, while the frequencies of its children sum to `2^32`. -/
theorem internal_frequency_wraps :
    ∃ root q,
      buildHuffmanTree (createPriorityQueue [] [('a', 2147483648), ('b', 2147483648)]) =
        Except.ok (root, q) ∧
      root.frequency = 0 ∧
      Link.frequency root.leftLink + Link.frequency root.rightLink = 4294967296 ∧
      root.frequency ≠ Link.frequency root.leftLink + Link.frequency root.rightLink :=
  ⟨_, _, rfl, rfl, by decide, by decide⟩

/-- C18, amended: for every non-empty frequency table, the leaves of the tree returned by
`buildHuffmanTree` are the entries of the table, each once with its symbol and count; every
other node has both children, and its frequency is the sum of the frequencies of its children
modulo `2^32`, which is the exact sum whenever the counts of the table sum to less than
`2^32`. -/
theorem tree_nodes (map : FreqMap) (hne : map ≠ []) :
    ∃ root q,
      buildHuffmanTree (createPriorityQueue [] map) = Except.ok (root, q) ∧
      root.leaves.Perm map ∧
      Link.Built (Link.ofNode root) ∧
      (totalCount map < UINT_RANGE → Link.SumExact (Link.ofNode root)) := by
  obtain ⟨root, h1, h2, h3⟩ := buildHuffmanTree_spec map hne
  refine ⟨root, [root], h1, h3, h2, ?_⟩
  intro hlt
  have hsum : ((Link.leaves (Link.ofNode root)).map Prod.snd).sum = totalCount map :=
    (h3.map Prod.snd).sum_eq
  exact (built_sumExact (Link.ofNode root) h2 (by rw [hsum]; exact hlt)).1

/-- Witness of C18 on the table of `"aaabbc"`. -/
theorem tree_nodes_witness :
    ([('a', 3), ('b', 2), ('c', 1)] ≠ ([] : FreqMap) ∧
      totalCount [('a', 3), ('b', 2), ('c', 1)] < UINT_RANGE) ∧
    ∃ root q,
      buildHuffmanTree (createPriorityQueue [] [('a', 3), ('b', 2), ('c', 1)]) =
        Except.ok (root, q) ∧
      root.leaves.Perm [('a', 3), ('b', 2), ('c', 1)] ∧
      Link.Built (Link.ofNode root) ∧ Link.SumExact (Link.ofNode root) := by
  refine ⟨⟨by decide, by decide⟩, ?_⟩
  obtain ⟨root, q, h1, h2, h3, h4⟩ := tree_nodes [('a', 3), ('b', 2), ('c', 1)] (by decide)
  exact ⟨root, q, h1, h2, h3, h4 (by decide)⟩

/-- C19: for every non-empty frequency table and every entry of the code table derived from
its tree, following the characters of the code from the root, `'0'` to the left child and `'1'`
to the right child, ends at the leaf that holds the symbol, with its count of the table, and
that leaf lies at the depth given by the length of the code. -/
theorem code_is_path (map : FreqMap) (hne : map ≠ []) (hnd : (map.map Prod.fst).Nodup) :
    ∃ root q codeTable,
      buildHuffmanTree (createPriorityQueue [] map) = Except.ok (root, q) ∧
      buildCodeTable root [] [] = Except.ok codeTable ∧
      ∀ p ∈ codeTable, ∃ f,
        Link.walk (Link.ofNode root) p.2 = Link.ptr p.1 f Link.null Link.null ∧
        (p.1, f) ∈ map ∧ (p.1, p.2.length) ∈ Link.depths (Link.ofNode root) 0 := by
  obtain ⟨root, h1, h2, h3, h4⟩ := codeTable_spec map hne hnd
  refine ⟨root, [root], _, h1, h4, ?_⟩
  intro p hp
  obtain ⟨suffix, f, e1, e2, e3, e4⟩ := paths_walk (Link.ofNode root) h2 [] 0 p hp
  simp only [List.nil_append] at e1
  refine ⟨f, by rw [e1]; exact e2, h3.mem_iff.mp e3, ?_⟩
  rw [e1]
  simpa using e4

/-- Witness of C19 on the table of `"aaabbc"`. -/
theorem code_is_path_witness :
    ([('a', 3), ('b', 2), ('c', 1)] ≠ ([] : FreqMap) ∧
      (([('a', 3), ('b', 2), ('c', 1)] : FreqMap).map Prod.fst).Nodup) ∧
    ∃ root q codeTable,
      buildHuffmanTree (createPriorityQueue [] [('a', 3), ('b', 2), ('c', 1)]) =
        Except.ok (root, q) ∧
      buildCodeTable root [] [] = Except.ok codeTable ∧
      ∀ p ∈ codeTable, ∃ f,
        Link.walk (Link.ofNode root) p.2 = Link.ptr p.1 f Link.null Link.null ∧
        (p.1, f) ∈ ([('a', 3), ('b', 2), ('c', 1)] : FreqMap) ∧
        (p.1, p.2.length) ∈ Link.depths (Link.ofNode root) 0 :=
  ⟨⟨by decide, by decide⟩, code_is_path [('a', 3), ('b', 2), ('c', 1)] (by decide) (by decide)⟩

/-- C11 as stated fails: for the bit string `"1"` the `.bin` file has 6 bytes, not 5, the byte
after the header being the newline of `endBitStringCode`; for a bit string of `2^31`
characters the length wraps as an `int`, the header holds `-2^31` and no packed byte follows;
and for a bit string of `2^31 - 1` characters the packing loop reaches `i = 2^31 - 8`, where
the `int` sum `i + 8` is above `INT_MAX`. -/
theorem binary_file_separator :
    createBinaryFile ['1'] (fun _ => Char.ofNat 0) = [1, 0, 0, 0, 10, 128] ∧
    (createBinaryFile ['1'] (fun _ => Char.ofNat 0)).length ≠ 4 + byteCount 1 ∧
    createBinaryFile (List.replicate 2147483648 '0') (fun _ => Char.ofNat 0) =
      [0, 0, 0, 128, 10] ∧
    createBinaryFileFault (List.replicate 2147483647 '0') (fun _ => Char.ofNat 0) =
      some Fault.intOverflow := by
  refine ⟨by decide, by decide, createBinaryFile_pow31 _ _ (List.length_replicate _ _), ?_⟩
  apply createBinaryFileFault_overflow
  · rw [List.length_replicate]; decide
  · rw [List.length_replicate]; decide

/-- C11, amended: for every bit string of length `n ≤ 2^31 - 8`, the packing loop of
`createBinaryFile` stays within `int`, and the `.bin` file is the four bytes of the bit count
`n`, then one newline byte, then the `ceil(n/8)` packed bytes, and nothing else:
`5 + ceil(n/8)` bytes in all. -/
theorem binary_file_format (bitStringCode : List Char) (past : Nat → Char)
    (h : bitStringCode.length + 8 ≤ 2 ^ 31) :
    createBinaryFileFault bitStringCode past = none ∧
    ∃ b0 b1 b2 b3,
      createBinaryFile bitStringCode past =
        [b0, b1, b2, b3] ++ [('\n').toNat] ++ packedBytes bitStringCode past ∧
      intOfBytes b0 b1 b2 b3 = (bitStringCode.length : Int) ∧
      (packedBytes bitStringCode past).length = byteCount bitStringCode.length ∧
      (createBinaryFile bitStringCode past).length = 5 + byteCount bitStringCode.length := by
  obtain ⟨b0, b1, b2, b3, e1, e2⟩ := header_small bitStringCode.length (by omega)
  have hl := packedBytes_length bitStringCode past h
  refine ⟨createBinaryFileFault_none bitStringCode past h,
    b0, b1, b2, b3, by simp only [createBinaryFile, e1], e2, hl, ?_⟩
  rw [show createBinaryFile bitStringCode past =
      [b0, b1, b2, b3] ++ [('\n').toNat] ++ packedBytes bitStringCode past by
    simp only [createBinaryFile, e1]]
  have h5 : ([b0, b1, b2, b3] ++ [('\n').toNat]).length = 5 := rfl
  rw [List.length_append, h5, hl]

/-- Witness of C11 on the bit string `"110"`. -/
theorem binary_file_format_witness :
    (['1', '1', '0'].length + 8 ≤ 2 ^ 31) ∧
    createBinaryFileFault ['1', '1', '0'] (fun _ => Char.ofNat 0) = none ∧
    ∃ b0 b1 b2 b3,
      createBinaryFile ['1', '1', '0'] (fun _ => Char.ofNat 0) =
        [b0, b1, b2, b3] ++ [('\n').toNat] ++ packedBytes ['1', '1', '0'] (fun _ => Char.ofNat 0) ∧
      intOfBytes b0 b1 b2 b3 = ((['1', '1', '0'].length : Nat) : Int) ∧
      (packedBytes ['1', '1', '0'] (fun _ => Char.ofNat 0)).length =
        byteCount ['1', '1', '0'].length ∧
      (createBinaryFile ['1', '1', '0'] (fun _ => Char.ofNat 0)).length =
        5 + byteCount ['1', '1', '0'].length :=
  ⟨by decide, binary_file_format ['1', '1', '0'] (fun _ => Char.ofNat 0) (by decide)⟩

/-- C12 as stated fails for a bit string of `2^31` characters: `(n/8) + (n%8 ? 1 : 0)` is
`2^28`, and the decoder, reading the wrapped header `-2^31`, computes `-2^28`, while the packer,
whose `int` length is negative, wrote no byte at all. It also fails for a bit string of
`2^31 - 1` characters, where the packing loop computes an `int` above `INT_MAX`. -/
theorem pack_unpack_wraps :
    (List.replicate 2147483648 '0').length = 2147483648 ∧
    (packedBytes (List.replicate 2147483648 '0') (fun _ => Char.ofNat 0)).length = 0 ∧
    numBytesOf 2147483648 = 268435456 ∧
    numBytesOf (toInt32 (List.replicate 2147483648 '0').length) = -268435456 ∧
    createBinaryFileFault (List.replicate 2147483647 '1') (fun _ => Char.ofNat 0) =
      some Fault.intOverflow := by
  refine ⟨List.length_replicate _ _, by rw [packedBytes_pow31]; rfl, by decide, ?_, ?_⟩
  · rw [List.length_replicate, toInt32_pow31]
    decide
  · apply createBinaryFileFault_overflow
    · rw [List.length_replicate]; decide
    · rw [List.length_replicate]; decide

/-- C12, amended: for every bit string `b` of length `n ≤ 2^31 - 8` over `'0'` and `'1'`, the
packing loop stays within `int`; the byte count that the decoder computes,
`(n/8) + (n%8 ? 1 : 0)`, is the number of bytes the packer wrote, `ceil(n/8)`; unpacking those
bytes, most significant bit first, gives a string of length `8 * ceil(n/8)` whose first `n`
characters are `b`. -/
theorem pack_unpack (bitStringCode : List Char) (past : Nat → Char)
    (hbin : ∀ c ∈ bitStringCode, c = '0' ∨ c = '1')
    (h : bitStringCode.length + 8 ≤ 2 ^ 31) :
    createBinaryFileFault bitStringCode past = none ∧
    numBytesOf (bitStringCode.length : Int) =
      (((packedBytes bitStringCode past).length : Nat) : Int) ∧
    (packedBytes bitStringCode past).length = byteCount bitStringCode.length ∧
    (unpack (packedBytes bitStringCode past) (packedBytes bitStringCode past).length).length =
      8 * byteCount bitStringCode.length ∧
    (unpack (packedBytes bitStringCode past) (packedBytes bitStringCode past).length).take
      bitStringCode.length = bitStringCode := by
  have hl := packedBytes_length bitStringCode past h
  refine ⟨createBinaryFileFault_none bitStringCode past h,
    by rw [numBytesOf_natCast, hl], hl, ?_, ?_⟩
  · rw [hl, unpack_packedBytes _ _ h]; simp
  · rw [hl, unpack_split _ _ hbin h]; simp

/-- Witness of C12 on the bit string `"110"`. -/
theorem pack_unpack_witness :
    ((∀ c ∈ ['1', '1', '0'], c = '0' ∨ c = '1') ∧ ['1', '1', '0'].length + 8 ≤ 2 ^ 31) ∧
    createBinaryFileFault ['1', '1', '0'] (fun _ => Char.ofNat 0) = none ∧
    numBytesOf ((['1', '1', '0'].length : Nat) : Int) =
      (((packedBytes ['1', '1', '0'] (fun _ => Char.ofNat 0)).length : Nat) : Int) ∧
    (packedBytes ['1', '1', '0'] (fun _ => Char.ofNat 0)).length =
      byteCount ['1', '1', '0'].length ∧
    (unpack (packedBytes ['1', '1', '0'] (fun _ => Char.ofNat 0))
      (packedBytes ['1', '1', '0'] (fun _ => Char.ofNat 0)).length).length =
      8 * byteCount ['1', '1', '0'].length ∧
    (unpack (packedBytes ['1', '1', '0'] (fun _ => Char.ofNat 0))
      (packedBytes ['1', '1', '0'] (fun _ => Char.ofNat 0)).length).take
      ['1', '1', '0'].length = ['1', '1', '0'] :=
  ⟨⟨by decide, by decide⟩,
    pack_unpack ['1', '1', '0'] (fun _ => Char.ofNat 0) (by decide) (by decide)⟩

/-- C13: for every code table whose codes are distinct non-empty strings over `'0'` and `'1'`,
the map that the `.hdr` reading loop of `decompress` builds from the text written by
`createCodeTableFile` sends the code of every entry to the one-character string of its symbol,
also when the symbol is the newline character. -/
theorem codeTable_file_round_trip (table : CodeMap)
    (hcodes : ∀ p ∈ table, p.2 ≠ [] ∧ ∀ c ∈ p.2, c = '0' ∨ c = '1')
    (hnd : (table.map Prod.snd).Nodup) :
    ∀ p ∈ table, (readTable (createCodeTableFile table)).lookup p.2 = some [p.1] := by
  intro p hp
  have hc : ∀ q ∈ table, q.2 ≠ [] ∧ '\n' ∉ q.2 :=
    fun q hq => ⟨(hcodes q hq).1, binary_no_newline q.2 (hcodes q hq).2⟩
  rw [readTable_createCodeTableFile table hc hnd, List.lookup_append]
  have hkeys : ((table.map decodeEntry).map Prod.fst).Nodup := by
    rw [decodeEntry_keys]; exact hnd
  have := lookup_mem_of_nodup_keys (table.map decodeEntry) hkeys (decodeEntry p)
    (List.mem_map_of_mem decodeEntry hp)
  simp only [decodeEntry] at this
  rw [this]
  rfl

/-- Witness of C13: a code table with the newline character as one of its symbols. -/
theorem codeTable_file_round_trip_witness :
    ((∀ p ∈ ([('\n', ['0']), ('a', ['1', '0']), ('b', ['1', '1'])] : CodeMap),
        p.2 ≠ [] ∧ ∀ c ∈ p.2, c = '0' ∨ c = '1') ∧
      (([('\n', ['0']), ('a', ['1', '0']), ('b', ['1', '1'])] : CodeMap).map Prod.snd).Nodup) ∧
    ∀ p ∈ ([('\n', ['0']), ('a', ['1', '0']), ('b', ['1', '1'])] : CodeMap),
      (readTable (createCodeTableFile [('\n', ['0']), ('a', ['1', '0']), ('b', ['1', '1'])])).lookup
        p.2 = some [p.1] :=
  ⟨⟨by decide, by decide⟩,
    codeTable_file_round_trip [('\n', ['0']), ('a', ['1', '0']), ('b', ['1', '1'])]
      (by decide) (by decide)⟩

/-- C17: the queue that `createPriorityQueue` fills is in heap order, and an iteration of
`buildHuffmanTree` keeps it so; in every iteration the first node extracted has a frequency not
above that of any node of the queue, and the second a frequency not above that of any node left
after the first extraction; the first becomes the left child and the second the right child of
the node pushed, so in the built tree the left child of every node with children has a
frequency not above that of the right child. -/
theorem merge_takes_minima (map : FreqMap) (hne : map ≠ []) :
    IsHeap (createPriorityQueue [] map) ∧
    (∀ q : Queue, IsHeap q → 2 ≤ q.length →
      ∃ left right, top q = some left ∧ top (pop q) = some right ∧
        (∀ y ∈ q, left.frequency ≤ y.frequency) ∧
        (∀ y ∈ pop q, right.frequency ≤ y.frequency) ∧
        buildStep q = push (pop (pop q)) (mergeNode left right) ∧
        (mergeNode left right).leftLink = Link.ofNode left ∧
        (mergeNode left right).rightLink = Link.ofNode right ∧
        IsHeap (buildStep q)) ∧
    ∃ root q,
      buildHuffmanTree (createPriorityQueue [] map) = Except.ok (root, q) ∧
      Link.LeftLe (Link.ofNode root) := by
  refine ⟨createPriorityQueue_heap map [] isHeap_nil, ?_, buildHuffmanTree_leftLe map hne⟩
  intro q hq hlen
  obtain ⟨l, r, h1, h2, h3, h4, _, h5, h6⟩ := buildStep_minima q hq hlen
  exact ⟨l, r, h1, h2, h3, h4, h5, rfl, rfl, h6⟩

/-- Witness of C17 on the table of `"aaabbc"`. -/
theorem merge_takes_minima_witness :
    ([('a', 3), ('b', 2), ('c', 1)] ≠ ([] : FreqMap)) ∧
    IsHeap (createPriorityQueue [] [('a', 3), ('b', 2), ('c', 1)]) ∧
    (∀ q : Queue, IsHeap q → 2 ≤ q.length →
      ∃ left right, top q = some left ∧ top (pop q) = some right ∧
        (∀ y ∈ q, left.frequency ≤ y.frequency) ∧
        (∀ y ∈ pop q, right.frequency ≤ y.frequency) ∧
        buildStep q = push (pop (pop q)) (mergeNode left right) ∧
        (mergeNode left right).leftLink = Link.ofNode left ∧
        (mergeNode left right).rightLink = Link.ofNode right ∧
        IsHeap (buildStep q)) ∧
    ∃ root q,
      buildHuffmanTree (createPriorityQueue [] [('a', 3), ('b', 2), ('c', 1)]) =
        Except.ok (root, q) ∧
      Link.LeftLe (Link.ofNode root) :=
  ⟨by decide, merge_takes_minima [('a', 3), ('b', 2), ('c', 1)] (by decide)⟩

/-- C20 as stated fails for the stream of one `'a'` followed by `2^31 - 1` copies of `'b'`: the
codes are `"0"` and `"1"`, the encoding has `2^31` bits, the bit count wraps to `-2^31` as an
`int`, no byte is packed, and `decompress` computes a negative number of bytes. It also fails
for one `'a'` followed by `2^31 - 2` copies of `'b'`: the encoding has `2^31 - 1` bits and the
packing loop of `createBinaryFile` computes an `int` above `INT_MAX`. Both hold in whatever
order the maps are iterated. -/
theorem roundTrip_wraps :
    ('a' ∈ 'a' :: List.replicate 2147483647 'b' ∧ 'b' ∈ 'a' :: List.replicate 2147483647 'b') ∧
    (∀ mapRank codeRank : Char → Nat,
      roundTrip ('a' :: List.replicate 2147483647 'b') (fun _ => Char.ofNat 0)
        mapRank codeRank = Except.error Fault.badArrayLength) ∧
    (∀ mapRank codeRank : Char → Nat,
      roundTrip ('a' :: List.replicate 2147483646 'b') (fun _ => Char.ofNat 0)
        mapRank codeRank = Except.error Fault.intOverflow) := by
  refine ⟨⟨List.mem_cons_self _ _,
    List.mem_cons_of_mem _ (List.mem_replicate.mpr ⟨by decide, rfl⟩)⟩, ?_, ?_⟩
  · intro mapRank codeRank
    have htable : buildCodeTable
        (mergeNode (HuffmanNode.new 'a' 1) (HuffmanNode.new 'b' 2147483647)) [] [] =
        Except.ok [('a', ['0']), ('b', ['1'])] := rfl
    have hfault := createBinaryFileFault_pow31 _ (fun _ => Char.ofNat 0) flatMap_pow31
    have key : ∀ map : FreqMap,
        iteration mapRank (createMap [] (some ('a' :: List.replicate 2147483647 'b'))) = map →
        buildHuffmanTree (createPriorityQueue [] map) =
          Except.ok (mergeNode (HuffmanNode.new 'a' 1) (HuffmanNode.new 'b' 2147483647),
            [mergeNode (HuffmanNode.new 'a' 1) (HuffmanNode.new 'b' 2147483647)]) →
        roundTrip ('a' :: List.replicate 2147483647 'b') (fun _ => Char.ofNat 0)
          mapRank codeRank = Except.error Fault.badArrayLength := by
      intro map hmap hbuild
      have hc := compress_of_table _ (fun _ => Char.ofNat 0) mapRank codeRank map _ _ _
        hmap hbuild htable hfault
      rw [roundTrip_of_compress _ _ _ _ _ hc]
      dsimp only
      rw [createBinaryFile_pow31 _ _ flatMap_pow31, decompress_pow31]
    have hm : iteration mapRank (createMap [] (some ('a' :: List.replicate 2147483647 'b'))) =
        iteration mapRank [('a', 1), ('b', 2147483647)] := by rw [createMap_pow31]
    rcases iteration_pair mapRank ('a', 1) ('b', 2147483647) with h | h
    · exact key _ (hm.trans h) rfl
    · exact key _ (hm.trans h) rfl
  · intro mapRank codeRank
    have htable : buildCodeTable
        (mergeNode (HuffmanNode.new 'a' 1) (HuffmanNode.new 'b' 2147483646)) [] [] =
        Except.ok [('a', ['0']), ('b', ['1'])] := rfl
    have hfault : createBinaryFileFault
        (('a' :: List.replicate 2147483646 'b').flatMap (codeOf [('a', ['0']), ('b', ['1'])]))
        (fun _ => Char.ofNat 0) = some Fault.intOverflow := by
      apply createBinaryFileFault_overflow
      · rw [flatMap_below_pow31]; decide
      · rw [flatMap_below_pow31]; decide
    have key : ∀ map : FreqMap,
        iteration mapRank (createMap [] (some ('a' :: List.replicate 2147483646 'b'))) = map →
        buildHuffmanTree (createPriorityQueue [] map) =
          Except.ok (mergeNode (HuffmanNode.new 'a' 1) (HuffmanNode.new 'b' 2147483646),
            [mergeNode (HuffmanNode.new 'a' 1) (HuffmanNode.new 'b' 2147483646)]) →
        roundTrip ('a' :: List.replicate 2147483646 'b') (fun _ => Char.ofNat 0)
          mapRank codeRank = Except.error Fault.intOverflow := by
      intro map hmap hbuild
      exact roundTrip_of_compress_error _ _ _ _ _
        (compress_of_table_fault _ (fun _ => Char.ofNat 0) mapRank codeRank map _ _ _ _
          hmap hbuild htable hfault)
    have hm : iteration mapRank (createMap [] (some ('a' :: List.replicate 2147483646 'b'))) =
        iteration mapRank [('a', 1), ('b', 2147483646)] := by rw [createMap_below_pow31]
    rcases iteration_pair mapRank ('a', 1) ('b', 2147483646) with h | h
    · exact key _ (hm.trans h) rfl
    · exact key _ (hm.trans h) rfl

/-- C20, amended: for every byte stream `S` with at least two distinct bytes whose encoding has
`n ≤ 2^31 - 8` bits, in whatever order the frequency table and the code table are iterated,
`decompress (compress S)` is `S` when `n` is a multiple of 8 or no symbol has the code `"0"`;
otherwise the decoder also reads the padding bit at index `n`, which is 0, and the output is
`S` followed by one extra byte, the symbol whose code is `"0"`. -/
theorem roundTrip_exact (input : List Char) (past : Nat → Char)
    (mapRank codeRank : Char → Nat) (h2 : 2 ≤ input.toFinset.card) :
    ∃ root q codeTable,
      buildHuffmanTree
          (createPriorityQueue [] (iteration mapRank (createMap [] (some input)))) =
        Except.ok (root, q) ∧
      buildCodeTable root [] [] = Except.ok codeTable ∧
      ((input.flatMap (codeOf codeTable)).length + 8 ≤ 2 ^ 31 →
        ((input.flatMap (codeOf codeTable)).length % 8 = 0 ∨
            (∀ p ∈ codeTable, p.2 ≠ ['0']) →
          roundTrip input past mapRank codeRank = Except.ok (some input)) ∧
        (∀ s, (input.flatMap (codeOf codeTable)).length % 8 ≠ 0 →
          (s, ['0']) ∈ codeTable →
          roundTrip input past mapRank codeRank = Except.ok (some (input ++ [s])))) := by
  obtain ⟨root, table, h1, h4, h⟩ := roundTrip_decode input past mapRank codeRank h2
  exact ⟨root, [root], table, h1, h4, h⟩

/-- Witness of C20: `"ab"` has 2 bits; iterated in insertion order the table gives `'b'` the
code `"0"` and the stream comes back as `"abb"`; iterated with `'b'` before `'a'` it gives
`'a'` the code `"0"` and the stream comes back as `"aba"`; `"aaabbc"` has 9 bits and no code
`"0"`, and comes back unchanged. -/
theorem roundTrip_exact_witness :
    (2 ≤ ['a', 'b'].toFinset.card ∧ 2 ≤ ['a', 'a', 'a', 'b', 'b', 'c'].toFinset.card) ∧
    roundTrip ['a', 'b'] (fun _ => Char.ofNat 0) (fun _ => 0) (fun _ => 0) =
      Except.ok (some ['a', 'b', 'b']) ∧
    roundTrip ['a', 'b'] (fun _ => Char.ofNat 0) (fun c => if c = 'b' then 0 else 1)
        (fun c => if c = 'b' then 0 else 1) =
      Except.ok (some ['a', 'b', 'a']) ∧
    roundTrip ['a', 'a', 'a', 'b', 'b', 'c'] (fun _ => Char.ofNat 0) (fun _ => 0) (fun _ => 0) =
      Except.ok (some ['a', 'a', 'a', 'b', 'b', 'c']) := by
  refine ⟨⟨by decide, by decide⟩, ?_, ?_, ?_⟩
  · obtain ⟨root, q, table, h1, h4, h⟩ :=
      roundTrip_exact ['a', 'b'] (fun _ => Char.ofNat 0) (fun _ => 0) (fun _ => 0) (by decide)
    have hb : buildHuffmanTree (createPriorityQueue []
        (iteration (fun _ => 0) (createMap [] (some ['a', 'b'])))) =
        Except.ok (mergeNode (HuffmanNode.new 'b' 1) (HuffmanNode.new 'a' 1),
          [mergeNode (HuffmanNode.new 'b' 1) (HuffmanNode.new 'a' 1)]) := rfl
    rw [hb] at h1
    simp only [Except.ok.injEq, Prod.mk.injEq] at h1
    obtain ⟨e1, _⟩ := h1
    subst e1
    have ht : buildCodeTable (mergeNode (HuffmanNode.new 'b' 1) (HuffmanNode.new 'a' 1)) [] [] =
        Except.ok [('b', ['0']), ('a', ['1'])] := rfl
    rw [ht] at h4
    simp only [Except.ok.injEq] at h4
    subst h4
    exact (h (by decide)).2 'b' (by decide) (by decide)
  · obtain ⟨root, q, table, h1, h4, h⟩ :=
      roundTrip_exact ['a', 'b'] (fun _ => Char.ofNat 0) (fun c => if c = 'b' then 0 else 1)
        (fun c => if c = 'b' then 0 else 1) (by decide)
    have hb : buildHuffmanTree (createPriorityQueue []
        (iteration (fun c => if c = 'b' then 0 else 1) (createMap [] (some ['a', 'b'])))) =
        Except.ok (mergeNode (HuffmanNode.new 'a' 1) (HuffmanNode.new 'b' 1),
          [mergeNode (HuffmanNode.new 'a' 1) (HuffmanNode.new 'b' 1)]) := rfl
    rw [hb] at h1
    simp only [Except.ok.injEq, Prod.mk.injEq] at h1
    obtain ⟨e1, _⟩ := h1
    subst e1
    have ht : buildCodeTable (mergeNode (HuffmanNode.new 'a' 1) (HuffmanNode.new 'b' 1)) [] [] =
        Except.ok [('a', ['0']), ('b', ['1'])] := rfl
    rw [ht] at h4
    simp only [Except.ok.injEq] at h4
    subst h4
    exact (h (by decide)).2 'a' (by decide) (by decide)
  · obtain ⟨root, q, table, h1, h4, h⟩ :=
      roundTrip_exact ['a', 'a', 'a', 'b', 'b', 'c'] (fun _ => Char.ofNat 0) (fun _ => 0)
        (fun _ => 0) (by decide)
    have hb : buildHuffmanTree
        (createPriorityQueue [] (iteration (fun _ => 0)
          (createMap [] (some ['a', 'a', 'a', 'b', 'b', 'c'])))) =
        Except.ok (mergeNode (mergeNode (HuffmanNode.new 'c' 1) (HuffmanNode.new 'b' 2))
            (HuffmanNode.new 'a' 3),
          [mergeNode (mergeNode (HuffmanNode.new 'c' 1) (HuffmanNode.new 'b' 2))
            (HuffmanNode.new 'a' 3)]) := rfl
    rw [hb] at h1
    simp only [Except.ok.injEq, Prod.mk.injEq] at h1
    obtain ⟨e1, _⟩ := h1
    subst e1
    have ht : buildCodeTable (mergeNode (mergeNode (HuffmanNode.new 'c' 1)
        (HuffmanNode.new 'b' 2)) (HuffmanNode.new 'a' 3)) [] [] =
        Except.ok [('c', ['0', '0']), ('b', ['0', '1']), ('a', ['1'])] := rfl
    rw [ht] at h4
    simp only [Except.ok.injEq] at h4
    subst h4
    exact (h (by decide)).1 (Or.inr (by decide))

/-- C21 as stated fails for the table `a ↦ 2^31, b ↦ 2^31, c ↦ 2^31, d ↦ 2^31`: the first
merge gives a node whose `unsigned int` frequency wraps to 0, that node is extracted again at
once, and the tree degenerates into a chain with the code lengths 3, 3, 2, 1 and a total of
`9 * 2^31` bits, while the four codes of length 2 need `8 * 2^31` bits. The four counts are
equal, so the order in which the table is iterated does not matter. -/
theorem optimality_wraps :
    ∃ (map : FreqMap) (other : Char → List Char) (root : HuffmanNode) (q : Queue)
      (codeTable : CodeMap),
      map = [('a', 2147483648), ('b', 2147483648), ('c', 2147483648), ('d', 2147483648)] ∧
      (other 'a' = ['0', '0'] ∧ other 'b' = ['0', '1'] ∧ other 'c' = ['1', '0'] ∧
        other 'd' = ['1', '1']) ∧
      (2 ≤ map.length ∧ (map.map Prod.fst).Nodup) ∧
      buildHuffmanTree (createPriorityQueue [] map) = Except.ok (root, q) ∧
      buildCodeTable root [] [] = Except.ok codeTable ∧
      (∀ p ∈ map, other p.1 ≠ []) ∧
      (∀ p ∈ map, ∀ c ∈ other p.1, c = '0' ∨ c = '1') ∧
      (∀ p ∈ map, ∀ p2 ∈ map, p.1 ≠ p2.1 → ¬ other p.1 <+: other p2.1) ∧
      codeTable.map (fun p => (p.1, p.2.length)) = [('d', 3), ('a', 3), ('b', 2), ('c', 1)] ∧
      encodedLength map (codeOf codeTable) = 19327352832 ∧
      encodedLength map other = 17179869184 ∧
      ¬ encodedLength map (codeOf codeTable) ≤ encodedLength map other :=
  ⟨[('a', 2147483648), ('b', 2147483648), ('c', 2147483648), ('d', 2147483648)],
    fun c => if c = 'a' then ['0', '0'] else if c = 'b' then ['0', '1']
      else if c = 'c' then ['1', '0'] else ['1', '1'],
    _, _, _, rfl, ⟨rfl, rfl, rfl, rfl⟩, ⟨by decide, by decide⟩, rfl, rfl, by decide, by decide,
    by decide, rfl, rfl, rfl, by decide⟩

/-- C21, amended: for every frequency table with distinct letters, at least two of them, whose
counts sum to less than `2^32`, `buildHuffmanTree` and `buildCodeTable` return a code table on
the letters of the frequency table, with binary codes none of which is empty or an initial
segment of another, whose total encoded length, the sum over the letters of count times code
length, is at most that of every assignment `other` of binary codes to the letters in which no
code is an initial segment of the code of another letter (such codes are never empty, so this
need not be assumed). -/
theorem huffman_optimal (map : FreqMap) (hnd : (map.map Prod.fst).Nodup)
    (h2 : 2 ≤ map.length) (hb : totalCount map < UINT_RANGE) :
    ∃ root q codeTable,
      buildHuffmanTree (createPriorityQueue [] map) = Except.ok (root, q) ∧
      buildCodeTable root [] [] = Except.ok codeTable ∧
      (codeTable.map Prod.fst).Perm (map.map Prod.fst) ∧
      (∀ p ∈ codeTable, ∀ c ∈ p.2, c = '0' ∨ c = '1') ∧
      PrefixFree codeTable ∧
      ∀ other : Char → List Char,
        (∀ p ∈ map, ∀ c ∈ other p.1, c = '0' ∨ c = '1') →
        (∀ p ∈ map, ∀ p2 ∈ map, p.1 ≠ p2.1 → ¬ other p.1 <+: other p2.1) →
        encodedLength map (codeOf codeTable) ≤ encodedLength map other := by
  have hne : map ≠ [] := by
    intro h; rw [h] at h2; simp at h2
  obtain ⟨root, h1, h3, h4, hopt⟩ := buildHuffmanTree_optimal map hne hnd hb
  refine ⟨root, [root], Link.paths (Link.ofNode root) [], h1, h4, ?_, ?_, ?_, ?_⟩
  · rw [paths_keys]
    exact h3.map Prod.fst
  · intro p hp
    exact paths_binary (Link.ofNode root) [] p hp (by simp)
  · apply paths_prefixFree
    have := h3.length_eq
    simp only [HuffmanNode.leaves] at this
    omega
  · intro other hbin hpf
    have hk : kraftSum ((map.map (fun p => (p.2, (other p.1).length))).map Prod.snd) ≤ 1 := by
      have e : (map.map (fun p => (p.2, (other p.1).length))).map Prod.snd =
          (map.map (fun p => other p.1)).map List.length := by
        simp [List.map_map]
      rw [e]
      apply kraft_prefixFree
      · rw [List.pairwise_map]
        have hk := List.pairwise_map.1 hnd
        exact hk.imp_of_mem (fun hp hp2 hne => ⟨hpf _ hp _ hp2 hne, hpf _ hp2 _ hp (Ne.symm hne)⟩)
      · intro c hc
        obtain ⟨p, hp, rfl⟩ := List.mem_map.1 hc
        exact hbin p hp
    have := hopt (map.map (fun p => (p.2, (other p.1).length))) (by simp [List.map_map]) hk
    have e2 : weightedLength (map.map (fun p => (p.2, (other p.1).length))) =
        encodedLength map other := by
      unfold weightedLength encodedLength
      rw [List.map_map]
      rfl
    rw [← e2]
    exact this

/-- Witness of C21 on the table of `"aaabbc"`. -/
theorem huffman_optimal_witness :
    ((([('a', 3), ('b', 2), ('c', 1)] : FreqMap).map Prod.fst).Nodup ∧
      2 ≤ ([('a', 3), ('b', 2), ('c', 1)] : FreqMap).length ∧
      totalCount [('a', 3), ('b', 2), ('c', 1)] < UINT_RANGE) ∧
    ∃ root q codeTable,
      buildHuffmanTree (createPriorityQueue [] [('a', 3), ('b', 2), ('c', 1)]) =
        Except.ok (root, q) ∧
      buildCodeTable root [] [] = Except.ok codeTable ∧
      (codeTable.map Prod.fst).Perm (([('a', 3), ('b', 2), ('c', 1)] : FreqMap).map Prod.fst) ∧
      (∀ p ∈ codeTable, ∀ c ∈ p.2, c = '0' ∨ c = '1') ∧
      PrefixFree codeTable ∧
      ∀ other : Char → List Char,
        (∀ p ∈ ([('a', 3), ('b', 2), ('c', 1)] : FreqMap), ∀ c ∈ other p.1, c = '0' ∨ c = '1') →
        (∀ p ∈ ([('a', 3), ('b', 2), ('c', 1)] : FreqMap),
          ∀ p2 ∈ ([('a', 3), ('b', 2), ('c', 1)] : FreqMap),
            p.1 ≠ p2.1 → ¬ other p.1 <+: other p2.1) →
        encodedLength [('a', 3), ('b', 2), ('c', 1)] (codeOf codeTable) ≤
          encodedLength [('a', 3), ('b', 2), ('c', 1)] other :=
  ⟨⟨by decide, by decide, by decide⟩,
    huffman_optimal [('a', 3), ('b', 2), ('c', 1)] (by decide) (by decide) (by decide)⟩

end HuffmanTree
